import Mathlib

/-!
# Verification of `transpose.c`

A shallow embedding of the tab-delimited text transposer and proofs about it.

Modelling conventions.

* A byte is a natural number; byte streams, buffers and C strings are lists of
  bytes.  `0` is NUL, `9` is tab, `10` is LF and `13` is CR.
* An input stream is the list of its unread bytes; `fgetc` takes the head and
  `ungetc` puts one byte back in front.  An output stream is the list of the
  bytes written to it.
* A `char *` buffer is the list of the bytes the program has written to it,
  terminating NUL included; a pointer into a buffer is an offset.
* Inside the reader and inside `split_tabs` the `uint32_t` variables `length`
  and `count` are the lengths of the lists built so far: they do not wrap for
  a line shorter than `2 ^ 32 - 1` bytes.  The length the reader reports, the
  row counter `row`, every capacity `(uint32_t) (MEM_OVERHEAD * n)` and every
  narrowing store of a field offset (to 8, 16, 24 or 32 bits) are modelled
  with their explicit modulus.
* Allocation never fails.  The capacities of the arrays of `read_text_data`
  are tracked in `max_allocated_rows` and `max_allocated_cols` as in the
  program.  The line buffer of the reader and the field array of `split_tabs`
  are modelled by their contents alone: their capacities `max_length` and
  `max_field` grow by the same rule `(uint32_t) (MEM_OVERHEAD * n)`, where
  `n` is at most the number of bytes read so far plus one.
* The range of the model.  `(uint32_t) (MEM_OVERHEAD * n)` is at least `n`,
  and the conversion is in range, exactly for `n ≤ 4252442867`
  (`MEM_OVERHEAD_ge`, `MEM_OVERHEAD_wraps`).  For a stream shorter than
  `4252442867` bytes every capacity the program computes is therefore large
  enough and no counter wraps.  From that length on a capacity can come out
  smaller than what is written to the array, where the behaviour of the C
  program is undefined and the model does not describe it.  Every theorem
  that states a claim about the run of the program on an arbitrary stream
  assumes a stream shorter than `4252442867` bytes.
-/

namespace Transpose

/-! ## Constants -/

/-- The value of `MEM_OVERHEAD * n` converted back to `uint32_t`, for a
`uint32_t` value `n`, where `MEM_OVERHEAD` is `1.01`: the integer part of
`1.01 * n`, reduced modulo `2 ^ 32`.  For `n ≤ 4252442867` the integer part
is below `2 ^ 32` and the conversion leaves it unchanged. -/
def MEM_OVERHEAD (n : Nat) : Nat := n * 101 / 100 % 4294967296

/-- The reallocation rule `if (n > max) max = MEM_OVERHEAD * n;` by which the
program grows the capacity `max` of a buffer or array before it stores entry
`n - 1`: the capacity afterwards. -/
def grow_capacity (max n : Nat) : Nat := if n > max then MEM_OVERHEAD n else max

/-! ## The packed table -/

/-- The C `struct text_data`.  The row arrays hold one entry per ingested row;
a `NULL` pointer is `none`.  An offset array is the list of its bytes. -/
structure text_data where
  lines : List (Option (List Nat))
  line_idxs : List (Option (List Nat))
  line_bits : List Nat
  num_cols_per_row : List Nat
  num_rows_per_col : List Nat
  num_rows : Nat
  num_cols : Nat
deriving DecidableEq, Repr

/-! ## Line reader -/

/-- What one successful call of `fgets_strip_realloc_len` leaves behind:
`string[0 .. length]` (the terminating NUL written at `string[length]`
included), the value stored through `return_length`, and the stream. -/
structure line_result where
  string : List Nat
  length : Nat
  infile : List Nat
deriving DecidableEq, Repr

/-- The `while ((c = fgetc(infile)) != EOF)` loop of `fgets_strip_realloc_len`.
Arguments: the unread stream, `string[0 .. length)` (so `length` is the length
of that list), `old_c` and `anything_flag`.  Result: `string[0 .. length)`,
`anything_flag` and the stream when the loop is left.  The buffer is modelled
by its contents: before each store the program makes sure of the capacity
`max_length` by the rule `grow_capacity`, for `total_length = length + 2`,
which is at most the number of bytes read plus one. -/
def fgets_loop : List Nat → List Nat → Nat → Bool → List Nat × Bool × List Nat
  | [], string, _, anything_flag => (string, anything_flag, [])
  | c :: infile, string, old_c, _ =>
    if c = 10 then
      (if old_c = 13 then string.set (string.length - 1) 0 else string, true, infile)
    else if old_c = 13 then
      (string, true, c :: infile)
    else
      fgets_loop infile (string ++ [c]) c true

/-- The code of `fgets_strip_realloc_len` after its loop: the dangling CR is
dropped, `NULL` (`none`) is returned when nothing at all was read, and
otherwise the string is terminated and its length reported, as the `uint32_t`
it is stored in. -/
def fgets_finish (r : List Nat × Bool × List Nat) : Option line_result :=
  let string := r.1
  let string :=
    if string.length ≠ 0 ∧ string.getD (string.length - 1) 0 = 13 then string.dropLast
    else string
  if string.length = 0 ∧ r.2.1 = false then none
  else some ⟨string ++ [0], string.length % 4294967296, r.2.2⟩

/-- The C function `fgets_strip_realloc_len`: `none` is the `NULL` return
(end of stream).  The line buffer is written from index `0` on every call, so
its previous content is not an input of the model. -/
def fgets_strip_realloc_len (infile : List Nat) : Option line_result :=
  fgets_finish (fgets_loop infile [] 0 false)

/-! ## Field splitter -/

/-- The `for (cptr = string; *cptr; cptr++)` loop of `split_tabs` together
with the store of the final field.  Arguments: the buffer from `cptr` on,
`cptr - string` and `sptr - string`.  Result: the buffer from `cptr` on after
the loop, and the field starts stored from here on. -/
def split_tabs_loop : List Nat → Nat → Nat → List Nat × List Nat
  | [], _, sptr => ([], [sptr])
  | b :: rest, cptr, sptr =>
    if b = 0 then (b :: rest, [sptr])
    else if b = 9 then
      let r := split_tabs_loop rest (cptr + 1) (cptr + 1)
      (0 :: r.1, sptr :: r.2)
    else
      let r := split_tabs_loop rest (cptr + 1) sptr
      (b :: r.1, r.2)

/-- The C function `split_tabs`: the buffer after the call and the array
`fields[0 .. count)` as offsets from `string`; the returned count is the
length of that array. -/
def split_tabs (string : List Nat) : List Nat × List Nat :=
  split_tabs_loop string 0 0

/-! ## Offset arrays -/

/-- Bytes of a `uint8_t` store. -/
def store_u8 (k : Nat) : List Nat := [k % 256]

/-- Bytes of a `uint16_t` store (low byte first). -/
def store_u16 (k : Nat) : List Nat := [k % 256, k / 256 % 256]

/-- Bytes of the three-byte entry: `u16 = (uint16_t) k` copied to the first
two bytes, `k >> 16` stored in the third, for the `uint32_t` value `k`. -/
def store_u24 (k : Nat) : List Nat :=
  store_u16 (k % 4294967296 % 65536) ++ [((k % 4294967296) >>> 16) % 256]

/-- Bytes of a `uint32_t` store (low byte first). -/
def store_u32 (k : Nat) : List Nat :=
  [k % 256, k / 256 % 256, k / 65536 % 256, k / 16777216 % 256]

/-- Read of `ptr_u8[i]`. -/
def load_u8 (a : List Nat) (i : Nat) : Nat := a.getD i 0

/-- Read of `ptr_u16[i]`. -/
def load_u16 (a : List Nat) (i : Nat) : Nat :=
  a.getD (2 * i) 0 + 256 * a.getD (2 * i + 1) 0

/-- Read of the three-byte entry `i`:
`(uint32_t) u16 | (ptr_u8[2] << 16)` with `ptr_u8 = base + 3 * i`. -/
def load_u24 (a : List Nat) (i : Nat) : Nat :=
  (a.getD (3 * i) 0 + 256 * a.getD (3 * i + 1) 0) ||| (a.getD (3 * i + 2) 0 <<< 16)

/-- Read of `ptr_u32[i]`. -/
def load_u32 (a : List Nat) (i : Nat) : Nat :=
  a.getD (4 * i) 0 + 256 * a.getD (4 * i + 1) 0 + 65536 * a.getD (4 * i + 2) 0
    + 16777216 * a.getD (4 * i + 3) 0

/-- The width chosen in `read_text_data` from `max_field_index`. -/
def choose_bits (max_field_index : Nat) : Nat :=
  if max_field_index > 0xFFFFFF then 32
  else if max_field_index > 0xFFFF then 24
  else if max_field_index > 0xFF then 16
  else 8

/-- The offset array filled in `read_text_data` under the chosen width. -/
def store_fields (bits : Nat) (fields : List Nat) : List Nat :=
  if bits = 32 then fields.flatMap store_u32
  else if bits = 24 then fields.flatMap store_u24
  else if bits = 16 then fields.flatMap store_u16
  else fields.flatMap store_u8

/-- The offset decoded in `transpose_text_data` for entry `col`, in the order
the program tests the width. -/
def load_field (bits : Nat) (idxs : List Nat) (col : Nat) : Nat :=
  if bits = 24 then load_u24 idxs col
  else if bits = 16 then load_u16 idxs col
  else if bits = 8 then load_u8 idxs col
  else load_u32 idxs col

/-! ## Ingest -/

/-- The local variables of `read_text_data` that live across loop
iterations. -/
structure ingest_state where
  lines : List (Option (List Nat))
  line_idxs : List (Option (List Nat))
  line_bits : List Nat
  num_cols_per_row : List Nat
  num_rows_per_col : List Nat
  max_allocated_rows : Nat
  max_allocated_cols : Nat
  row : Nat
  max_row : Nat
  max_col : Nat
deriving DecidableEq, Repr

/-- The state of `read_text_data` before its loop. -/
def ingest_init : ingest_state :=
  ⟨[], [], [], [], [], 0, 0, 0, 0, 0⟩

/-- The stores `num_rows_per_col[0] = row` and
`for (i = 1; i < num_fields; i++) num_rows_per_col[i] = row`. -/
def store_rows_per_col (num_rows_per_col : List Nat) (num_fields row : Nat) : List Nat :=
  (List.range' 1 (num_fields - 1)).foldl (fun a i => a.set i row) (num_rows_per_col.set 0 row)

/-- One iteration of the loop of `read_text_data`, for the line `string`
of reported length `line_length`.  Entry `row` of each row array is the next
entry of the list, as long as `row` has not wrapped; `line_bits[row]`, which
the program leaves unwritten for a row without fields, is `0` there. -/
def ingest_line (st : ingest_state) (string : List Nat) (line_length : Nat) : ingest_state :=
  let sp := split_tabs string
  let string := sp.1
  let fields := sp.2
  let num_fields := fields.length
  let grow_cols : Bool := num_fields > st.max_allocated_cols
  let max_allocated_cols := if grow_cols then MEM_OVERHEAD num_fields else st.max_allocated_cols
  let num_rows_per_col :=
    if grow_cols then
      st.num_rows_per_col ++ List.replicate (max_allocated_cols - st.max_allocated_cols) 0
    else st.num_rows_per_col
  let max_allocated_rows :=
    if (st.row + 1) % 4294967296 > st.max_allocated_rows then
      MEM_OVERHEAD ((st.row + 1) % 4294967296)
    else st.max_allocated_rows
  let num_fields :=
    if num_fields = 1 ∧ string.getD (fields.getD 0 0) 0 = 0 then 0 else num_fields
  let max_field_index := fields.getD (num_fields - 1) 0 % 4294967296
  let bits := choose_bits max_field_index
  let line : Option (List Nat) :=
    if num_fields ≠ 0 then some (string.take (line_length + 1)) else none
  let idxs : Option (List Nat) :=
    if num_fields ≠ 0 then some (store_fields bits (fields.take num_fields)) else none
  let row := (st.row + 1) % 4294967296
  { lines := st.lines ++ [line]
    line_idxs := st.line_idxs ++ [idxs]
    line_bits := st.line_bits ++ [if num_fields ≠ 0 then bits else 0]
    num_cols_per_row := st.num_cols_per_row ++ [num_fields]
    num_rows_per_col := store_rows_per_col num_rows_per_col num_fields row
    max_allocated_rows := max_allocated_rows
    max_allocated_cols := max_allocated_cols
    row := row
    max_row := if row > st.max_row then row else st.max_row
    max_col := if num_fields > st.max_col then num_fields else st.max_col }

/-- The loop `while (fgets_strip_realloc_len(...))` of `read_text_data`, run
for at most `fuel` iterations. -/
def read_loop : Nat → List Nat → ingest_state → ingest_state
  | 0, _, st => st
  | fuel + 1, infile, st =>
    match fgets_strip_realloc_len infile with
    | none => st
    | some r => read_loop fuel r.infile (ingest_line st r.string r.length)

/-- The stores into `*text_data` at the end of `read_text_data`. -/
def ingest_result (st : ingest_state) : text_data :=
  { lines := st.lines
    line_idxs := st.line_idxs
    line_bits := st.line_bits
    num_cols_per_row := st.num_cols_per_row
    num_rows_per_col := st.num_rows_per_col
    num_rows := st.max_row
    num_cols := st.max_col }

/-- The C function `read_text_data` on an opened stream.  Every iteration
of the loop consumes a byte, so one more iteration than the stream has bytes
is enough fuel. -/
def read_text_data (infile : List Nat) : text_data :=
  ingest_result (read_loop (infile.length + 1) infile ingest_init)

/-! ## Transpose emitter -/

/-- The bytes `fputs` writes for the C string starting at `string`. -/
def fputs (string : List Nat) : List Nat := string.takeWhile (fun b => b ≠ 0)

/-- Body of the loop over `row` that prints the first output line. -/
def emit_first_cell (td : text_data) (row : Nat) : List Nat :=
  (if row ≠ 0 then [9] else []) ++
    (if td.num_cols_per_row.getD row 0 ≠ 0 then fputs ((td.lines.getD row none).getD [])
     else [])

/-- Body of the loop over `row` that prints output line `col`. -/
def emit_cell (td : text_data) (col row : Nat) : List Nat :=
  (if row ≠ 0 then [9] else []) ++
    (if col < td.num_cols_per_row.getD row 0 then
      fputs (((td.lines.getD row none).getD []).drop
        (load_field (td.line_bits.getD row 0) ((td.line_idxs.getD row none).getD []) col))
     else [])

/-- The C function `transpose_text_data`: the bytes written to `outfile`. -/
def transpose_text_data (td : text_data) : List Nat :=
  if td.num_rows = 0 then []
  else
    ((List.range (td.num_rows_per_col.getD 0 0)).flatMap (emit_first_cell td) ++ [10]) ++
    (List.range' 1 (td.num_cols - 1)).flatMap (fun col =>
      (List.range (td.num_rows_per_col.getD col 0)).flatMap (emit_cell td col) ++ [10])

/-- The whole pipeline on opened streams: `read_text_data` on the input
bytes, then `transpose_text_data`; the result is the output bytes. -/
def transpose_pipeline (infile : List Nat) : List Nat :=
  transpose_text_data (read_text_data infile)

/-! ## Reference definitions

The notions the specification is written in, defined without the program:
the lines of a byte stream, the fields of a line, the rows of an input, and
the counts and cells of the transposition over any rows. -/

/-- Lines of a stream with the current line `cur` already begun: LF, CR LF
and a CR not followed by LF each end a line; bytes left at the end of the
stream are a last line. -/
def spec_lines_from : List Nat → List Nat → List (List Nat)
  | [], cur => if cur = [] then [] else [cur]
  | c :: rest, cur =>
    if c = 10 then cur :: spec_lines_from rest []
    else if c = 13 then
      cur :: (match rest with
              | d :: rest' =>
                if d = 10 then spec_lines_from rest' [] else spec_lines_from (d :: rest') []
              | [] => [])
    else spec_lines_from rest (cur ++ [c])

/-- The line contents of a byte stream, end-of-line markers stripped. -/
def spec_lines (s : List Nat) : List (List Nat) := spec_lines_from s []

/-- The fields of a line text: none for the empty text, otherwise the pieces
between its tab bytes (`n + 1` fields for `n` tabs). -/
def spec_fields (text : List Nat) : List (List Nat) :=
  if text = [] then [] else text.splitOn 9

/-- The rows of an input stream: the fields of each of its lines. -/
def spec_rows (s : List Nat) : List (List (List Nat)) := (spec_lines s).map spec_fields

/-- The largest field count among the rows (`0` without rows). -/
def spec_num_cols (rows : List (List (List Nat))) : Nat :=
  (rows.map List.length).foldl max 0

/-- The 1-based index of the last row that has more than `c` fields (`0` when
no row has), and the number of rows for `c = 0`. -/
def spec_col_rows (rows : List (List (List Nat))) (c : Nat) : Nat :=
  if c = 0 then rows.length
  else (rows.rdropWhile (fun row => decide (row.length ≤ c))).length

/-! ## Lines as the program reads them

The program keeps a line as a C string: what it reads of a line ends at the
first NUL byte of the line.  For a line without NUL byte this is the line
itself (`read_rows_of_no_nul`). -/

/-- The text of a buffer read as a C string: its bytes before the first NUL
byte (all of them when it has none). -/
def c_string (line : List Nat) : List Nat := line.takeWhile (fun b => b ≠ 0)

/-- The fields the program reads in an input line: those of the line read as
a C string. -/
def read_fields (line : List Nat) : List (List Nat) := spec_fields (c_string line)

/-- The rows the program reads in an input stream: the fields it reads in
each line. -/
def read_rows (s : List Nat) : List (List (List Nat)) := (spec_lines s).map read_fields

/-- What a successful call of the line reader yields for the line content
`line`: the content, one more NUL byte when the marker was CR LF (the byte
that replaced the CR), and the terminator; the length counts all but the
terminator. -/
def line_yield (line : List Nat) (r : line_result) : Prop :=
  ∃ pad, (pad = [] ∨ pad = [0]) ∧ r.string = line ++ pad ++ [0] ∧
    r.length = line.length + pad.length

/-- What `split_tabs_loop` returns on a NUL-free text followed by a NUL byte,
after the prefix `pre` of which the bytes from `sptr` on begin the current
field. -/
def split_post (text tail pre : List Nat) (sptr : Nat) (r : List Nat × List Nat) : Prop :=
  r.1 = text.map (fun b => if b = 9 then 0 else b) ++ 0 :: tail ∧
  r.2.map (fun o => fputs ((pre ++ r.1).drop o)) =
    (text.splitOn 9).modifyHead (fun x => pre.drop sptr ++ x) ∧
  (∀ o ∈ r.2, sptr ≤ o ∧ o ≤ pre.length + text.length) ∧
  r.2.Sorted (· < ·) ∧ r.2.head? = some sptr

/-- The number of fields `read_text_data` records for a line buffer. -/
def line_num_fields (string : List Nat) : Nat :=
  if (split_tabs string).2.length = 1 ∧
      (split_tabs string).1.getD ((split_tabs string).2.getD 0 0) 0 = 0 then 0
  else (split_tabs string).2.length

/-- Row `r` of a table holds the fields of the line content `line`: the
recorded field count, a buffer without LF, field 0 at the start of the
buffer, and every field at its decoded offset (for a line that 32-bit
offsets can address). -/
def row_ok (td : text_data) (r : Nat) (line : List Nat) : Prop :=
  td.num_cols_per_row.getD r 0 = (read_fields line).length ∧
  (10 ∉ line → 10 ∉ (td.lines.getD r none).getD []) ∧
  (read_fields line ≠ [] →
    fputs ((td.lines.getD r none).getD []) = (read_fields line).getD 0 []) ∧
  (line.length < 4294967296 → ∀ c, c < (read_fields line).length →
    fputs (((td.lines.getD r none).getD []).drop
      (load_field (td.line_bits.getD r 0) ((td.line_idxs.getD r none).getD []) c))
      = (read_fields line).getD c [])

/-- The state of the ingest loop after the lines `lines` have been read. -/
def table_inv (st : ingest_state) (lines : List (List Nat)) : Prop :=
  st.row = lines.length ∧ st.max_row = lines.length ∧
  st.max_col = spec_num_cols (lines.map read_fields) ∧
  st.lines.length = lines.length ∧ st.line_idxs.length = lines.length ∧
  st.line_bits.length = lines.length ∧ st.num_cols_per_row.length = lines.length ∧
  st.num_rows_per_col.length = st.max_allocated_cols ∧
  spec_num_cols (lines.map read_fields) ≤ st.max_allocated_cols ∧
  (lines ≠ [] → 1 ≤ st.max_allocated_cols) ∧
  (∀ c, c < st.max_allocated_cols →
    st.num_rows_per_col.getD c 0 = spec_col_rows (lines.map read_fields) c) ∧
  (∀ r, r < lines.length → row_ok (ingest_result st) r (lines.getD r []))

/-- The cell of row `r` in column `c`: empty when the row has no such field. -/
def spec_cell (rows : List (List (List Nat))) (c r : Nat) : List Nat :=
  (rows.getD r []).getD c []

/-- Output line `c` of the transposed rows: the cells of column `c` for the
rows up to the last one that reaches the column, joined by tabs. -/
def spec_out_line (rows : List (List (List Nat))) (c : Nat) : List Nat :=
  [9].intercalate ((List.range (spec_col_rows rows c)).map (spec_cell rows c))

/-- The transposed text of the rows: nothing without rows, otherwise the
line of column `0` and one line for each further column. -/
def spec_transpose (rows : List (List (List Nat))) : List Nat :=
  if rows = [] then []
  else (spec_out_line rows 0 ++ [10]) ++
    (List.range' 1 (spec_num_cols rows - 1)).flatMap (fun c => spec_out_line rows c ++ [10])

/-- The bytes `transpose_text_data` writes before the newline of output
line `col`, for `col ≥ 1`. -/
def emit_line (td : text_data) (col : Nat) : List Nat :=
  (List.range (td.num_rows_per_col.getD col 0)).flatMap (emit_cell td col)

/-- The text `transpose_text_data` prints for field `c` of row `r`: the C
string at the offset decoded from the row's offset array. -/
def table_field (td : text_data) (r c : Nat) : List Nat :=
  fputs (((td.lines.getD r none).getD []).drop
    (load_field (td.line_bits.getD r 0) ((td.line_idxs.getD r none).getD []) c))

/-! ## Streams built from lines -/

/-- An end-of-line marker: LF, CR LF or a bare CR. -/
inductive eol where
  | lf
  | crlf
  | cr
deriving DecidableEq, Repr

/-- The bytes of an end-of-line marker. -/
def eol.bytes : eol → List Nat
  | eol.lf => [10]
  | eol.crlf => [13, 10]
  | eol.cr => [13]

/-- The stream of the given line contents, each followed by its marker. -/
def serialise (ls : List (List Nat × eol)) : List Nat :=
  ls.flatMap (fun p => p.1 ++ p.2.bytes)

/-- No line ended by a bare CR is directly followed by an empty line ended by
LF: the two markers would be the bytes of one CR LF marker. -/
def eol_unambiguous : List (List Nat × eol) → Bool
  | p :: q :: rest =>
    !(decide (p.2 = eol.cr) && decide (q.1 = []) && decide (q.2 = eol.lf)) &&
      eol_unambiguous (q :: rest)
  | _ => true

/-- The results of the successive calls of `fgets_strip_realloc_len` on a
stream, up to the call that returns `NULL`, for at most `fuel` calls. -/
def read_lines : Nat → List Nat → List line_result
  | 0, _ => []
  | fuel + 1, infile =>
    match fgets_strip_realloc_len infile with
    | none => []
    | some r => r :: read_lines fuel r.infile

/-- The lines the successive calls of `fgets_strip_realloc_len` yield on a
stream, each as the C string the call returns. -/
def yielded_lines (infile : List Nat) : List (List Nat) :=
  (read_lines (infile.length + 1) infile).map (fun r => c_string r.string)

/-- The stream of the given line contents, every line ended by the marker
`t`. -/
def serialise_with (t : eol) (lines : List (List Nat)) : List Nat :=
  serialise (lines.map (fun l => (l, t)))

/-! ## Tables -/

/-- The text of a table: the cells of each row joined by tabs, every row
ended by LF. -/
def serialise_table (t : List (List (List Nat))) : List Nat :=
  serialise_with eol.lf (t.map (fun row => [9].intercalate row))

/-- The transpose of a table with `cols` columns: row `c` holds the cell in
column `c` of every row of the table. -/
def transpose_table (t : List (List (List Nat))) (cols : Nat) : List (List (List Nat)) :=
  (List.range cols).map (fun c => (List.range t.length).map (fun r => spec_cell t c r))

/-- A table of `cols ≥ 1` columns and at least one row whose cells hold no
NUL, tab, LF or CR byte. -/
def well_formed_table (t : List (List (List Nat))) (cols : Nat) : Prop :=
  t ≠ [] ∧ 1 ≤ cols ∧ (∀ row ∈ t, row.length = cols) ∧
  ∀ row ∈ t, ∀ cell ∈ row, 0 ∉ cell ∧ 9 ∉ cell ∧ 10 ∉ cell ∧ 13 ∉ cell

/-! ## Field starts -/

/-- The positions of the tab bytes of a text, in increasing order. -/
def spec_tab_positions (text : List Nat) : List Nat :=
  (List.range text.length).filter (fun i => decide (text.getD i 0 = 9))

/-- The starts of the fields of a text: `0`, and the position after each tab
byte. -/
def spec_field_starts (text : List Nat) : List Nat :=
  0 :: (spec_tab_positions text).map (fun p => p + 1)

/-- The largest field start of a text: the start of its last field. -/
def spec_max_offset (text : List Nat) : Nat :=
  (spec_field_starts text).getLast (List.cons_ne_nil _ _)

/-! ## The row entries of one line -/

/-- The value `read_text_data` stores in `num_cols_per_row[row]` for the line
a call of the reader returned. -/
def row_num_fields (r : line_result) : Nat := line_num_fields r.string

/-- The value `read_text_data` stores in `lines[row]`. -/
def row_line (r : line_result) : Option (List Nat) :=
  if line_num_fields r.string ≠ 0 then some ((split_tabs r.string).1.take (r.length + 1))
  else none

/-- The width `read_text_data` stores in `line_bits[row]` (`0` where it stores
none). -/
def row_bits (r : line_result) : Nat :=
  if line_num_fields r.string ≠ 0 then
    choose_bits ((split_tabs r.string).2.getD (line_num_fields r.string - 1) 0 % 4294967296)
  else 0

/-- The value `read_text_data` stores in `line_idxs[row]`. -/
def row_idxs (r : line_result) : Option (List Nat) :=
  if line_num_fields r.string ≠ 0 then
    some (store_fields
      (choose_bits ((split_tabs r.string).2.getD (line_num_fields r.string - 1) 0 % 4294967296))
      ((split_tabs r.string).2.take (line_num_fields r.string)))
  else none

/-! ## Files and standard streams

`transpose_entry_point` and the opening part of `read_text_data` call the C
library: `fopen`, `fclose`, `fprintf (stderr, ...)`. The library is modelled
by a state of named files and standard streams. File names are C strings
(byte lists), a `NULL` name is `none`, and `[45]` is the name `-`. Which
names `fopen` can open is a parameter of the state. -/

/-- A call of `fopen`: the name, and whether the call returned a stream. -/
inductive os_event where
  | open_read (name : List Nat) (ok : Bool)
  | open_write (name : List Nat) (ok : Bool)
  deriving DecidableEq

/-- The two messages the program prints on `stderr`. -/
inductive diagnostic where
  | cant_open_input (name : List Nat)
  | cant_open_output (name : List Nat)
  deriving DecidableEq

/-- The files with their contents, what `fopen` may open, the bytes waiting
on standard input, the bytes written to standard output so far, the messages
on standard error, and the calls of `fopen` made so far. -/
structure os_state where
  files : List (List Nat × List Nat)
  can_read : List Nat → Bool
  can_write : List Nat → Bool
  stdin : List Nat
  stdout : List Nat
  stderr : List diagnostic
  trace : List os_event

/-- The files after `name` got the contents `bytes`: an existing file is
replaced, a missing one is created. -/
def set_file (files : List (List Nat × List Nat)) (name bytes : List Nat) :
    List (List Nat × List Nat) :=
  match files with
  | [] => [(name, bytes)]
  | (n, b) :: rest =>
    if n = name then (name, bytes) :: rest else (n, b) :: set_file rest name bytes

/-- The call `fopen (name, "rb")`: the contents of the file when it exists and
may be read, `none` for the null stream. -/
def fopen_rb (w : os_state) (name : List Nat) : Option (List Nat) × os_state :=
  let r := if w.can_read name then w.files.lookup name else none
  (r, { w with trace := w.trace ++ [os_event.open_read name r.isSome] })

/-- The call `fopen (name, "wt")`: when the name may be written, the file is
created or truncated to length zero; otherwise the null stream (`false`) is
returned and no file changes. -/
def fopen_wt (w : os_state) (name : List Nat) : Bool × os_state :=
  if w.can_write name then
    (true, { w with files := set_file w.files name [],
                    trace := w.trace ++ [os_event.open_write name true] })
  else
    (false, { w with trace := w.trace ++ [os_event.open_write name false] })

/-- The function `read_text_data` with its opening of the input: standard
input for a `NULL` name and for the name `-`, the named file otherwise. The
result `none` is the return value `1`; `some td` is the return value `0` with
the table `td` stored through the pointer. A stream that was opened is read
to its end. -/
def read_text_data_file (w : os_state) (filename : Option (List Nat)) :
    Option text_data × os_state :=
  match filename with
  | none => (some (read_text_data w.stdin), { w with stdin := [] })
  | some name =>
    if name = [45] then (some (read_text_data w.stdin), { w with stdin := [] })
    else
      match fopen_rb w name with
      | (none, w1) =>
        (none, { w1 with stderr := w1.stderr ++ [diagnostic.cant_open_input name] })
      | (some bytes, w1) => (some (read_text_data bytes), w1)

/-- The function `transpose_entry_point`: the return value and the state it
leaves. The output file is opened only after the input was read; the bytes of
`transpose_text_data` go to the named file, or to standard output for a
`NULL` name. -/
def transpose_entry_point (w : os_state) (infile_name outfile_name : Option (List Nat)) :
    Nat × os_state :=
  match read_text_data_file w infile_name with
  | (none, w1) => (1, w1)
  | (some td, w1) =>
    match outfile_name with
    | some name =>
      match fopen_wt w1 name with
      | (false, w2) =>
        (1, { w2 with stderr := w2.stderr ++ [diagnostic.cant_open_output name] })
      | (true, w2) =>
        (0, { w2 with files := set_file w2.files name (transpose_text_data td) })
    | none => (0, { w1 with stdout := w1.stdout ++ transpose_text_data td })

/-- The function `main` on the argument vector `argv` (the program name
first): the exit status. -/
def main (w : os_state) (argv : List (List Nat)) : Nat × os_state :=
  let infile_name := if 1 < argv.length then argv[1]? else none
  let outfile_name := if 2 < argv.length then argv[2]? else none
  match transpose_entry_point w infile_name outfile_name with
  | (0, w1) => (0, w1)
  | (_, w1) => (1, w1)

/-- The state used in the examples: one file `f` holding `a`, LF; every name
can be opened for reading when it exists, and no name for writing but `o`. -/
def example_state : os_state :=
  { files := [([102], [97, 10])], can_read := fun _ => true,
    can_write := fun name => name == [111],
    stdin := [], stdout := [], stderr := [], trace := [] }

/-! ## The emitter with checked accesses

The function `transpose_text_data` once more, with every read of an array
guarded by the bound of the array: the result is `none` as soon as one index
is outside its array, a null row pointer is dereferenced, or a C string does
not end inside its buffer. -/

/-- The offset `load_field` decodes, when the bytes it reads are inside the
offset array. -/
def load_field_checked (bits : Nat) (idxs : List Nat) (col : Nat) : Option Nat :=
  if bits = 24 then (if 3 * col + 2 < idxs.length then some (load_u24 idxs col) else none)
  else if bits = 16 then (if 2 * col + 1 < idxs.length then some (load_u16 idxs col) else none)
  else if bits = 8 then (if col < idxs.length then some (load_u8 idxs col) else none)
  else (if 4 * col + 3 < idxs.length then some (load_u32 idxs col) else none)

/-- The bytes `fputs` writes, when the string has its NUL inside the buffer. -/
def fputs_checked (string : List Nat) : Option (List Nat) :=
  if 0 ∈ string then some (fputs string) else none

/-- The body `emit_first_cell` with checked accesses. -/
def emit_first_cell_checked (td : text_data) (row : Nat) : Option (List Nat) :=
  if row < td.num_rows then
    match td.num_cols_per_row[row]? with
    | none => none
    | some n =>
      if n ≠ 0 then
        match td.lines[row]? with
        | some (some buf) =>
          (fputs_checked buf).map (fun text => (if row ≠ 0 then [9] else []) ++ text)
        | _ => none
      else some ((if row ≠ 0 then [9] else []) ++ [])
  else none

/-- The body `emit_cell` with checked accesses. -/
def emit_cell_checked (td : text_data) (col row : Nat) : Option (List Nat) :=
  if row < td.num_rows then
    match td.num_cols_per_row[row]? with
    | none => none
    | some n =>
      if col < n then
        match td.lines[row]?, td.line_idxs[row]?, td.line_bits[row]? with
        | some (some buf), some (some idxs), some bits =>
          match load_field_checked bits idxs col with
          | some off =>
            if off ≤ buf.length then
              (fputs_checked (buf.drop off)).map (fun text => (if row ≠ 0 then [9] else []) ++ text)
            else none
          | none => none
        | _, _, _ => none
      else some ((if row ≠ 0 then [9] else []) ++ [])
  else none

/-- The bytes of the checked bodies `f i` for the indices `i` of a loop, one
after the other; `none` when one of them is. -/
def emit_all_checked (f : Nat → Option (List Nat)) : List Nat → Option (List Nat)
  | [] => some []
  | i :: rest =>
    match f i, emit_all_checked f rest with
    | some a, some b => some (a ++ b)
    | _, _ => none

/-- The function `transpose_text_data` with checked accesses. -/
def transpose_text_data_checked (td : text_data) : Option (List Nat) :=
  if td.num_rows = 0 then some []
  else
    match td.num_rows_per_col[0]? with
    | none => none
    | some n0 =>
      match emit_all_checked (emit_first_cell_checked td) (List.range n0),
        emit_all_checked (fun col =>
          match td.num_rows_per_col[col]? with
          | none => none
          | some n =>
            (emit_all_checked (emit_cell_checked td col) (List.range n)).map
              (fun line => line ++ [10])) (List.range' 1 (td.num_cols - 1)) with
      | some first, some others => some ((first ++ [10]) ++ others)
      | _, _ => none
/-! ## The line reader against the reference lines -/

theorem spec_lines_from_cons (c : Nat) (rest cur : List Nat) :
    spec_lines_from (c :: rest) cur =
      if c = 10 then cur :: spec_lines_from rest []
      else if c = 13 then
        cur :: (match rest with
                | d :: rest' =>
                  if d = 10 then spec_lines_from rest' [] else spec_lines_from (d :: rest') []
                | [] => [])
      else spec_lines_from rest (cur ++ [c]) := by
  cases rest <;> simp [spec_lines_from]

theorem getD_last_ne {cur : List Nat} {x : Nat} (h : x ∉ cur) (hx : x ≠ 0) :
    cur.getD (cur.length - 1) 0 ≠ x := by
  intro e
  by_cases hl : cur.length = 0
  · simp [List.getD, List.length_eq_zero.mp hl] at e
    exact hx e.symm
  · have hlt : cur.length - 1 < cur.length := by omega
    rw [List.getD_eq_getElem _ _ hlt] at e
    exact h (e ▸ List.getElem_mem _)

theorem fgets_finish_plain (cur : List Nat) (any : Bool) (rest : List Nat)
    (h13 : 13 ∉ cur) (hany : any = true) (hl : cur.length < 4294967296) :
    fgets_finish (cur, any, rest) = some ⟨cur ++ [0], cur.length, rest⟩ := by
  have hne : ¬ (cur.length ≠ 0 ∧ cur.getD (cur.length - 1) 0 = 13) :=
    fun h => getD_last_ne h13 (by decide) h.2
  simp only [fgets_finish, if_neg hne]
  simp [hany, Nat.mod_eq_of_lt hl]

theorem fgets_finish_cr (cur : List Nat) (rest : List Nat) (hl : cur.length < 4294967296) :
    fgets_finish (cur ++ [13], true, rest) = some ⟨cur ++ [0], cur.length, rest⟩ := by
  simp [fgets_finish, List.getD_eq_getElem, Nat.mod_eq_of_lt hl]

theorem fgets_loop_spec (s : List Nat) : ∀ (cur : List Nat) (old_c : Nat) (any : Bool),
    old_c ≠ 13 → 13 ∉ cur → (any = true ↔ cur ≠ []) → cur.length + s.length < 4294967296 →
    (fgets_finish (fgets_loop s cur old_c any) = none ∧ spec_lines_from s cur = []) ∨
    ∃ r line, fgets_finish (fgets_loop s cur old_c any) = some r ∧ line_yield line r ∧
      spec_lines_from s cur = line :: spec_lines_from r.infile [] ∧
      r.infile.length < s.length + cur.length := by
  induction s with
  | nil =>
    intro cur old_c any _ h13 hany hb
    simp only [List.length_nil, Nat.add_zero] at hb
    by_cases hc : cur = []
    · left
      subst hc
      have : any = false := by
        cases any with
        | false => rfl
        | true => exact absurd rfl (hany.mp rfl)
      simp [fgets_loop, fgets_finish, spec_lines_from, this]
    · right
      refine ⟨⟨cur ++ [0], cur.length, []⟩, cur, ?_, ⟨[], Or.inl rfl, by simp, by simp⟩, ?_, ?_⟩
      · simpa [fgets_loop] using fgets_finish_plain cur any [] h13 (hany.mpr hc) hb
      · simp [spec_lines_from, hc]
      · simpa using List.length_pos.mpr hc
  | cons c rest ih =>
    intro cur old_c any hold h13 hany hb
    simp only [List.length_cons] at hb
    by_cases h10 : c = 10
    · right
      subst h10
      refine ⟨⟨cur ++ [0], cur.length, rest⟩, cur, ?_, ⟨[], Or.inl rfl, by simp, by simp⟩, ?_, ?_⟩
      · simpa [fgets_loop, hold] using fgets_finish_plain cur true rest h13 rfl (by omega)
      · rw [spec_lines_from_cons]; simp
      · simp; omega
    · by_cases hcr : c = 13
      · right
        subst hcr
        cases rest with
        | nil =>
          refine ⟨⟨cur ++ [0], cur.length, []⟩, cur, ?_, ⟨[], Or.inl rfl, by simp, by simp⟩, ?_, ?_⟩
          · simpa [fgets_loop, hold] using fgets_finish_cr cur [] (by omega)
          · rw [spec_lines_from_cons]; simp [spec_lines_from]
          · simp
        | cons d rest' =>
          by_cases hd : d = 10
          · subst hd
            refine ⟨⟨cur ++ [0] ++ [0], cur.length + 1, rest'⟩, cur, ?_,
              ⟨[0], Or.inr rfl, by simp, by simp⟩, ?_, ?_⟩
            · have h0 : (13 : Nat) ∉ cur ++ [0] := by simp [h13]
              simpa [fgets_loop, hold] using fgets_finish_plain (cur ++ [0]) true rest' h0 rfl
                (by simp at hb ⊢; omega)
            · rw [spec_lines_from_cons]; simp
            · simp; omega
          · refine ⟨⟨cur ++ [0], cur.length, d :: rest'⟩, cur, ?_,
              ⟨[], Or.inl rfl, by simp, by simp⟩, ?_, ?_⟩
            · simpa [fgets_loop, hold, hd] using fgets_finish_cr cur (d :: rest') (by omega)
            · rw [spec_lines_from_cons]; simp [hd]
            · simp only [List.length_cons]; omega
      · have h13' : (13 : Nat) ∉ cur ++ [c] := by
          simp [h13]; exact fun e => hcr e.symm
        rcases ih (cur ++ [c]) c true hcr h13' (by simp) (by simp; omega) with ⟨h1, h2⟩ | ⟨r, line, h1, h2, h3, h4⟩
        · left
          refine ⟨?_, ?_⟩
          · simpa [fgets_loop, h10, hold] using h1
          · rw [spec_lines_from_cons]; simpa [h10, hcr] using h2
        · right
          refine ⟨r, line, ?_, h2, ?_, ?_⟩
          · simpa [fgets_loop, h10, hold] using h1
          · rw [spec_lines_from_cons]; simpa [h10, hcr] using h3
          · simp at h4 ⊢; omega

/-! ## The field splitter against the reference fields -/

theorem fputs_append_nul (a tail : List Nat) (h : ∀ x ∈ a, x ≠ 0) :
    fputs (a ++ 0 :: tail) = a := by
  unfold fputs
  rw [List.takeWhile_append_of_pos (fun x hx => by simpa using h x hx)]
  simp [List.takeWhile_cons]

theorem splitOn_cons_tab (t : List Nat) : (9 :: t).splitOn 9 = [] :: t.splitOn 9 := by
  simp [List.splitOn, List.splitOnP_cons]

theorem splitOn_cons_ne (b : Nat) (t : List Nat) (h : b ≠ 9) :
    (b :: t).splitOn 9 = (t.splitOn 9).modifyHead (List.cons b) := by
  simp [List.splitOn, List.splitOnP_cons, h]

theorem split_tabs_loop_nul (rest : List Nat) (cptr sptr : Nat) :
    split_tabs_loop (0 :: rest) cptr sptr = (0 :: rest, [sptr]) := by
  simp [split_tabs_loop]

theorem split_tabs_loop_tab (rest : List Nat) (cptr sptr : Nat) :
    split_tabs_loop (9 :: rest) cptr sptr =
      (0 :: (split_tabs_loop rest (cptr + 1) (cptr + 1)).1,
        sptr :: (split_tabs_loop rest (cptr + 1) (cptr + 1)).2) := by
  simp [split_tabs_loop]

theorem split_tabs_loop_other (b : Nat) (rest : List Nat) (cptr sptr : Nat)
    (h0 : b ≠ 0) (h9 : b ≠ 9) :
    split_tabs_loop (b :: rest) cptr sptr =
      (b :: (split_tabs_loop rest (cptr + 1) sptr).1,
        (split_tabs_loop rest (cptr + 1) sptr).2) := by
  simp [split_tabs_loop, h0, h9]

theorem split_tabs_loop_spec (text : List Nat) (h0 : ∀ x ∈ text, x ≠ 0) :
    ∀ (pre : List Nat) (sptr : Nat) (tail : List Nat), sptr ≤ pre.length →
      (∀ x ∈ pre.drop sptr, x ≠ 0) →
      split_post text tail pre sptr (split_tabs_loop (text ++ 0 :: tail) pre.length sptr) := by
  induction text with
  | nil =>
    intro pre sptr tail hs hpre
    rw [List.nil_append, split_tabs_loop_nul]
    refine ⟨rfl, ?_, ?_, ?_, ?_⟩
    · simp only [List.map_cons, List.map_nil]
      rw [List.drop_append_of_le_length hs, fputs_append_nul _ _ hpre]
      simp [List.splitOn, List.splitOnP, List.splitOnP.go, List.modifyHead]
    · simp; omega
    · simp
    · simp
  | cons b t ih =>
    intro pre sptr tail hs hpre
    have hb : b ≠ 0 := h0 b (List.mem_cons_self _ _)
    have ht : ∀ x ∈ t, x ≠ 0 := fun y hy => h0 y (List.mem_cons_of_mem _ hy)
    by_cases h9 : b = 9
    · subst h9
      have hlen : (pre ++ [0]).length = pre.length + 1 := by simp
      have hd : (pre ++ [0]).drop (pre.length + 1) = [] := by simp
      have IH := ih ht (pre ++ [0]) (pre.length + 1) tail (by simp) (by simp)
      rw [hlen] at IH
      rw [List.cons_append, split_tabs_loop_tab]
      generalize split_tabs_loop (t ++ 0 :: tail) (pre.length + 1) (pre.length + 1) = r at IH ⊢
      obtain ⟨i1, i2, i3, i4, i5⟩ := IH
      refine ⟨by simp [i1], ?_, ?_, ?_, ?_⟩
      · simp only [List.map_cons]
        rw [List.drop_append_of_le_length hs, fputs_append_nul _ _ hpre, splitOn_cons_tab]
        simp only [List.modifyHead, List.append_nil, List.cons.injEq, true_and]
        have : ∀ o, (pre ++ 0 :: r.1).drop o = (pre ++ [0] ++ r.1).drop o := by
          intro o; simp
        simp only [this, i2, hd]
        cases (List.splitOn 9 t) <;> simp [List.modifyHead]
      · intro o ho
        rcases List.mem_cons.mp ho with rfl | ho
        · simp only [List.length_cons]; omega
        · have := i3 o ho
          simp only [List.length_cons]; omega
      · simp only [List.sorted_cons]
        refine ⟨fun o ho => ?_, i4⟩
        have := i3 o ho
        omega
      · simp
    · have hlen : (pre ++ [b]).length = pre.length + 1 := by simp
      have hd : (pre ++ [b]).drop sptr = pre.drop sptr ++ [b] := by
        rw [List.drop_append_of_le_length hs]
      have IH := ih ht (pre ++ [b]) sptr tail (by simp; omega)
        (by rw [hd]; intro x hx; rcases List.mem_append.mp hx with h | h
            · exact hpre x h
            · simp at h; exact h ▸ hb)
      rw [hlen] at IH
      rw [List.cons_append, split_tabs_loop_other b _ _ _ hb h9]
      generalize split_tabs_loop (t ++ 0 :: tail) (pre.length + 1) sptr = r at IH ⊢
      obtain ⟨i1, i2, i3, i4, i5⟩ := IH
      refine ⟨by simp [i1, h9], ?_, ?_, i4, i5⟩
      · have : ∀ o, (pre ++ b :: r.1).drop o = (pre ++ [b] ++ r.1).drop o := by
          intro o; simp
        simp only [this, i2, hd, splitOn_cons_ne b t h9]
        cases (List.splitOn 9 t) <;> simp [List.modifyHead]
      · intro o ho
        have := i3 o ho
        simp only [List.length_cons]; omega

/-! ## Offset arrays: what is stored is what is loaded -/

theorem getD_flatMap_chunk (f : Nat → List Nat) (w : Nat) (hw : ∀ x, (f x).length = w) :
    ∀ (offs : List Nat) (k j : Nat), j < w → k < offs.length →
      (offs.flatMap f).getD (w * k + j) 0 = (f (offs.getD k 0)).getD j 0 := by
  intro offs
  induction offs with
  | nil => intro k j _ hk; simp at hk
  | cons x t ih =>
    intro k j hj hk
    cases k with
    | zero =>
      rw [List.flatMap_cons, Nat.mul_zero, Nat.zero_add,
        List.getD_append _ _ _ _ (by rw [hw]; exact hj)]
      rfl
    | succ k =>
      have hk' : k < t.length := by simpa using hk
      rw [List.flatMap_cons, List.getD_append_right _ _ _ _ (by rw [hw, Nat.mul_succ]; omega), hw]
      have : w * (k + 1) + j - w = w * k + j := by rw [Nat.mul_succ]; omega
      rw [this, ih k j hj hk']
      rfl

theorem load_store_u8 (offs : List Nat) (k : Nat) (hk : k < offs.length) :
    load_u8 (offs.flatMap store_u8) k = offs.getD k 0 % 256 := by
  have := getD_flatMap_chunk store_u8 1 (fun _ => rfl) offs k 0 (by omega) hk
  rw [Nat.one_mul, Nat.add_zero] at this
  rw [load_u8, this]
  rfl

theorem load_store_u16 (offs : List Nat) (k : Nat) (hk : k < offs.length) :
    load_u16 (offs.flatMap store_u16) k = offs.getD k 0 % 65536 := by
  have h0 := getD_flatMap_chunk store_u16 2 (fun _ => rfl) offs k 0 (by omega) hk
  have h1 := getD_flatMap_chunk store_u16 2 (fun _ => rfl) offs k 1 (by omega) hk
  rw [Nat.add_zero] at h0
  rw [load_u16, h0, h1]
  show offs.getD k 0 % 256 + 256 * (offs.getD k 0 / 256 % 256) = _
  omega

theorem load_store_u32 (offs : List Nat) (k : Nat) (hk : k < offs.length) :
    load_u32 (offs.flatMap store_u32) k = offs.getD k 0 % 4294967296 := by
  have h0 := getD_flatMap_chunk store_u32 4 (fun _ => rfl) offs k 0 (by omega) hk
  have h1 := getD_flatMap_chunk store_u32 4 (fun _ => rfl) offs k 1 (by omega) hk
  have h2 := getD_flatMap_chunk store_u32 4 (fun _ => rfl) offs k 2 (by omega) hk
  have h3 := getD_flatMap_chunk store_u32 4 (fun _ => rfl) offs k 3 (by omega) hk
  rw [Nat.add_zero] at h0
  rw [load_u32, h0, h1, h2, h3]
  show offs.getD k 0 % 256 + 256 * (offs.getD k 0 / 256 % 256)
    + 65536 * (offs.getD k 0 / 65536 % 256) + 16777216 * (offs.getD k 0 / 16777216 % 256) = _
  omega

theorem or_shift16 (a b : Nat) (ha : a < 65536) : a ||| (b <<< 16) = a + 65536 * b := by
  have h := Nat.mul_add_lt_is_or (i := 16) (b := a) (by simpa using ha) b
  rw [Nat.shiftLeft_eq, Nat.lor_comm, Nat.mul_comm b, ← h]
  norm_num
  omega

theorem load_store_u24 (offs : List Nat) (k : Nat) (hk : k < offs.length) :
    load_u24 (offs.flatMap store_u24) k = offs.getD k 0 % 16777216 := by
  have h0 := getD_flatMap_chunk store_u24 3 (fun _ => rfl) offs k 0 (by omega) hk
  have h1 := getD_flatMap_chunk store_u24 3 (fun _ => rfl) offs k 1 (by omega) hk
  have h2 := getD_flatMap_chunk store_u24 3 (fun _ => rfl) offs k 2 (by omega) hk
  rw [Nat.add_zero] at h0
  rw [load_u24, h0, h1, h2]
  show (offs.getD k 0 % 4294967296 % 65536 % 256
      + 256 * (offs.getD k 0 % 4294967296 % 65536 / 256 % 256))
      ||| ((((offs.getD k 0 % 4294967296) >>> 16) % 256) <<< 16) = _
  generalize offs.getD k 0 = x
  have e1 : x % 16777216 = (x % 4294967296) % 16777216 := by omega
  rw [e1]
  generalize x % 4294967296 = y
  have e2 : y % 65536 % 256 + 256 * (y % 65536 / 256 % 256) = y % 65536 := by omega
  rw [e2, or_shift16 _ _ (Nat.mod_lt _ (by norm_num)), Nat.shiftRight_eq_div_pow]
  have : (2 : Nat) ^ 16 = 65536 := by norm_num
  rw [this]
  omega

theorem load_store_field (offs : List Nat) (m : Nat) (hm : m < 4294967296)
    (hle : ∀ o ∈ offs, o ≤ m) (k : Nat) (hk : k < offs.length) :
    load_field (choose_bits m) (store_fields (choose_bits m) offs) k = offs.getD k 0 := by
  have hko : offs.getD k 0 ≤ m := by
    rw [List.getD_eq_getElem _ _ hk]
    exact hle _ (List.getElem_mem _)
  unfold choose_bits
  by_cases h1 : m > 0xFFFFFF
  · rw [if_pos h1]
    show load_u32 (offs.flatMap store_u32) k = _
    rw [load_store_u32 offs k hk]
    omega
  · rw [if_neg h1]
    by_cases h2 : m > 0xFFFF
    · rw [if_pos h2]
      show load_u24 (offs.flatMap store_u24) k = _
      rw [load_store_u24 offs k hk]
      omega
    · rw [if_neg h2]
      by_cases h3 : m > 0xFF
      · rw [if_pos h3]
        show load_u16 (offs.flatMap store_u16) k = _
        rw [load_store_u16 offs k hk]
        omega
      · rw [if_neg h3]
        show load_u8 (offs.flatMap store_u8) k = _
        rw [load_store_u8 offs k hk]
        omega

/-! ## One ingested line -/

theorem c_string_no_nul (line : List Nat) : ∀ x ∈ c_string line, x ≠ 0 := by
  intro x hx
  have := List.mem_takeWhile_imp hx
  simpa using this

theorem c_string_length_le (line : List Nat) : (c_string line).length ≤ line.length :=
  (List.takeWhile_sublist _).length_le

theorem c_string_subset (line : List Nat) : ∀ x ∈ c_string line, x ∈ line :=
  fun _ hx => (List.takeWhile_sublist _).subset hx

theorem yield_string_split (line pad : List Nat) (hp : pad = [] ∨ pad = [0]) :
    ∃ tail, line ++ pad ++ [0] = c_string line ++ 0 :: tail := by
  induction line with
  | nil =>
    rcases hp with rfl | rfl
    · exact ⟨[], by simp [c_string]⟩
    · exact ⟨[0], by simp [c_string]⟩
  | cons x l ih =>
    by_cases hx : x = 0
    · subst hx
      exact ⟨l ++ pad ++ [0], by simp [c_string]⟩
    · obtain ⟨tail, ht⟩ := ih
      refine ⟨tail, ?_⟩
      have : c_string (x :: l) = x :: c_string l := by simp [c_string, List.takeWhile_cons, hx]
      rw [this]
      simpa using ht

theorem splitOn_ne_nil (t : List Nat) : t.splitOn 9 ≠ [] := by
  simpa [List.splitOn] using List.splitOnP_ne_nil (· == 9) t

theorem splitOn_length_pos (t : List Nat) : 0 < (t.splitOn 9).length :=
  List.length_pos.mpr (splitOn_ne_nil t)

theorem split_tabs_yield (line : List Nat) (r : line_result) (hy : line_yield line r) :
    ∃ tail, r.string = c_string line ++ 0 :: tail ∧
      split_post (c_string line) tail [] 0 (split_tabs r.string) := by
  obtain ⟨pad, hp, hs, _⟩ := hy
  obtain ⟨tail, ht⟩ := yield_string_split line pad hp
  refine ⟨tail, by rw [hs, ht], ?_⟩
  rw [hs, ht]
  exact split_tabs_loop_spec (c_string line) (c_string_no_nul line) [] 0 tail (Nat.le_refl _)
    (by simp)

theorem split_tabs_fields (line : List Nat) (r : line_result) (hy : line_yield line r) :
    (split_tabs r.string).2.map (fun o => fputs ((split_tabs r.string).1.drop o)) =
      (c_string line).splitOn 9 := by
  obtain ⟨tail, _, _, h2, _⟩ := split_tabs_yield line r hy
  rw [List.nil_append] at h2
  rw [h2]
  cases h : List.splitOn 9 (c_string line) with
  | nil => rfl
  | cons a l => simp [List.modifyHead]

theorem split_tabs_count (line : List Nat) (r : line_result) (hy : line_yield line r) :
    (split_tabs r.string).2.length = ((c_string line).splitOn 9).length := by
  rw [← split_tabs_fields line r hy, List.length_map]

theorem split_tabs_head (line : List Nat) (r : line_result) (hy : line_yield line r) :
    (split_tabs r.string).2.getD 0 0 = 0 := by
  obtain ⟨tail, _, _, _, _, _, h5⟩ := split_tabs_yield line r hy
  cases h : (split_tabs r.string).2 with
  | nil => rfl
  | cons a l => rw [h] at h5; simpa using h5

theorem line_num_fields_spec (line : List Nat) (r : line_result) (hy : line_yield line r) :
    line_num_fields r.string = (read_fields line).length := by
  have hc := split_tabs_count line r hy
  have hh := split_tabs_head line r hy
  obtain ⟨tail, _, h1, _⟩ := split_tabs_yield line r hy
  unfold line_num_fields read_fields spec_fields
  rw [hh, h1, hc]
  cases ht : c_string line with
  | nil => simp [List.splitOn, List.splitOnP, List.splitOnP.go]
  | cons b t =>
    by_cases h9 : b = 9
    · subst h9
      rw [splitOn_cons_tab]
      simp
      exact splitOn_ne_nil t
    · have hb : b ≠ 0 := by
        have := c_string_no_nul line b (by rw [ht]; exact List.mem_cons_self _ _)
        exact this
      simp [h9, hb]

theorem split_tabs_length (line : List Nat) (r : line_result) (hy : line_yield line r) :
    (split_tabs r.string).1.length = r.length + 1 := by
  obtain ⟨tail, hs, h1, _⟩ := split_tabs_yield line r hy
  obtain ⟨pad, _, hs', hl⟩ := hy
  rw [h1, hl]
  have : r.string.length = (c_string line).length + (tail.length + 1) := by rw [hs]; simp
  rw [hs'] at this
  simp at this ⊢
  omega

theorem split_tabs_no_lf (line : List Nat) (r : line_result) (hy : line_yield line r)
    (h10 : 10 ∉ line) : 10 ∉ (split_tabs r.string).1 := by
  obtain ⟨tail, hs, h1, _⟩ := split_tabs_yield line r hy
  obtain ⟨pad, hp, hs', _⟩ := hy
  have hstr : 10 ∉ r.string := by
    rw [hs']
    rcases hp with rfl | rfl <;> simp [h10]
  rw [hs] at hstr
  rw [h1]
  intro hmem
  rcases List.mem_append.mp hmem with h | h
  · obtain ⟨b, hb, he⟩ := List.mem_map.mp h
    by_cases h9 : b = 9
    · simp [h9] at he
    · simp [h9] at he
      exact hstr (List.mem_append_left _ (he ▸ hb))
  · exact hstr (List.mem_append_right _ h)

theorem split_tabs_first (line : List Nat) (r : line_result) (hy : line_yield line r) :
    fputs (split_tabs r.string).1 = ((c_string line).splitOn 9).getD 0 [] := by
  have hf := split_tabs_fields line r hy
  have hh := split_tabs_head line r hy
  cases h : (split_tabs r.string).2 with
  | nil =>
    have := split_tabs_count line r hy
    rw [h] at this
    exact absurd this.symm (Nat.ne_of_gt (splitOn_length_pos _))
  | cons a l =>
    rw [h] at hf hh
    have ha : a = 0 := by simpa using hh
    subst ha
    rw [← hf]
    simp

theorem split_tabs_offsets_le (line : List Nat) (r : line_result) (hy : line_yield line r) :
    ∀ o ∈ (split_tabs r.string).2,
      o ≤ (split_tabs r.string).2.getD ((split_tabs r.string).2.length - 1) 0 ∧
      o ≤ line.length := by
  obtain ⟨tail, _, _, _, h3, h4, _⟩ := split_tabs_yield line r hy
  intro o ho
  refine ⟨?_, ?_⟩
  · obtain ⟨i, hi, rfl⟩ := List.getElem_of_mem ho
    have hlast : (split_tabs r.string).2.length - 1 < (split_tabs r.string).2.length := by omega
    rw [List.getD_eq_getElem _ _ hlast]
    by_cases hil : i = (split_tabs r.string).2.length - 1
    · subst hil; exact Nat.le_refl _
    · have : i < (split_tabs r.string).2.length - 1 := by omega
      exact Nat.le_of_lt (List.pairwise_iff_getElem.mp h4 i _ hi hlast this)
  · have := (h3 o ho).2
    have := c_string_length_le line
    simp at *
    omega

theorem split_tabs_decode (line : List Nat) (r : line_result) (hy : line_yield line r)
    (hlen : line.length < 4294967296) (c : Nat) (hc : c < (split_tabs r.string).2.length) :
    fputs ((split_tabs r.string).1.drop
      (load_field
        (choose_bits ((split_tabs r.string).2.getD ((split_tabs r.string).2.length - 1) 0
          % 4294967296))
        (store_fields
          (choose_bits ((split_tabs r.string).2.getD ((split_tabs r.string).2.length - 1) 0
            % 4294967296))
          (split_tabs r.string).2) c)) = ((c_string line).splitOn 9).getD c [] := by
  have hle := split_tabs_offsets_le line r hy
  have hlast : (split_tabs r.string).2.getD ((split_tabs r.string).2.length - 1) 0
      < 4294967296 := by
    have h1 : (split_tabs r.string).2.length - 1 < (split_tabs r.string).2.length := by omega
    rw [List.getD_eq_getElem _ _ h1]
    exact Nat.lt_of_le_of_lt (hle _ (List.getElem_mem _)).2 hlen
  rw [Nat.mod_eq_of_lt hlast, load_store_field _ _ hlast (fun o ho => (hle o ho).1) c hc]
  have hf := split_tabs_fields line r hy
  rw [← hf, List.getD_eq_getElem _ _ hc, List.getD_eq_getElem _ _ (by simpa using hc)]
  simp

/-! ## Row counters and maxima -/

/-- Up to `4252442867` a capacity is at least what was asked for, and its
conversion to `uint32_t` is in range. -/
theorem MEM_OVERHEAD_ge (n : Nat) (h : n ≤ 4252442867) :
    n ≤ MEM_OVERHEAD n ∧ MEM_OVERHEAD n = n * 101 / 100 := by
  unfold MEM_OVERHEAD
  have hb : n * 101 / 100 < 4294967296 := by
    apply Nat.div_lt_of_lt_mul
    omega
  rw [Nat.mod_eq_of_lt hb]
  exact ⟨by omega, rfl⟩

/-- Within the range of the model the reallocation rule leaves a capacity
that is large enough and fits a `uint32_t`. -/
theorem grow_capacity_ge (max n : Nat) (h : n ≤ 4252442867) (hmax : max < 4294967296) :
    n ≤ grow_capacity max n ∧ grow_capacity max n < 4294967296 := by
  unfold grow_capacity
  split
  · refine ⟨(MEM_OVERHEAD_ge n h).1, ?_⟩
    unfold MEM_OVERHEAD
    exact Nat.mod_lt _ (by decide)
  · exact ⟨by omega, hmax⟩

/-- The first argument whose capacity is out of range, and the argument at
which a buffer grown step by step first asks for such a capacity. -/
theorem MEM_OVERHEAD_wraps :
    MEM_OVERHEAD 4252442867 = 4294967295 ∧ MEM_OVERHEAD 4252442868 = 0 ∧
    MEM_OVERHEAD 4279161644 = 26985964 := by
  unfold MEM_OVERHEAD
  exact ⟨by norm_num, by norm_num, by norm_num⟩

theorem set_range_getD (v : Nat) : ∀ (k a : Nat) (l : List Nat) (c : Nat),
    ((List.range' a k).foldl (fun acc i => acc.set i v) l).getD c 0 =
      if c < l.length ∧ a ≤ c ∧ c < a + k then v else l.getD c 0 := by
  intro k
  induction k with
  | zero =>
    intro a l c
    simp only [List.range'_zero, List.foldl_nil]
    rw [if_neg (by omega)]
  | succ k ih =>
    intro a l c
    rw [List.range'_succ, List.foldl_cons, ih (a + 1) (l.set a v) c, List.length_set]
    by_cases hc : c = a
    · subst hc
      by_cases hl : c < l.length
      · rw [if_neg (by omega), if_pos (by omega), List.getD_eq_getElem _ _ (by simpa using hl)]
        simp
      · rw [if_neg (by omega), if_neg (by omega)]
        rw [List.getD_eq_default _ _ (by simp; omega), List.getD_eq_default _ _ (by omega)]
    · have hset : (l.set a v).getD c 0 = l.getD c 0 := by
        simp only [List.getD_eq_getElem?_getD]
        rw [List.getElem?_set_ne (Ne.symm hc)]
      rw [hset]
      by_cases h1 : c < l.length ∧ a + 1 ≤ c ∧ c < a + 1 + k
      · rw [if_pos h1, if_pos (by omega)]
      · rw [if_neg h1, if_neg (by omega)]

theorem set_range_length (v : Nat) : ∀ (k a : Nat) (l : List Nat),
    ((List.range' a k).foldl (fun acc i => acc.set i v) l).length = l.length := by
  intro k
  induction k with
  | zero => intro a l; simp
  | succ k ih => intro a l; rw [List.range'_succ, List.foldl_cons, ih, List.length_set]

theorem store_rows_per_col_length (l : List Nat) (n v : Nat) :
    (store_rows_per_col l n v).length = l.length := by
  unfold store_rows_per_col
  rw [set_range_length, List.length_set]

theorem store_rows_per_col_getD (l : List Nat) (n v c : Nat) (hc : c < l.length) :
    (store_rows_per_col l n v).getD c 0 = if c = 0 ∨ c < n then v else l.getD c 0 := by
  unfold store_rows_per_col
  rw [set_range_getD, List.length_set]
  by_cases h0 : c = 0
  · subst h0
    rw [if_neg (by omega), if_pos (Or.inl rfl), List.getD_eq_getElem _ _ (by simpa using hc)]
    simp
  · have hset : (l.set 0 v).getD c 0 = l.getD c 0 := by
      simp only [List.getD_eq_getElem?_getD]
      rw [List.getElem?_set_ne (Ne.symm h0)]
    rw [hset]
    by_cases h1 : c < n
    · rw [if_pos (by omega), if_pos (Or.inr h1)]
    · rw [if_neg (by omega), if_neg (by omega)]

theorem spec_num_cols_append (rows : List (List (List Nat))) (f : List (List Nat)) :
    spec_num_cols (rows ++ [f]) = max (spec_num_cols rows) f.length := by
  simp [spec_num_cols, List.foldl_append]

theorem spec_col_rows_append (rows : List (List (List Nat))) (f : List (List Nat)) (c : Nat) :
    spec_col_rows (rows ++ [f]) c =
      if c = 0 ∨ c < f.length then rows.length + 1 else spec_col_rows rows c := by
  unfold spec_col_rows
  by_cases h0 : c = 0
  · simp [h0]
  · rw [if_neg h0, if_neg h0, List.rdropWhile_concat]
    by_cases h1 : c < f.length
    · rw [if_neg (by simpa using h1), if_pos (Or.inr h1)]
      simp
    · rw [if_pos (by simpa using h1), if_neg (by omega)]

theorem length_le_spec_num_cols (rows : List (List (List Nat))) :
    ∀ f ∈ rows, f.length ≤ spec_num_cols rows := by
  induction rows using List.reverseRecOn with
  | nil => intro f hf; simp at hf
  | append_singleton rows g ih =>
    intro f hf
    rw [spec_num_cols_append]
    rcases List.mem_append.mp hf with h | h
    · exact Nat.le_trans (ih f h) (Nat.le_max_left _ _)
    · simp at h; subst h; exact Nat.le_max_right _ _

theorem spec_col_rows_of_ge (rows : List (List (List Nat))) (c : Nat) (h0 : c ≠ 0)
    (hc : spec_num_cols rows ≤ c) : spec_col_rows rows c = 0 := by
  unfold spec_col_rows
  rw [if_neg h0]
  have : List.rdropWhile (fun row => decide (List.length row ≤ c)) rows = [] := by
    rw [List.rdropWhile_eq_nil_iff]
    intro f hf
    simpa using Nat.le_trans (length_le_spec_num_cols rows f hf) hc
  rw [this]; rfl

/-! ## One iteration of the ingest loop -/

/-- The row entries `ingest_line` appends for a line buffer. -/
theorem ingest_line_lines (st : ingest_state) (string : List Nat) (len : Nat) :
    (ingest_line st string len).lines = st.lines ++
      [if line_num_fields string ≠ 0 then some ((split_tabs string).1.take (len + 1))
       else none] := rfl

theorem ingest_line_idxs (st : ingest_state) (string : List Nat) (len : Nat) :
    (ingest_line st string len).line_idxs = st.line_idxs ++
      [if line_num_fields string ≠ 0 then
        some (store_fields
          (choose_bits ((split_tabs string).2.getD (line_num_fields string - 1) 0 % 4294967296))
          ((split_tabs string).2.take (line_num_fields string)))
       else none] := rfl

theorem ingest_line_bits (st : ingest_state) (string : List Nat) (len : Nat) :
    (ingest_line st string len).line_bits = st.line_bits ++
      [if line_num_fields string ≠ 0 then
        choose_bits ((split_tabs string).2.getD (line_num_fields string - 1) 0 % 4294967296)
       else 0] := rfl

theorem ingest_line_num_cols (st : ingest_state) (string : List Nat) (len : Nat) :
    (ingest_line st string len).num_cols_per_row =
      st.num_cols_per_row ++ [line_num_fields string] := rfl

theorem ingest_line_row (st : ingest_state) (string : List Nat) (len : Nat) :
    (ingest_line st string len).row = (st.row + 1) % 4294967296 := rfl

theorem ingest_line_max_row (st : ingest_state) (string : List Nat) (len : Nat) :
    (ingest_line st string len).max_row =
      if (st.row + 1) % 4294967296 > st.max_row then (st.row + 1) % 4294967296
      else st.max_row := rfl

theorem ingest_line_max_col (st : ingest_state) (string : List Nat) (len : Nat) :
    (ingest_line st string len).max_col =
      if line_num_fields string > st.max_col then line_num_fields string else st.max_col := rfl

theorem ingest_line_cap (st : ingest_state) (string : List Nat) (len : Nat) :
    (ingest_line st string len).max_allocated_cols =
      if (split_tabs string).2.length > st.max_allocated_cols then
        MEM_OVERHEAD (split_tabs string).2.length
      else st.max_allocated_cols := by
  simp [ingest_line]

theorem ingest_line_rows_per_col (st : ingest_state) (string : List Nat) (len : Nat) :
    (ingest_line st string len).num_rows_per_col =
      store_rows_per_col
        (if (split_tabs string).2.length > st.max_allocated_cols then
          st.num_rows_per_col ++ List.replicate
            (MEM_OVERHEAD (split_tabs string).2.length - st.max_allocated_cols) 0
         else st.num_rows_per_col)
        (line_num_fields string) ((st.row + 1) % 4294967296) := by
  by_cases h : (split_tabs string).2.length > st.max_allocated_cols <;>
    simp [ingest_line, line_num_fields, h]

theorem row_ok_new (st : ingest_state) (line : List Nat) (r : line_result)
    (hy : line_yield line r) (hl : st.lines.length = st.row)
    (hi : st.line_idxs.length = st.row) (hb : st.line_bits.length = st.row)
    (hn : st.num_cols_per_row.length = st.row) :
    row_ok (ingest_result (ingest_line st r.string r.length)) st.row line := by
  have hnf := line_num_fields_spec line r hy
  have hcount := split_tabs_count line r hy
  have htake : (split_tabs r.string).1.take (r.length + 1) = (split_tabs r.string).1 := by
    rw [List.take_of_length_le]; rw [split_tabs_length line r hy]
  have e1 : (ingest_result (ingest_line st r.string r.length)).num_cols_per_row.getD st.row 0
      = line_num_fields r.string := by
    show (ingest_line st r.string r.length).num_cols_per_row.getD st.row 0 = _
    rw [ingest_line_num_cols, List.getD_append_right _ _ _ _ (by omega), hn]
    simp
  have e2 : (ingest_result (ingest_line st r.string r.length)).lines.getD st.row none
      = if line_num_fields r.string ≠ 0 then some (split_tabs r.string).1 else none := by
    show (ingest_line st r.string r.length).lines.getD st.row none = _
    rw [ingest_line_lines, List.getD_append_right _ _ _ _ (by omega), hl, htake]
    simp
  have e3 : (ingest_result (ingest_line st r.string r.length)).line_idxs.getD st.row none
      = if line_num_fields r.string ≠ 0 then
        some (store_fields
          (choose_bits ((split_tabs r.string).2.getD (line_num_fields r.string - 1) 0
            % 4294967296))
          ((split_tabs r.string).2.take (line_num_fields r.string)))
       else none := by
    show (ingest_line st r.string r.length).line_idxs.getD st.row none = _
    rw [ingest_line_idxs, List.getD_append_right _ _ _ _ (by omega), hi]
    simp
  have e4 : (ingest_result (ingest_line st r.string r.length)).line_bits.getD st.row 0
      = if line_num_fields r.string ≠ 0 then
        choose_bits ((split_tabs r.string).2.getD (line_num_fields r.string - 1) 0
          % 4294967296)
       else 0 := by
    show (ingest_line st r.string r.length).line_bits.getD st.row 0 = _
    rw [ingest_line_bits, List.getD_append_right _ _ _ _ (by omega), hb]
    simp
  have hfields : ∀ c, c < (read_fields line).length →
      (read_fields line).getD c [] = ((c_string line).splitOn 9).getD c [] := by
    intro c hc
    unfold read_fields spec_fields at hc ⊢
    by_cases hnil : c_string line = []
    · simp [hnil] at hc
    · rw [if_neg hnil]
  have hraw : (read_fields line).length ≠ 0 →
      line_num_fields r.string = (split_tabs r.string).2.length := by
    intro h
    rw [hnf, hcount]
    unfold read_fields spec_fields at h ⊢
    by_cases hnil : c_string line = []
    · simp [hnil] at h
    · rw [if_neg hnil]
  refine ⟨by rw [e1, hnf], ?_, ?_, ?_⟩
  · intro h10
    rw [e2]
    by_cases h0 : line_num_fields r.string ≠ 0
    · rw [if_pos h0]
      exact split_tabs_no_lf line r hy h10
    · rw [if_neg h0]; simp
  · intro hne
    have hpos : (read_fields line).length ≠ 0 := by
      intro h; exact hne (List.length_eq_zero.mp h)
    rw [e2, if_pos (by rw [hnf]; exact hpos)]
    rw [hfields 0 (Nat.pos_of_ne_zero hpos)]
    exact split_tabs_first line r hy
  · intro hlen c hc
    have hpos : (read_fields line).length ≠ 0 := by omega
    have h0 : line_num_fields r.string ≠ 0 := by rw [hnf]; exact hpos
    rw [e2, e3, e4, if_pos h0, if_pos h0, if_pos h0, hraw hpos, List.take_length, hfields c hc]
    exact split_tabs_decode line r hy hlen c (by rw [← hraw hpos, hnf]; exact hc)

/-! ## Lengths of lines and field counts -/

theorem spec_lines_from_facts : ∀ (n : Nat) (s cur : List Nat), s.length ≤ n →
    ∀ l ∈ spec_lines_from s cur,
      (∀ x ∈ l, x ∈ s ∨ x ∈ cur) ∧ (10 ∉ cur → 13 ∉ cur → 10 ∉ l ∧ 13 ∉ l) ∧
      l.length ≤ s.length + cur.length := by
  intro n
  induction n with
  | zero =>
    intro s cur hs l hl
    have : s = [] := List.length_eq_zero.mp (Nat.le_zero.mp hs)
    subst this
    by_cases hc : cur = []
    · simp [spec_lines_from, hc] at hl
    · simp [spec_lines_from, hc] at hl
      subst hl
      exact ⟨fun x hx => Or.inr hx, fun a b => ⟨a, b⟩, by simp⟩
  | succ n ih =>
    intro s cur hs l hl
    cases s with
    | nil =>
      by_cases hc : cur = []
      · simp [spec_lines_from, hc] at hl
      · simp [spec_lines_from, hc] at hl
        subst hl
        exact ⟨fun x hx => Or.inr hx, fun a b => ⟨a, b⟩, by simp⟩
    | cons c rest =>
      have hrest : rest.length ≤ n := by simpa using hs
      rw [spec_lines_from_cons] at hl
      by_cases h10 : c = 10
      · rw [if_pos h10] at hl
        rcases List.mem_cons.mp hl with rfl | hl
        · exact ⟨fun x hx => Or.inr hx, fun a b => ⟨a, b⟩, by simp⟩
        · obtain ⟨a1, a2, a3⟩ := ih rest [] hrest l hl
          refine ⟨fun x hx => ?_, fun _ _ => a2 (by simp) (by simp), by simp at a3 ⊢; omega⟩
          rcases a1 x hx with h | h
          · exact Or.inl (List.mem_cons_of_mem _ h)
          · simp at h
      · rw [if_neg h10] at hl
        by_cases h13 : c = 13
        · rw [if_pos h13] at hl
          rcases List.mem_cons.mp hl with rfl | hl
          · exact ⟨fun x hx => Or.inr hx, fun a b => ⟨a, b⟩, by simp⟩
          · cases rest with
            | nil => simp at hl
            | cons d rest' =>
              have hrest' : rest'.length ≤ n := by simp at hrest; omega
              by_cases hd : d = 10
              · simp only [hd, if_true] at hl
                obtain ⟨a1, a2, a3⟩ := ih rest' [] hrest' l hl
                refine ⟨fun x hx => ?_, fun _ _ => a2 (by simp) (by simp),
                  by simp at a3 ⊢; omega⟩
                rcases a1 x hx with h | h
                · exact Or.inl (List.mem_cons_of_mem _ (List.mem_cons_of_mem _ h))
                · simp at h
              · simp only [hd, if_false] at hl
                obtain ⟨a1, a2, a3⟩ := ih (d :: rest') [] hrest l hl
                refine ⟨fun x hx => ?_, fun _ _ => a2 (by simp) (by simp),
                  by simp at a3 ⊢; omega⟩
                rcases a1 x hx with h | h
                · exact Or.inl (List.mem_cons_of_mem _ h)
                · simp at h
        · rw [if_neg h13] at hl
          obtain ⟨a1, a2, a3⟩ := ih rest (cur ++ [c]) hrest l hl
          refine ⟨fun x hx => ?_, fun b1 b2 => a2 ?_ ?_, by simp at a3 ⊢; omega⟩
          · rcases a1 x hx with h | h
            · exact Or.inl (List.mem_cons_of_mem _ h)
            · rcases List.mem_append.mp h with h | h
              · exact Or.inr h
              · simp at h; subst h; exact Or.inl (List.mem_cons_self _ _)
          · simp [b1]; exact fun e => h10 e.symm
          · simp [b2]; exact fun e => h13 e.symm

theorem spec_lines_no_lf (s : List Nat) : ∀ l ∈ spec_lines s, 10 ∉ l :=
  fun l hl => ((spec_lines_from_facts s.length s [] (Nat.le_refl _) l hl).2.1
    (by simp) (by simp)).1

theorem spec_lines_no_cr (s : List Nat) : ∀ l ∈ spec_lines s, 13 ∉ l :=
  fun l hl => ((spec_lines_from_facts s.length s [] (Nat.le_refl _) l hl).2.1
    (by simp) (by simp)).2

theorem spec_lines_subset (s : List Nat) : ∀ l ∈ spec_lines s, ∀ x ∈ l, x ∈ s := by
  intro l hl x hx
  rcases (spec_lines_from_facts s.length s [] (Nat.le_refl _) l hl).1 x hx with h | h
  · exact h
  · simp at h

theorem spec_lines_length_le (s : List Nat) : ∀ l ∈ spec_lines s, l.length ≤ s.length := by
  intro l hl
  simpa using (spec_lines_from_facts s.length s [] (Nat.le_refl _) l hl).2.2

theorem splitOn_length_le (l : List Nat) : (l.splitOn 9).length ≤ l.length + 1 := by
  induction l with
  | nil => simp [List.splitOn, List.splitOnP, List.splitOnP.go]
  | cons b t ih =>
    by_cases h9 : b = 9
    · subst h9
      rw [splitOn_cons_tab]
      simp
      omega
    · rw [splitOn_cons_ne b t h9, List.length_modifyHead]
      simp
      omega

/-- The number of fields `split_tabs` returns for a line is at most the length
of the line plus one. -/
theorem split_tabs_count_le (line : List Nat) (r : line_result) (hy : line_yield line r) :
    (split_tabs r.string).2.length ≤ line.length + 1 := by
  rw [split_tabs_count line r hy]
  have h1 := splitOn_length_le (c_string line)
  have h2 := c_string_length_le line
  omega

/-! ## The ingest loop -/

theorem row_ok_old (st : ingest_state) (string : List Nat) (len : Nat) (r : Nat)
    (line : List Nat) (hl : r < st.lines.length)
    (hi : r < st.line_idxs.length) (hb : r < st.line_bits.length)
    (hn : r < st.num_cols_per_row.length) (h : row_ok (ingest_result st) r line) :
    row_ok (ingest_result (ingest_line st string len)) r line := by
  have e1 : (ingest_result (ingest_line st string len)).num_cols_per_row.getD r 0
      = (ingest_result st).num_cols_per_row.getD r 0 := by
    show (ingest_line st string len).num_cols_per_row.getD r 0 = st.num_cols_per_row.getD r 0
    rw [ingest_line_num_cols, List.getD_append _ _ _ _ hn]
  have e2 : (ingest_result (ingest_line st string len)).lines.getD r none
      = (ingest_result st).lines.getD r none := by
    show (ingest_line st string len).lines.getD r none = st.lines.getD r none
    rw [ingest_line_lines, List.getD_append _ _ _ _ hl]
  have e3 : (ingest_result (ingest_line st string len)).line_idxs.getD r none
      = (ingest_result st).line_idxs.getD r none := by
    show (ingest_line st string len).line_idxs.getD r none = st.line_idxs.getD r none
    rw [ingest_line_idxs, List.getD_append _ _ _ _ hi]
  have e4 : (ingest_result (ingest_line st string len)).line_bits.getD r 0
      = (ingest_result st).line_bits.getD r 0 := by
    show (ingest_line st string len).line_bits.getD r 0 = st.line_bits.getD r 0
    rw [ingest_line_bits, List.getD_append _ _ _ _ hb]
  unfold row_ok at h ⊢
  rw [e1, e2, e3, e4]
  exact h

theorem table_inv_init : table_inv ingest_init [] := by
  refine ⟨rfl, rfl, rfl, rfl, rfl, rfl, rfl, rfl, ?_, ?_, ?_, ?_⟩
  · simp [spec_num_cols, ingest_init]
  · intro h; exact absurd rfl h
  · intro c hc; simp [ingest_init] at hc
  · intro r hr; simp at hr

theorem table_inv_step (st : ingest_state) (lines : List (List Nat)) (line : List Nat)
    (r : line_result) (hinv : table_inv st lines) (hy : line_yield line r)
    (hcnt : (split_tabs r.string).2.length ≤ 4252442867)
    (hrows : lines.length + 1 < 4294967296) :
    table_inv (ingest_line st r.string r.length) (lines ++ [line]) := by
  obtain ⟨h1, h2, h3, h4, h5, h6, h7, h8, h9, h10, h11, h12⟩ := hinv
  have hrow : (st.row + 1) % 4294967296 = lines.length + 1 := by
    rw [h1]; exact Nat.mod_eq_of_lt hrows
  have hnf := line_num_fields_spec line r hy
  have hraw_pos : 0 < (split_tabs r.string).2.length := by
    rw [split_tabs_count line r hy]; exact splitOn_length_pos _
  have hnf_le : line_num_fields r.string ≤ (split_tabs r.string).2.length := by
    unfold line_num_fields
    split
    · omega
    · exact Nat.le_refl _
  have hmap : (lines ++ [line]).map read_fields = lines.map read_fields ++ [read_fields line] := by
    simp
  -- the capacity after the iteration
  have hcap := ingest_line_cap st r.string r.length
  have hcap_ge : st.max_allocated_cols ≤ (ingest_line st r.string r.length).max_allocated_cols := by
    rw [hcap]
    split
    · exact Nat.le_trans (Nat.le_of_lt (by assumption)) (MEM_OVERHEAD_ge _ hcnt).1
    · exact Nat.le_refl _
  have hcap_raw : (split_tabs r.string).2.length
      ≤ (ingest_line st r.string r.length).max_allocated_cols := by
    rw [hcap]
    split
    · exact (MEM_OVERHEAD_ge _ hcnt).1
    · omega
  -- the grown counter array
  have hgrow_len : (if (split_tabs r.string).2.length > st.max_allocated_cols then
          st.num_rows_per_col ++ List.replicate
            (MEM_OVERHEAD (split_tabs r.string).2.length - st.max_allocated_cols) 0
         else st.num_rows_per_col).length
      = (ingest_line st r.string r.length).max_allocated_cols := by
    rw [hcap]
    split
    · rw [List.length_append, List.length_replicate, h8]
      have := (MEM_OVERHEAD_ge (split_tabs r.string).2.length hcnt).1
      omega
    · exact h8
  have hgrow_get : ∀ c, c < (ingest_line st r.string r.length).max_allocated_cols →
      (if (split_tabs r.string).2.length > st.max_allocated_cols then
          st.num_rows_per_col ++ List.replicate
            (MEM_OVERHEAD (split_tabs r.string).2.length - st.max_allocated_cols) 0
         else st.num_rows_per_col).getD c 0 = spec_col_rows (lines.map read_fields) c := by
    intro c hc
    by_cases hlt : c < st.max_allocated_cols
    · rw [← h11 c hlt]
      split
      · rw [List.getD_append _ _ _ _ (by rw [h8]; exact hlt)]
      · rfl
    · have hgt : (split_tabs r.string).2.length > st.max_allocated_cols := by
        by_contra hgt
        rw [hcap, if_neg hgt] at hc
        exact hlt hc
      rw [if_pos hgt, List.getD_append_right _ _ _ _ (by rw [h8]; omega)]
      have hz : (List.replicate (MEM_OVERHEAD (split_tabs r.string).2.length
          - st.max_allocated_cols) 0).getD (c - st.num_rows_per_col.length) 0 = 0 := by
        by_cases hin : c - st.num_rows_per_col.length
            < (List.replicate (MEM_OVERHEAD (split_tabs r.string).2.length
              - st.max_allocated_cols) 0).length
        · rw [List.getD_eq_getElem _ _ hin, List.getElem_replicate]
        · rw [List.getD_eq_default _ _ (by omega)]
      rw [hz]
      by_cases hc0 : c = 0
      · subst hc0
        have hnil : lines = [] := by
          by_contra hne
          have := h10 hne
          omega
        simp [spec_col_rows, hnil]
      · exact (spec_col_rows_of_ge _ c hc0 (by omega)).symm
  refine ⟨?_, ?_, ?_, ?_, ?_, ?_, ?_, ?_, ?_, ?_, ?_, ?_⟩
  · rw [ingest_line_row, hrow]; simp
  · rw [ingest_line_max_row, hrow, h2]; simp
  · rw [ingest_line_max_col, h3, hmap, spec_num_cols_append, hnf]
    split
    · rw [Nat.max_eq_right (by omega)]
    · rw [Nat.max_eq_left (by omega)]
  · rw [ingest_line_lines]; simp [h4]
  · rw [ingest_line_idxs]; simp [h5]
  · rw [ingest_line_bits]; simp [h6]
  · rw [ingest_line_num_cols]; simp [h7]
  · rw [ingest_line_rows_per_col, store_rows_per_col_length, hgrow_len]
  · rw [hmap, spec_num_cols_append]
    have : (read_fields line).length ≤ (split_tabs r.string).2.length := by
      rw [← hnf]; exact hnf_le
    exact Nat.max_le.mpr ⟨Nat.le_trans h9 hcap_ge, Nat.le_trans this hcap_raw⟩
  · intro _; omega
  · intro c hc
    rw [ingest_line_rows_per_col, store_rows_per_col_getD _ _ _ _ (by rw [hgrow_len]; exact hc),
      hgrow_get c hc, hmap, spec_col_rows_append, hnf, hrow]
    simp
  · intro k hk
    rw [List.length_append, List.length_singleton] at hk
    by_cases hlt : k < lines.length
    · rw [List.getD_append _ _ _ _ hlt]
      exact row_ok_old st r.string r.length k _ (by omega) (by omega) (by omega) (by omega)
        (h12 k hlt)
    · have hk' : k = st.row := by omega
      rw [List.getD_append_right _ _ _ _ (by omega)]
      have : k - lines.length = 0 := by omega
      rw [this, hk']
      exact row_ok_new st line r hy (by omega) (by omega) (by omega) (by omega)

theorem read_loop_inv : ∀ (fuel : Nat) (s : List Nat) (st : ingest_state)
    (lines : List (List Nat)), table_inv st lines → s.length < fuel →
    lines.length + s.length < 4252442867 →
    table_inv (read_loop fuel s st) (lines ++ spec_lines s) := by
  intro fuel
  induction fuel with
  | zero => intro s st lines _ h; exact absurd h (Nat.not_lt_zero _)
  | succ fuel ih =>
    intro s st lines hinv hlen hs
    rcases fgets_loop_spec s [] 0 false (by decide) (by simp) (by simp)
        (by simp; omega) with
      ⟨h1, h2⟩ | ⟨r, line, h1, h2, h3, h4⟩
    · have : read_loop (fuel + 1) s st = st := by
        simp [read_loop, fgets_strip_realloc_len, h1]
      rw [this]
      show table_inv st (lines ++ spec_lines_from s [])
      rw [h2, List.append_nil]
      exact hinv
    · have : read_loop (fuel + 1) s st
          = read_loop fuel r.infile (ingest_line st r.string r.length) := by
        simp [read_loop, fgets_strip_realloc_len, h1]
      rw [this]
      show table_inv _ (lines ++ spec_lines_from s [])
      rw [h3]
      have hline : line.length ≤ s.length :=
        spec_lines_length_le s line (by
          show line ∈ spec_lines_from s []
          rw [h3]; exact List.mem_cons_self _ _)
      have hcnt := split_tabs_count_le line r h2
      have hstep := table_inv_step st lines line r hinv h2 (by omega) (by omega)
      have := ih r.infile _ _ hstep (by simp at h4; omega) (by
        simp at h4 ⊢; omega)
      simpa [spec_lines] using this

/-- The state of `read_text_data` after its loop, for a stream within the
range of the model. -/
theorem read_text_data_inv (s : List Nat) (hs : s.length < 4252442867) :
    table_inv (read_loop (s.length + 1) s ingest_init) (spec_lines s) := by
  simpa using read_loop_inv (s.length + 1) s ingest_init [] table_inv_init (Nat.lt_succ_self _)
    (by simpa using hs)

/-! ## The emitter on an ingested table -/

theorem intercalate_cons_cons (sep a b : List Nat) (t : List (List Nat)) :
    sep.intercalate (a :: b :: t) = a ++ sep ++ sep.intercalate (b :: t) := by
  simp [List.intercalate, List.intersperse]

theorem intercalate_concat (sep : List Nat) (l : List (List Nat)) (x : List Nat) (hl : l ≠ []) :
    sep.intercalate (l ++ [x]) = sep.intercalate l ++ sep ++ x := by
  induction l with
  | nil => exact absurd rfl hl
  | cons a t ih =>
    cases t with
    | nil => simp [List.intercalate, List.intersperse]
    | cons b t' =>
      have := ih (by simp)
      rw [List.cons_append, List.cons_append, intercalate_cons_cons, ← List.cons_append, this,
        intercalate_cons_cons]
      simp

theorem flatMap_sep_eq_intercalate (f : Nat → List Nat) (n : Nat) :
    (List.range n).flatMap (fun r => (if r ≠ 0 then [9] else []) ++ f r) =
      [9].intercalate ((List.range n).map f) := by
  induction n with
  | zero => rfl
  | succ n ih =>
    rw [List.range_succ, List.flatMap_append, ih, List.map_append]
    cases n with
    | zero => simp [List.intercalate, List.intersperse]
    | succ m =>
      rw [List.map_singleton, intercalate_concat _ _ _ (by simp [List.range_succ])]
      simp

theorem flatMap_congr_range (f g : Nat → List Nat) (n : Nat) (h : ∀ r, r < n → f r = g r) :
    (List.range n).flatMap f = (List.range n).flatMap g :=
  List.flatMap_congr (fun r hr => h r (List.mem_range.mp hr))

theorem spec_col_rows_le (rows : List (List (List Nat))) (c : Nat) :
    spec_col_rows rows c ≤ rows.length := by
  unfold spec_col_rows
  split
  · exact Nat.le_refl _
  · exact (List.rdropWhile_prefix _ _).length_le

theorem transpose_text_data_eq (td : text_data) :
    transpose_text_data td =
      if td.num_rows = 0 then []
      else ((List.range (td.num_rows_per_col.getD 0 0)).flatMap (emit_first_cell td) ++ [10]) ++
        (List.range' 1 (td.num_cols - 1)).flatMap (fun col => emit_line td col ++ [10]) := rfl

theorem emit_first_line_spec (st : ingest_state) (lines : List (List Nat))
    (hinv : table_inv st lines) (hne : lines ≠ []) :
    (List.range ((ingest_result st).num_rows_per_col.getD 0 0)).flatMap
      (emit_first_cell (ingest_result st)) = spec_out_line (lines.map read_fields) 0 := by
  obtain ⟨h1, h2, h3, h4, h5, h6, h7, h8, h9, h10, h11, h12⟩ := hinv
  have hn : (ingest_result st).num_rows_per_col.getD 0 0 = lines.length := by
    show st.num_rows_per_col.getD 0 0 = _
    rw [h11 0 (h10 hne)]
    simp [spec_col_rows]
  rw [hn]
  unfold spec_out_line
  rw [← flatMap_sep_eq_intercalate]
  have hc : spec_col_rows (lines.map read_fields) 0 = lines.length := by simp [spec_col_rows]
  rw [hc]
  apply flatMap_congr_range
  intro r hr
  obtain ⟨r1, _, r3, _⟩ := h12 r hr
  unfold emit_first_cell spec_cell
  rw [r1]
  have hrow : (lines.map read_fields).getD r [] = read_fields (lines.getD r []) := by
    rw [List.getD_eq_getElem _ _ (by simpa using hr), List.getD_eq_getElem _ _ hr]
    simp
  rw [hrow]
  congr 1
  by_cases hz : (read_fields (lines.getD r [])).length = 0
  · rw [if_neg (fun h => h hz), List.length_eq_zero.mp hz]
    rfl
  · rw [if_pos hz, r3 (fun h => hz (by rw [h]; rfl))]

theorem emit_line_spec (st : ingest_state) (lines : List (List Nat))
    (hinv : table_inv st lines) (hlen : ∀ l ∈ lines, l.length < 4294967296)
    (c : Nat) (hc : c < (ingest_result st).num_cols) :
    emit_line (ingest_result st) c = spec_out_line (lines.map read_fields) c := by
  obtain ⟨h1, h2, h3, h4, h5, h6, h7, h8, h9, h10, h11, h12⟩ := hinv
  have hc' : c < st.max_allocated_cols := by
    have : (ingest_result st).num_cols = st.max_col := rfl
    omega
  have hn : (ingest_result st).num_rows_per_col.getD c 0
      = spec_col_rows (lines.map read_fields) c := h11 c hc'
  unfold emit_line spec_out_line
  rw [hn, ← flatMap_sep_eq_intercalate]
  apply flatMap_congr_range
  intro r hr
  have hr' : r < lines.length := by
    have := spec_col_rows_le (lines.map read_fields) c
    simp at this
    omega
  obtain ⟨r1, _, _, r4⟩ := h12 r hr'
  unfold emit_cell spec_cell
  rw [r1]
  have hrow : (lines.map read_fields).getD r [] = read_fields (lines.getD r []) := by
    rw [List.getD_eq_getElem _ _ (by simpa using hr'), List.getD_eq_getElem _ _ hr']
    simp
  rw [hrow]
  congr 1
  by_cases hz : c < (read_fields (lines.getD r [])).length
  · rw [if_pos hz]
    rw [r4 (hlen _ (by rw [List.getD_eq_getElem _ _ hr']; exact List.getElem_mem _)) c hz]
  · rw [if_neg hz, List.getD_eq_default _ _ (by omega)]

theorem transpose_ingest_spec (st : ingest_state) (lines : List (List Nat))
    (hinv : table_inv st lines) (hlen : ∀ l ∈ lines, l.length < 4294967296) :
    transpose_text_data (ingest_result st) = spec_transpose (lines.map read_fields) := by
  rw [transpose_text_data_eq]
  unfold spec_transpose
  have hrows : (ingest_result st).num_rows = lines.length := hinv.2.1
  have hcols : (ingest_result st).num_cols = spec_num_cols (lines.map read_fields) := hinv.2.2.1
  by_cases hne : lines = []
  · rw [if_pos (by rw [hrows, hne]; rfl), if_pos (by simp [hne])]
  · rw [if_neg (by rw [hrows]; exact fun h => hne (List.length_eq_zero.mp h)),
      if_neg (by simpa using hne), emit_first_line_spec st lines hinv hne, ← hcols]
    congr 1
    apply List.flatMap_congr
    intro c hc
    rw [emit_line_spec st lines hinv hlen c (by have := List.mem_range'_1.mp hc; omega)]

/-! ## The pipeline against the reference transposition -/

theorem read_text_data_rows (s : List Nat) (hs : s.length < 4252442867) :
    (read_text_data s).num_rows = (spec_lines s).length ∧
    (read_text_data s).num_cols = spec_num_cols (read_rows s) ∧
    (read_text_data s).num_cols_per_row = (read_rows s).map List.length := by
  obtain ⟨_, h2, h3, _, _, _, h7, _, _, _, _, h12⟩ := read_text_data_inv s hs
  refine ⟨h2, h3, ?_⟩
  apply List.ext_getElem
  · simpa [read_rows] using h7
  · intro r hr1 hr2
    have hr : r < (spec_lines s).length := by simpa [read_rows] using hr2
    have := (h12 r hr).1
    change (read_text_data s).num_cols_per_row.getD r 0 = _ at this
    rw [List.getD_eq_getElem _ _ hr1, List.getD_eq_getElem _ _ hr] at this
    simpa [read_rows] using this

theorem transpose_pipeline_spec (s : List Nat) (hlen : s.length < 4252442867) :
    transpose_pipeline s = spec_transpose (read_rows s) :=
  transpose_ingest_spec _ _ (read_text_data_inv s hlen)
    (fun l hl => Nat.lt_of_le_of_lt (spec_lines_length_le s l hl)
      (Nat.lt_trans hlen (by decide)))

/-! ## Splitting the output into lines and cells -/

theorem splitOn_pieces (t : List Nat) : ∀ p ∈ t.splitOn 9, 9 ∉ p ∧ ∀ x ∈ p, x ∈ t := by
  induction t with
  | nil =>
    intro p hp
    simp [List.splitOn, List.splitOnP, List.splitOnP.go] at hp
    subst hp
    simp
  | cons b t ih =>
    intro p hp
    by_cases h9 : b = 9
    · subst h9
      rw [splitOn_cons_tab] at hp
      rcases List.mem_cons.mp hp with rfl | hp
      · simp
      · exact ⟨(ih p hp).1, fun x hx => List.mem_cons_of_mem _ ((ih p hp).2 x hx)⟩
    · rw [splitOn_cons_ne b t h9] at hp
      cases hs : List.splitOn 9 t with
      | nil => rw [hs] at hp; simp [List.modifyHead] at hp
      | cons a rest =>
        rw [hs] at hp ih
        simp only [List.modifyHead] at hp
        rcases List.mem_cons.mp hp with rfl | hp
        · have := ih a (List.mem_cons_self _ _)
          refine ⟨?_, ?_⟩
          · intro hm
            rcases List.mem_cons.mp hm with h | h
            · exact h9 h.symm
            · exact this.1 h
          · intro x hx
            rcases List.mem_cons.mp hx with h | h
            · subst h; exact List.mem_cons_self _ _
            · exact List.mem_cons_of_mem _ (this.2 x h)
        · have := ih p (List.mem_cons_of_mem _ hp)
          exact ⟨this.1, fun x hx => List.mem_cons_of_mem _ (this.2 x hx)⟩

theorem read_fields_pieces (line : List Nat) :
    ∀ p ∈ read_fields line, 9 ∉ p ∧ ∀ x ∈ p, x ∈ line ∧ x ≠ 0 := by
  intro p hp
  unfold read_fields spec_fields at hp
  by_cases hnil : c_string line = []
  · simp [hnil] at hp
  · rw [if_neg hnil] at hp
    have := splitOn_pieces _ p hp
    exact ⟨this.1, fun x hx => ⟨c_string_subset line x (this.2 x hx),
      c_string_no_nul line x (this.2 x hx)⟩⟩

theorem spec_cell_pieces (s : List Nat) (c r : Nat) :
    9 ∉ spec_cell (read_rows s) c r ∧ 10 ∉ spec_cell (read_rows s) c r ∧
    13 ∉ spec_cell (read_rows s) c r ∧ 0 ∉ spec_cell (read_rows s) c r := by
  unfold spec_cell
  by_cases hr : r < (read_rows s).length
  · rw [List.getD_eq_getElem _ _ hr]
    by_cases hc : c < ((read_rows s)[r]).length
    · rw [List.getD_eq_getElem _ _ hc]
      have hr' : r < (spec_lines s).length := by simpa [read_rows] using hr
      have hrow : (read_rows s)[r] = read_fields ((spec_lines s)[r]) := by simp [read_rows]
      have hmem : ((read_rows s)[r])[c] ∈ read_fields ((spec_lines s)[r]) := by
        rw [← hrow]; exact List.getElem_mem _
      have hp := read_fields_pieces _ _ hmem
      have hl : (spec_lines s)[r] ∈ spec_lines s := List.getElem_mem _
      refine ⟨hp.1, fun h => spec_lines_no_lf s _ hl (hp.2 _ h).1,
        fun h => spec_lines_no_cr s _ hl (hp.2 _ h).1, fun h => (hp.2 _ h).2 rfl⟩
    · rw [List.getD_eq_default _ _ (by omega)]; simp
  · rw [List.getD_eq_default (read_rows s) [] (by omega)]; simp

theorem splitOn_append_sep (x : Nat) (a b : List Nat) (h : x ∉ a) :
    (a ++ x :: b).splitOn x = a :: b.splitOn x := by
  induction a with
  | nil => simp [List.splitOn, List.splitOnP_cons]
  | cons y a ih =>
    have hy : y ≠ x := fun e => h (e ▸ List.mem_cons_self _ _)
    have ha : x ∉ a := fun e => h (List.mem_cons_of_mem _ e)
    have := ih ha
    simp only [List.splitOn] at this ⊢
    rw [List.cons_append, List.splitOnP_cons, this]
    simp [hy, List.modifyHead]

theorem splitOn_lines (ls : List (List Nat)) (h : ∀ l ∈ ls, 10 ∉ l) :
    (ls.flatMap (fun l => l ++ [10])).splitOn 10 = ls ++ [[]] := by
  induction ls with
  | nil => simp [List.splitOn, List.splitOnP, List.splitOnP.go]
  | cons l ls ih =>
    rw [List.flatMap_cons, List.append_assoc, List.singleton_append,
      splitOn_append_sep 10 _ _ (h l (List.mem_cons_self _ _)),
      ih (fun l' hl' => h l' (List.mem_cons_of_mem _ hl'))]
    rfl

theorem not_mem_intercalate (x : Nat) (cells : List (List Nat)) (hx : x ≠ 9)
    (h : ∀ c ∈ cells, x ∉ c) : x ∉ [9].intercalate cells := by
  induction cells with
  | nil => simp [List.intercalate]
  | cons a t ih =>
    cases t with
    | nil => simpa [List.intercalate] using h a (List.mem_cons_self _ _)
    | cons b t' =>
      rw [intercalate_cons_cons]
      intro hm
      rcases List.mem_append.mp hm with h1 | h1
      · rcases List.mem_append.mp h1 with h2 | h2
        · exact h a (List.mem_cons_self _ _) h2
        · simp at h2; exact hx h2
      · exact ih (fun c hc => h c (List.mem_cons_of_mem _ hc)) h1

/-! ## The lines of the output -/

theorem lt_spec_col_rows (rows : List (List (List Nat))) (c : Nat) :
    ∀ r, r < rows.length → c < (rows.getD r []).length → r < spec_col_rows rows c := by
  induction rows using List.reverseRecOn with
  | nil => intro r hr; simp at hr
  | append_singleton rows f ih =>
    intro r hr hc
    rw [spec_col_rows_append]
    rw [List.length_append, List.length_singleton] at hr
    by_cases hlast : r < rows.length
    · rw [List.getD_append _ _ _ _ hlast] at hc
      have := ih r hlast hc
      split
      · omega
      · exact this
    · have hr' : r = rows.length := by omega
      subst hr'
      rw [List.getD_append_right _ _ _ _ (Nat.le_refl _)] at hc
      simp at hc
      rw [if_pos (Or.inr hc)]
      omega

theorem spec_col_rows_last (rows : List (List (List Nat))) (c : Nat) (hc : c ≠ 0)
    (hpos : 0 < spec_col_rows rows c) :
    c < (rows.getD (spec_col_rows rows c - 1) []).length := by
  induction rows using List.reverseRecOn with
  | nil => simp [spec_col_rows] at hpos
  | append_singleton rows f ih =>
    rw [spec_col_rows_append] at hpos ⊢
    by_cases hf : c < f.length
    · rw [if_pos (Or.inr hf)]
      rw [List.getD_append_right _ _ _ _ (by omega)]
      simpa using hf
    · rw [if_neg (by omega)] at hpos ⊢
      have hle := spec_col_rows_le rows c
      rw [List.getD_append _ _ _ _ (by omega)]
      exact ih hpos

theorem exists_row_of_lt_num_cols (rows : List (List (List Nat))) (c : Nat)
    (hc : c < spec_num_cols rows) : ∃ r, r < rows.length ∧ c < (rows.getD r []).length := by
  induction rows using List.reverseRecOn with
  | nil => simp [spec_num_cols] at hc
  | append_singleton rows f ih =>
    rw [spec_num_cols_append] at hc
    by_cases hf : c < f.length
    · refine ⟨rows.length, by simp, ?_⟩
      rw [List.getD_append_right _ _ _ _ (Nat.le_refl _)]
      simpa using hf
    · obtain ⟨r, hr, hrc⟩ := ih (by
        rcases Nat.le_total (spec_num_cols rows) f.length with h | h
        · rw [Nat.max_eq_right h] at hc; exact absurd hc hf
        · rw [Nat.max_eq_left h] at hc; exact hc)
      refine ⟨r, by simp; omega, ?_⟩
      rw [List.getD_append _ _ _ _ hr]
      exact hrc

theorem spec_col_rows_pos (rows : List (List (List Nat))) (c : Nat)
    (hc : c < spec_num_cols rows) : 0 < spec_col_rows rows c := by
  obtain ⟨r, hr, hrc⟩ := exists_row_of_lt_num_cols rows c hc
  have := lt_spec_col_rows rows c r hr hrc
  omega

theorem range_max_one (n : Nat) : List.range (max 1 n) = 0 :: List.range' 1 (n - 1) := by
  cases n with
  | zero => rfl
  | succ n =>
    rw [Nat.max_eq_right (by omega), List.range_eq_range', List.range'_succ]
    simp

theorem spec_transpose_lines (rows : List (List (List Nat))) (hne : rows ≠ []) :
    spec_transpose rows =
      ((List.range (max 1 (spec_num_cols rows))).map (spec_out_line rows)).flatMap
        (fun l => l ++ [10]) := by
  unfold spec_transpose
  rw [if_neg hne, range_max_one, List.map_cons, List.flatMap_cons, List.flatMap_map]

theorem spec_out_line_no_lf (s : List Nat) (c : Nat) : 10 ∉ spec_out_line (read_rows s) c := by
  unfold spec_out_line
  apply not_mem_intercalate 10 _ (by decide)
  intro cell hcell
  obtain ⟨r, _, rfl⟩ := List.mem_map.mp hcell
  exact (spec_cell_pieces s c r).2.1

theorem spec_out_line_cells (s : List Nat) (c : Nat)
    (hpos : 0 < spec_col_rows (read_rows s) c) :
    (spec_out_line (read_rows s) c).splitOn 9 =
      (List.range (spec_col_rows (read_rows s) c)).map (spec_cell (read_rows s) c) := by
  unfold spec_out_line
  apply List.splitOn_intercalate
  · intro cell hcell
    obtain ⟨r, _, rfl⟩ := List.mem_map.mp hcell
    exact (spec_cell_pieces s c r).1
  · intro h
    have := congrArg List.length h
    simp at this
    omega

theorem pipeline_lines (s : List Nat) (hlen : s.length < 4252442867) (hne : spec_lines s ≠ []) :
    (transpose_pipeline s).splitOn 10 =
      (List.range (max 1 (spec_num_cols (read_rows s)))).map (spec_out_line (read_rows s))
        ++ [[]] := by
  rw [transpose_pipeline_spec s hlen, spec_transpose_lines _ (by simpa [read_rows] using hne)]
  apply splitOn_lines
  intro l hl
  obtain ⟨c, _, rfl⟩ := List.mem_map.mp hl
  exact spec_out_line_no_lf s c

theorem pipeline_line (s : List Nat) (hlen : s.length < 4252442867) (c : Nat)
    (hc : c < spec_num_cols (read_rows s)) :
    ((transpose_pipeline s).splitOn 10).getD c [] = spec_out_line (read_rows s) c := by
  have hne : spec_lines s ≠ [] := by
    intro h
    simp [read_rows, h, spec_num_cols] at hc
  rw [pipeline_lines s hlen hne]
  have h1 : c < ((List.range (max 1 (spec_num_cols (read_rows s)))).map
      (spec_out_line (read_rows s))).length := by
    simp; omega
  rw [List.getD_append _ _ _ _ h1, List.getD_eq_getElem _ _ h1]
  simp

/-! ## Newlines in the output -/

theorem fputs_subset (buf : List Nat) (k : Nat) : ∀ x ∈ fputs (buf.drop k), x ∈ buf :=
  fun _ hx => List.mem_of_mem_drop ((List.takeWhile_sublist _).subset hx)

theorem emit_line_no_lf (st : ingest_state) (lines : List (List Nat))
    (hinv : table_inv st lines) (hlf : ∀ l ∈ lines, 10 ∉ l) (c : Nat) :
    10 ∉ emit_line (ingest_result st) c := by
  obtain ⟨h1, h2, h3, h4, h5, h6, h7, h8, h9, h10, h11, h12⟩ := hinv
  unfold emit_line
  intro hm
  obtain ⟨r, hr, hcell⟩ := List.mem_flatMap.mp hm
  have hr := List.mem_range.mp hr
  have hrl : r < lines.length := by
    by_cases hc : c < st.max_allocated_cols
    · have e : (ingest_result st).num_rows_per_col.getD c 0
          = spec_col_rows (lines.map read_fields) c := h11 c hc
      have := spec_col_rows_le (lines.map read_fields) c
      rw [e] at hr
      simp at this
      omega
    · have e : (ingest_result st).num_rows_per_col.getD c 0 = 0 :=
        List.getD_eq_default _ _ (by show st.num_rows_per_col.length ≤ c; omega)
      rw [e] at hr
      exact absurd hr (Nat.not_lt_zero _)
  have hbuf := (h12 r hrl).2.1 (hlf _ (by
    rw [List.getD_eq_getElem _ _ hrl]; exact List.getElem_mem _))
  unfold emit_cell at hcell
  rcases List.mem_append.mp hcell with h | h
  · split at h <;> simp at h
  · split at h
    · exact hbuf (fputs_subset _ _ _ h)
    · simp at h

theorem count_lf_lines (l : List Nat) (f : Nat → List Nat) (h : ∀ c ∈ l, 10 ∉ f c) :
    (l.flatMap (fun c => f c ++ [10])).count 10 = l.length := by
  induction l with
  | nil => rfl
  | cons a t ih =>
    rw [List.flatMap_cons, List.count_append, List.count_append,
      ih (fun c hc => h c (List.mem_cons_of_mem _ hc)),
      List.count_eq_zero_of_not_mem (h a (List.mem_cons_self _ _))]
    simp
    omega

/-! ## Rows of an input -/

theorem c_string_of_no_nul (line : List Nat) (h : 0 ∉ line) : c_string line = line := by
  unfold c_string
  rw [List.takeWhile_eq_self_iff]
  intro x hx
  simpa using fun e : x = 0 => h (e ▸ hx)

theorem read_rows_getD (s : List Nat) (r : Nat) (hr : r < (spec_lines s).length) :
    (read_rows s).getD r [] = read_fields ((spec_lines s).getD r []) := by
  unfold read_rows
  rw [List.getD_eq_getElem _ _ (by simpa using hr), List.getD_eq_getElem _ _ hr]
  simp

theorem read_rows_length (s : List Nat) : (read_rows s).length = (spec_lines s).length := by
  simp [read_rows]

theorem pipeline_cells (s : List Nat) (hlen : s.length < 4252442867) (c : Nat)
    (hc : c < spec_num_cols (read_rows s)) :
    (((transpose_pipeline s).splitOn 10).getD c []).splitOn 9 =
      (List.range (spec_col_rows (read_rows s) c)).map (spec_cell (read_rows s) c) := by
  rw [pipeline_line s hlen c hc, spec_out_line_cells s c (spec_col_rows_pos _ c hc)]

theorem read_text_data_row_ok (s : List Nat) (hs : s.length < 4252442867) (r : Nat) (hr : r < (spec_lines s).length) :
    row_ok (read_text_data s) r ((spec_lines s).getD r []) :=
  (read_text_data_inv s hs).2.2.2.2.2.2.2.2.2.2.2 r hr

theorem read_text_data_num_cols_row (s : List Nat) (hs : s.length < 4252442867) (r : Nat) (hr : r < (spec_lines s).length) :
    (read_text_data s).num_cols_per_row[r]? = some (read_fields ((spec_lines s).getD r [])).length := by
  rw [(read_text_data_rows s hs).2.2, List.getElem?_map,
    List.getElem?_eq_getElem (by rw [read_rows_length]; exact hr)]
  have := read_rows_getD s r hr
  rw [List.getD_eq_getElem _ _ (by rw [read_rows_length]; exact hr)] at this
  rw [this]
  rfl

/-! ## The first output line -/

theorem spec_lines_from_eq_nil (s : List Nat) :
    ∀ cur, spec_lines_from s cur = [] ↔ s = [] ∧ cur = [] := by
  induction s with
  | nil =>
    intro cur
    by_cases hc : cur = [] <;> simp [spec_lines_from, hc]
  | cons c rest ih =>
    intro cur
    rw [spec_lines_from_cons]
    by_cases h10 : c = 10
    · simp [h10]
    · by_cases h13 : c = 13
      · simp [h13]
      · simp [h10, h13, ih]

theorem spec_lines_ne_nil (s : List Nat) (h : s ≠ []) : spec_lines s ≠ [] :=
  fun e => h ((spec_lines_from_eq_nil s []).mp e).1

theorem exists_row_max (rows : List (List (List Nat))) (hne : rows ≠ []) :
    ∃ row ∈ rows, row.length = spec_num_cols rows := by
  by_cases hz : spec_num_cols rows = 0
  · obtain ⟨row, hrow⟩ := List.exists_mem_of_ne_nil _ hne
    have := length_le_spec_num_cols rows row hrow
    exact ⟨row, hrow, by omega⟩
  · obtain ⟨r, hr, hrc⟩ := exists_row_of_lt_num_cols rows (spec_num_cols rows - 1) (by omega)
    have hmem : rows.getD r [] ∈ rows := by
      rw [List.getD_eq_getElem _ _ hr]; exact List.getElem_mem _
    have := length_le_spec_num_cols rows _ hmem
    exact ⟨_, hmem, by omega⟩

theorem pipeline_first_line (s : List Nat) (hs : s.length < 4252442867) (h : s ≠ []) :
    ∃ rest, transpose_pipeline s = (spec_out_line (read_rows s) 0 ++ [10]) ++ rest ∧
      rest.count 10 = (read_text_data s).num_cols - 1 := by
  have hinv := read_text_data_inv s hs
  have hne := spec_lines_ne_nil s h
  refine ⟨(List.range' 1 ((read_text_data s).num_cols - 1)).flatMap
    (fun col => emit_line (read_text_data s) col ++ [10]), ?_, ?_⟩
  · show transpose_text_data (read_text_data s) = _
    rw [transpose_text_data_eq, if_neg (by
      rw [(read_text_data_rows s hs).1]
      exact fun e => hne (List.length_eq_zero.mp e))]
    congr 2
    exact emit_first_line_spec _ _ hinv hne
  · have hlf : ∀ c ∈ List.range' 1 ((read_text_data s).num_cols - 1),
        10 ∉ emit_line (read_text_data s) c :=
      fun c _ => emit_line_no_lf _ _ hinv (spec_lines_no_lf s) c
    rw [count_lf_lines _ _ hlf]
    simp

theorem count_tab_splitOn (l : List Nat) : l.count 9 + 1 = (l.splitOn 9).length := by
  induction l with
  | nil => simp [List.splitOn, List.splitOnP, List.splitOnP.go]
  | cons b t ih =>
    by_cases h9 : b = 9
    · subst h9
      rw [splitOn_cons_tab]
      simp
      omega
    · rw [splitOn_cons_ne b t h9, List.count_cons_of_ne (Ne.symm h9), ih]
      cases List.splitOn 9 t <;> simp [List.modifyHead]

/-! ## Streams built from lines and markers -/

theorem spec_lines_from_append_clean (l : List Nat) (h10 : 10 ∉ l) (h13 : 13 ∉ l) :
    ∀ (s cur : List Nat), spec_lines_from (l ++ s) cur = spec_lines_from s (cur ++ l) := by
  induction l with
  | nil => intro s cur; simp
  | cons b t ih =>
    intro s cur
    have hb10 : b ≠ 10 := fun e => h10 (e ▸ List.mem_cons_self _ _)
    have hb13 : b ≠ 13 := fun e => h13 (e ▸ List.mem_cons_self _ _)
    rw [List.cons_append, spec_lines_from_cons, if_neg hb10, if_neg hb13,
      ih (fun h => h10 (List.mem_cons_of_mem _ h)) (fun h => h13 (List.mem_cons_of_mem _ h))]
    simp

theorem serialise_cons (p : List Nat × eol) (ls : List (List Nat × eol)) :
    serialise (p :: ls) = p.1 ++ p.2.bytes ++ serialise ls := by
  simp [serialise]

theorem serialise_head_lf (q : List Nat × eol) (rest : List (List Nat × eol)) (s : List Nat)
    (hq : 10 ∉ q.1) (h : serialise (q :: rest) = 10 :: s) : q.1 = [] ∧ q.2 = eol.lf := by
  rw [serialise_cons] at h
  obtain ⟨l, t⟩ := q
  cases l with
  | nil =>
    refine ⟨rfl, ?_⟩
    cases t <;> simp [eol.bytes] at h ⊢
  | cons b l' =>
    simp at h
    exact absurd h.1 (fun e => hq (by simp [e]))

theorem spec_lines_serialise (ls : List (List Nat × eol))
    (hclean : ∀ p ∈ ls, 10 ∉ p.1 ∧ 13 ∉ p.1) (hu : eol_unambiguous ls = true) :
    spec_lines (serialise ls) = ls.map Prod.fst := by
  induction ls with
  | nil => simp [serialise, spec_lines, spec_lines_from]
  | cons p rest ih =>
    have hp := hclean p (List.mem_cons_self _ _)
    have hrest : ∀ q ∈ rest, 10 ∉ q.1 ∧ 13 ∉ q.1 := fun q hq =>
      hclean q (List.mem_cons_of_mem _ hq)
    have hu' : eol_unambiguous rest = true := by
      cases rest with
      | nil => rfl
      | cons q r => simp [eol_unambiguous] at hu; exact hu.2
    have IH := ih hrest hu'
    unfold spec_lines at IH ⊢
    rw [serialise_cons, List.append_assoc, spec_lines_from_append_clean _ hp.1 hp.2,
      List.nil_append, List.map_cons]
    cases ht : p.2 with
    | lf =>
      simp only [eol.bytes, List.singleton_append]
      rw [spec_lines_from_cons, if_pos rfl, IH]
    | crlf =>
      simp only [eol.bytes, List.cons_append, List.nil_append]
      rw [spec_lines_from_cons, if_neg (by decide), if_pos rfl]
      simp only [if_true]
      rw [IH]
    | cr =>
      simp only [eol.bytes, List.singleton_append]
      rw [spec_lines_from_cons, if_neg (by decide), if_pos rfl]
      cases hs : serialise rest with
      | nil =>
        rw [hs] at IH
        simp only
        rw [← IH]
        simp [spec_lines_from]
      | cons d s' =>
        rw [hs] at IH
        simp only
        have hd : d ≠ 10 := by
          intro hd
          subst hd
          cases rest with
          | nil => simp [serialise] at hs
          | cons q r =>
            have := serialise_head_lf q r s' (hrest q (List.mem_cons_self _ _)).1 hs
            simp [eol_unambiguous, ht, this.1, this.2] at hu
        rw [if_neg hd, IH]

theorem c_string_append_nul (line tail : List Nat) :
    c_string (line ++ 0 :: tail) = c_string line := by
  induction line with
  | nil => simp [c_string]
  | cons b t ih =>
    unfold c_string at ih ⊢
    rw [List.cons_append, List.takeWhile_cons, List.takeWhile_cons, ih]

theorem c_string_yield (line : List Nat) (r : line_result) (hy : line_yield line r) :
    c_string r.string = c_string line := by
  obtain ⟨pad, hp, hs, _⟩ := hy
  rw [hs]
  rcases hp with rfl | rfl
  · rw [List.append_nil]; exact c_string_append_nul line []
  · rw [List.append_assoc]; exact c_string_append_nul line [0]

theorem read_lines_spec : ∀ (fuel : Nat) (s : List Nat), s.length < fuel →
    s.length < 4294967296 →
    (read_lines fuel s).map (fun r => c_string r.string) = (spec_lines s).map c_string := by
  intro fuel
  induction fuel with
  | zero => intro s h; exact absurd h (Nat.not_lt_zero _)
  | succ fuel ih =>
    intro s hlen hb
    rcases fgets_loop_spec s [] 0 false (by decide) (by simp) (by simp) (by simpa using hb) with
      ⟨h1, h2⟩ | ⟨r, line, h1, h2, h3, h4⟩
    · have : read_lines (fuel + 1) s = [] := by
        simp [read_lines, fgets_strip_realloc_len, h1]
      rw [this]
      show _ = (spec_lines_from s []).map c_string
      rw [h2]; rfl
    · have : read_lines (fuel + 1) s = r :: read_lines fuel r.infile := by
        simp [read_lines, fgets_strip_realloc_len, h1]
      rw [this]
      show _ = (spec_lines_from s []).map c_string
      rw [h3, List.map_cons, List.map_cons, c_string_yield line r h2,
        ih r.infile (by simp at h4; omega) (by simp at h4; omega)]
      rfl

/-- The lines the reader yields on a stream whose lengths fit the `uint32_t`
the reader reports them in. -/
theorem yielded_lines_spec (s : List Nat) (hb : s.length < 4294967296) :
    yielded_lines s = (spec_lines s).map c_string :=
  read_lines_spec _ s (Nat.lt_succ_self _) hb

theorem map_c_string_clean (lines : List (List Nat)) (h : ∀ l ∈ lines, 0 ∉ l) :
    lines.map c_string = lines := by
  induction lines with
  | nil => rfl
  | cons l t ih =>
    rw [List.map_cons, c_string_of_no_nul l (h l (List.mem_cons_self _ _)),
      ih (fun l' hl' => h l' (List.mem_cons_of_mem _ hl'))]

theorem eol_unambiguous_lf (ls : List (List Nat × eol)) :
    eol_unambiguous (ls.map (fun p => (p.1, eol.lf))) = true := by
  induction ls with
  | nil => rfl
  | cons p rest ih =>
    cases rest with
    | nil => rfl
    | cons q r =>
      simp only [List.map_cons, eol_unambiguous] at ih ⊢
      simp [ih]

/-! ## Streams with one marker throughout -/

theorem eol_unambiguous_uniform (t : eol) (lines : List (List Nat)) :
    eol_unambiguous (lines.map (fun l => (l, t))) = true := by
  induction lines with
  | nil => rfl
  | cons l rest ih =>
    cases rest with
    | nil => rfl
    | cons m r =>
      simp only [List.map_cons, eol_unambiguous] at ih ⊢
      cases t <;> simp [ih]

theorem spec_lines_serialise_with (t : eol) (lines : List (List Nat))
    (hclean : ∀ l ∈ lines, 10 ∉ l ∧ 13 ∉ l) : spec_lines (serialise_with t lines) = lines := by
  unfold serialise_with
  rw [spec_lines_serialise _ (by
    intro q hq
    obtain ⟨l, hl, rfl⟩ := List.mem_map.mp hq
    exact hclean l hl) (eol_unambiguous_uniform t lines), List.map_map]
  exact List.map_id _

theorem transpose_pipeline_of_lines (s : List Nat) (hs : s.length < 4252442867)
    (hlen : ∀ l ∈ spec_lines s, l.length < 4294967296) :
    transpose_pipeline s = spec_transpose (read_rows s) :=
  transpose_ingest_spec _ _ (read_text_data_inv s hs) hlen

theorem table_field_spec (s : List Nat) (hs : s.length < 4252442867) (r k : Nat) (hr : r < (spec_lines s).length)
    (hlen : ((spec_lines s).getD r []).length < 4294967296)
    (hk : k < (read_fields ((spec_lines s).getD r [])).length) :
    table_field (read_text_data s) r k = (read_fields ((spec_lines s).getD r [])).getD k [] :=
  (read_text_data_row_ok s hs r hr).2.2.2 hlen k hk

theorem uniform_parse (t : eol) (lines : List (List Nat))
    (hclean : ∀ l ∈ lines, 10 ∉ l ∧ 13 ∉ l)
    (hs : (serialise_with t lines).length < 4252442867) :
    (read_text_data (serialise_with t lines)).num_rows = lines.length ∧
    (read_text_data (serialise_with t lines)).num_cols_per_row
      = (lines.map read_fields).map List.length ∧
    (∀ r k, r < lines.length → k < (read_fields (lines.getD r [])).length →
      table_field (read_text_data (serialise_with t lines)) r k
        = (read_fields (lines.getD r [])).getD k []) ∧
    transpose_pipeline (serialise_with t lines) = spec_transpose (lines.map read_fields) := by
  have hl := spec_lines_serialise_with t lines hclean
  have hrows := read_text_data_rows (serialise_with t lines) hs
  have hbound : ∀ l ∈ lines, l.length < 4294967296 := by
    intro l hmem
    have := spec_lines_length_le (serialise_with t lines) l (by rw [hl]; exact hmem)
    omega
  refine ⟨?_, ?_, ?_, ?_⟩
  · rw [hrows.1, hl]
  · rw [hrows.2.2, read_rows, hl]
  · intro r k hr hk
    have := table_field_spec (serialise_with t lines) hs r k (by rw [hl]; exact hr)
    rw [hl] at this
    exact this (hbound _ (by rw [List.getD_eq_getElem _ _ hr]; exact List.getElem_mem _)) hk
  · rw [transpose_pipeline_of_lines _ hs (by rw [hl]; exact hbound), read_rows, hl]

theorem length_serialise_with_le (t : eol) (lines : List (List Nat)) :
    (serialise_with t lines).length ≤ (serialise_with eol.crlf lines).length := by
  induction lines with
  | nil => cases t <;> simp [serialise_with, serialise]
  | cons l rest ih =>
    simp only [serialise_with, serialise, List.map_cons, List.flatMap_cons,
      List.length_append] at ih ⊢
    cases t <;> simp [eol.bytes] at ih ⊢ <;> omega

theorem length_serialise_lf_le (ls : List (List Nat × eol)) :
    (serialise (ls.map (fun p => (p.1, eol.lf)))).length ≤ (serialise ls).length := by
  induction ls with
  | nil => simp [serialise]
  | cons p rest ih =>
    simp only [serialise, List.map_cons, List.flatMap_cons, List.length_append] at ih ⊢
    cases hp : p.2 <;> simp [eol.bytes] at ih ⊢ <;> omega

/-! ## Tables and their text -/

theorem serialise_with_lf (lines : List (List Nat)) :
    serialise_with eol.lf lines = lines.flatMap (fun l => l ++ [10]) := by
  unfold serialise_with serialise
  rw [List.flatMap_map]
  rfl

theorem intercalate_eq_nil (row : List (List Nat)) (h : [9].intercalate row = []) :
    ∀ c, row.getD c [] = [] := by
  intro c
  cases row with
  | nil => rfl
  | cons a t =>
    cases t with
    | nil =>
      have ha : a = [] := by simpa [List.intercalate] using h
      subst ha
      cases c <;> rfl
    | cons b t' =>
      rw [intercalate_cons_cons] at h
      simp at h

theorem intercalate_ne_nil_of_two (row : List (List Nat)) (h : 2 ≤ row.length) :
    [9].intercalate row ≠ [] := by
  cases row with
  | nil => simp at h
  | cons a t =>
    cases t with
    | nil => simp at h
    | cons b t' =>
      rw [intercalate_cons_cons]
      simp

/-- The fields read back from the text of a row of clean cells. -/
theorem read_fields_intercalate (row : List (List Nat)) (hne : row ≠ [])
    (hclean : ∀ cell ∈ row, 0 ∉ cell ∧ 9 ∉ cell ∧ 10 ∉ cell ∧ 13 ∉ cell) :
    read_fields ([9].intercalate row) = if [9].intercalate row = [] then [] else row := by
  have h0 : 0 ∉ [9].intercalate row :=
    not_mem_intercalate 0 row (by decide) (fun c hc => (hclean c hc).1)
  unfold read_fields spec_fields
  rw [c_string_of_no_nul _ h0]
  split
  · rfl
  · exact List.splitOn_intercalate _ 9 (fun c hc => (hclean c hc).2.1) hne

theorem spec_num_cols_le (rows : List (List (List Nat))) (n : Nat)
    (h : ∀ row ∈ rows, row.length ≤ n) : spec_num_cols rows ≤ n := by
  induction rows using List.reverseRecOn with
  | nil => simp [spec_num_cols]
  | append_singleton rows f ih =>
    rw [spec_num_cols_append]
    exact Nat.max_le.mpr ⟨ih (fun row hr => h row (List.mem_append_left _ hr)),
      h f (List.mem_append_right _ (List.mem_singleton_self _))⟩

theorem table_lines_clean (t : List (List (List Nat))) (cols : Nat)
    (hw : well_formed_table t cols) :
    ∀ l ∈ t.map (fun row => [9].intercalate row), 10 ∉ l ∧ 13 ∉ l := by
  intro l hl
  obtain ⟨row, hrow, rfl⟩ := List.mem_map.mp hl
  exact ⟨not_mem_intercalate 10 row (by decide) (fun c hc => (hw.2.2.2 row hrow c hc).2.2.1),
    not_mem_intercalate 13 row (by decide) (fun c hc => (hw.2.2.2 row hrow c hc).2.2.2)⟩

theorem table_read_rows (t : List (List (List Nat))) (cols : Nat)
    (hw : well_formed_table t cols) :
    read_rows (serialise_table t) =
      t.map (fun row => if [9].intercalate row = [] then [] else row) := by
  unfold read_rows serialise_table
  rw [spec_lines_serialise_with eol.lf _ (table_lines_clean t cols hw), List.map_map]
  apply List.map_congr_left
  intro row hrow
  have hne : row ≠ [] := by
    intro h
    have := hw.2.2.1 row hrow
    rw [h] at this
    have := hw.2.1
    simp at *
    omega
  exact read_fields_intercalate row hne (hw.2.2.2 row hrow)

/-! ## One run of the pipeline on a table -/

theorem squash_cell (t : List (List (List Nat))) (c r : Nat) :
    spec_cell (t.map (fun row => if [9].intercalate row = [] then [] else row)) c r
      = spec_cell t c r := by
  have hrow : (t.map (fun row => if [9].intercalate row = [] then [] else row)).getD r []
      = if [9].intercalate (t.getD r []) = [] then [] else t.getD r [] := by
    by_cases hr : r < t.length
    · rw [List.getD_eq_getElem _ _ (by simpa using hr), List.getD_eq_getElem _ _ hr,
        List.getElem_map]
    · rw [List.getD_eq_default _ _ (by simp; omega), List.getD_eq_default t _ (by omega)]
      rfl
  unfold spec_cell
  rw [hrow]
  split
  · rename_i h
    rw [intercalate_eq_nil _ h c]
    rfl
  · rfl

theorem squash_length (t : List (List (List Nat))) (cols : Nat)
    (hw : well_formed_table t cols) :
    (∀ row ∈ t.map (fun row => if [9].intercalate row = [] then [] else row),
      row.length ≤ cols) ∧
    (2 ≤ cols → ∀ row ∈ t.map (fun row => if [9].intercalate row = [] then [] else row),
      row.length = cols) := by
  refine ⟨?_, ?_⟩
  · intro row hrow
    obtain ⟨row0, h0, rfl⟩ := List.mem_map.mp hrow
    split
    · simp
    · exact Nat.le_of_eq (hw.2.2.1 row0 h0)
  · intro h2 row hrow
    obtain ⟨row0, h0, rfl⟩ := List.mem_map.mp hrow
    rw [if_neg (intercalate_ne_nil_of_two row0 (by rw [hw.2.2.1 row0 h0]; exact h2))]
    exact hw.2.2.1 row0 h0

theorem squash_num_cols (t : List (List (List Nat))) (cols : Nat)
    (hw : well_formed_table t cols) :
    max 1 (spec_num_cols (t.map (fun row => if [9].intercalate row = [] then [] else row)))
      = cols := by
  have hle := spec_num_cols_le _ cols (squash_length t cols hw).1
  have h1 := hw.2.1
  by_cases h2 : 2 ≤ cols
  · obtain ⟨row, hrow⟩ := List.exists_mem_of_ne_nil
      (t.map (fun row => if [9].intercalate row = [] then [] else row)) (by simpa using hw.1)
    have := length_le_spec_num_cols _ row hrow
    rw [(squash_length t cols hw).2 h2 row hrow] at this
    omega
  · omega

theorem squash_col_rows (t : List (List (List Nat))) (cols : Nat)
    (hw : well_formed_table t cols) (c : Nat) (hc : c < cols) :
    spec_col_rows (t.map (fun row => if [9].intercalate row = [] then [] else row)) c
      = t.length := by
  by_cases h0 : c = 0
  · simp [spec_col_rows, h0]
  · have hle := spec_col_rows_le
      (t.map (fun row => if [9].intercalate row = [] then [] else row)) c
    have hpos : 0 < t.length := List.length_pos.mpr hw.1
    have hlast : t.length - 1
        < (t.map (fun row => if [9].intercalate row = [] then [] else row)).length := by
      simp; omega
    have hmem : (t.map (fun row => if [9].intercalate row = [] then [] else row)).getD
        (t.length - 1) [] ∈ t.map (fun row => if [9].intercalate row = [] then [] else row) := by
      rw [List.getD_eq_getElem _ _ hlast]; exact List.getElem_mem _
    have := lt_spec_col_rows _ c (t.length - 1) hlast (by
      rw [(squash_length t cols hw).2 (by omega) _ hmem]; exact hc)
    simp at hle
    omega

theorem pipeline_table (t : List (List (List Nat))) (cols : Nat)
    (hw : well_formed_table t cols) (hlen : (serialise_table t).length < 4252442867) :
    transpose_pipeline (serialise_table t) = serialise_table (transpose_table t cols) := by
  rw [transpose_pipeline_spec _ hlen, table_read_rows t cols hw,
    spec_transpose_lines _ (by simpa using hw.1), squash_num_cols t cols hw]
  unfold serialise_table transpose_table
  rw [serialise_with_lf, List.map_map]
  congr 1
  apply List.map_congr_left
  intro c hc
  have hc := List.mem_range.mp hc
  show spec_out_line _ c = [9].intercalate _
  unfold spec_out_line
  rw [squash_col_rows t cols hw c hc]
  congr 1
  apply List.map_congr_left
  intro r _
  exact squash_cell t c r

/-! ## The transpose of a table -/

theorem transpose_table_cell (t : List (List (List Nat))) (cols c r : Nat)
    (hc : c < cols) (hr : r < t.length) :
    ((transpose_table t cols).getD c []).getD r [] = (t.getD r []).getD c [] := by
  have h1 : (transpose_table t cols).getD c []
      = (List.range t.length).map (fun r => spec_cell t c r) := by
    unfold transpose_table
    rw [List.getD_eq_getElem _ _ (by simpa using hc)]
    simp
  rw [h1, List.getD_eq_getElem _ _ (by simpa using hr)]
  simp [spec_cell]

theorem transpose_table_well_formed (t : List (List (List Nat))) (cols : Nat)
    (hw : well_formed_table t cols) : well_formed_table (transpose_table t cols) t.length := by
  obtain ⟨h1, h2, h3, h4⟩ := hw
  refine ⟨?_, List.length_pos.mpr h1, ?_, ?_⟩
  · intro h
    have := congrArg List.length h
    simp [transpose_table] at this
    omega
  · intro row hrow
    obtain ⟨c, _, rfl⟩ := List.mem_map.mp hrow
    simp
  · intro row hrow cell hcell
    obtain ⟨c, hc, rfl⟩ := List.mem_map.mp hrow
    obtain ⟨r, hr, rfl⟩ := List.mem_map.mp hcell
    have hc := List.mem_range.mp hc
    have hr := List.mem_range.mp hr
    have hrow : t.getD r [] ∈ t := by
      rw [List.getD_eq_getElem _ _ hr]; exact List.getElem_mem _
    have hcell : spec_cell t c r ∈ t.getD r [] := by
      unfold spec_cell
      rw [List.getD_eq_getElem (t.getD r []) _ (by rw [h3 _ hrow]; exact hc)]
      exact List.getElem_mem _
    exact h4 _ hrow _ hcell

theorem transpose_table_involutive (t : List (List (List Nat))) (cols : Nat)
    (hw : well_formed_table t cols) :
    transpose_table (transpose_table t cols) t.length = t := by
  have hlen : (transpose_table t cols).length = cols := by simp [transpose_table]
  apply List.ext_getElem
  · simp [transpose_table]
  · intro r h1 h2
    apply List.ext_getElem
    · have : t[r].length = cols := hw.2.2.1 _ (List.getElem_mem _)
      simp [transpose_table, this]
    · intro c h3 h4
      have hc : c < cols := by
        have : t[r].length = cols := hw.2.2.1 _ (List.getElem_mem _)
        omega
      have e1 : (transpose_table (transpose_table t cols) t.length)[r][c]
          = spec_cell (transpose_table t cols) r c := by
        simp [transpose_table]
      rw [e1]
      unfold spec_cell
      rw [transpose_table_cell t cols c r hc h2, List.getD_eq_getElem _ _ h2,
        List.getD_eq_getElem _ _ h4]

theorem length_intercalate_succ (row : List (List Nat)) (hne : row ≠ []) :
    ([9].intercalate row).length + 1 = (row.map (fun cell => cell.length + 1)).sum := by
  induction row with
  | nil => exact absurd rfl hne
  | cons a t ih =>
    cases t with
    | nil => simp [List.intercalate]
    | cons b t' =>
      rw [intercalate_cons_cons, List.map_cons, List.sum_cons, ← ih (by simp)]
      simp
      omega

theorem length_serialise_table (t : List (List (List Nat))) (h : ∀ row ∈ t, row ≠ []) :
    (serialise_table t).length
      = (t.map (fun row => (row.map (fun cell => cell.length + 1)).sum)).sum := by
  unfold serialise_table
  rw [serialise_with_lf]
  induction t with
  | nil => rfl
  | cons row rest ih =>
    rw [List.map_cons, List.flatMap_cons, List.length_append, List.map_cons, List.sum_cons,
      ih (fun r hr => h r (List.mem_cons_of_mem _ hr)),
      ← length_intercalate_succ row (h row (List.mem_cons_self _ _))]
    simp

theorem sum_range_swap (g : Nat → Nat → Nat) (m n : Nat) :
    ((List.range m).map (fun r => ((List.range n).map (fun c => g r c)).sum)).sum
      = ((List.range n).map (fun c => ((List.range m).map (fun r => g r c)).sum)).sum := by
  induction m with
  | zero => simp
  | succ m ih =>
    rw [List.range_succ, List.map_append, List.sum_append, ih]
    simp only [List.map_singleton, List.sum_singleton, List.range_succ, List.map_append,
      List.sum_append]
    rw [List.sum_map_add]

theorem row_eq_range_map (row : List (List Nat)) :
    row = (List.range row.length).map (fun c => row.getD c []) := by
  apply List.ext_getElem
  · simp
  · intro c h1 h2
    simp [List.getElem?_eq_getElem h1]

theorem weight_table (t : List (List (List Nat))) (cols : Nat)
    (h : ∀ row ∈ t, row.length = cols) :
    (t.map (fun row => (row.map (fun cell => cell.length + 1)).sum)).sum
      = ((List.range t.length).map (fun r =>
          ((List.range cols).map (fun c => (spec_cell t c r).length + 1)).sum)).sum := by
  congr 1
  apply List.ext_getElem
  · simp
  · intro r h1 h2
    have hr : r < t.length := by simpa using h1
    simp only [List.getElem_map, List.getElem_range]
    have hrow := h t[r] (List.getElem_mem _)
    conv_lhs => rw [row_eq_range_map t[r], hrow]
    rw [List.map_map]
    congr 1
    apply List.map_congr_left
    intro c _
    simp [spec_cell, List.getElem?_eq_getElem hr]

theorem length_transpose_table (t : List (List (List Nat))) (cols : Nat)
    (hw : well_formed_table t cols) :
    (serialise_table (transpose_table t cols)).length = (serialise_table t).length := by
  have hw' := transpose_table_well_formed t cols hw
  have hne : ∀ n (u : List (List (List Nat))), well_formed_table u n → ∀ row ∈ u, row ≠ [] := by
    intro n u hu row hrow h
    have := hu.2.2.1 row hrow
    rw [h] at this
    have := hu.2.1
    simp at *
    omega
  rw [length_serialise_table _ (hne _ _ hw'), length_serialise_table _ (hne _ _ hw),
    weight_table t cols hw.2.2.1, weight_table _ t.length hw'.2.2.1, sum_range_swap]
  have hlen : (transpose_table t cols).length = cols := by simp [transpose_table]
  rw [hlen]
  congr 1
  apply List.map_congr_left
  intro a ha
  congr 1
  apply List.map_congr_left
  intro b hb
  have ha := List.mem_range.mp ha
  have hb := List.mem_range.mp hb
  show (spec_cell (transpose_table t cols) a b).length + 1 = (spec_cell t b a).length + 1
  unfold spec_cell
  rw [transpose_table_cell t cols b a hb ha]

theorem table_cells_of_text (t : List (List (List Nat))) (cols : Nat)
    (hw : well_formed_table t cols) :
    ((serialise_table t).splitOn 10).dropLast.map (fun l => l.splitOn 9) = t := by
  unfold serialise_table
  rw [serialise_with_lf, splitOn_lines _ (fun l hl => (table_lines_clean t cols hw l hl).1),
    List.dropLast_concat, List.map_map]
  conv_rhs => rw [← List.map_id t]
  apply List.map_congr_left
  intro row hrow
  have hne : row ≠ [] := by
    intro h
    have := hw.2.2.1 row hrow
    rw [h] at this
    have := hw.2.1
    simp at *
    omega
  exact List.splitOn_intercalate _ 9 (fun c hc => (hw.2.2.2 row hrow c hc).2.1) hne

/-! ## A stream without a final marker -/

theorem spec_lines_from_append_lf : ∀ (n : Nat) (s cur : List Nat), s.length ≤ n →
    (s ≠ [] ∨ cur ≠ []) → (∀ h : s ≠ [], s.getLast h ≠ 10 ∧ s.getLast h ≠ 13) →
    spec_lines_from (s ++ [10]) cur = spec_lines_from s cur := by
  intro n
  induction n with
  | zero =>
    intro s cur hs hne _
    have : s = [] := List.length_eq_zero.mp (Nat.le_zero.mp hs)
    subst this
    have hc : cur ≠ [] := by
      rcases hne with h | h
      · exact absurd rfl h
      · exact h
    rw [List.nil_append, spec_lines_from_cons]
    simp [spec_lines_from, hc]
  | succ n ih =>
    intro s cur hs hne hlast
    cases s with
    | nil =>
      have hc : cur ≠ [] := by
        rcases hne with h | h
        · exact absurd rfl h
        · exact h
      rw [List.nil_append, spec_lines_from_cons]
      simp [spec_lines_from, hc]
    | cons c rest =>
      have hrest : rest.length ≤ n := by simpa using hs
      have hl := hlast (by simp)
      rw [List.cons_append, spec_lines_from_cons, spec_lines_from_cons]
      cases rest with
      | nil =>
        simp only [List.getLast_singleton] at hl
        rw [if_neg hl.1, if_neg hl.2, if_neg hl.1, if_neg hl.2]
        simp [spec_lines_from_cons, spec_lines_from]
      | cons d rest' =>
        have hl' : ∀ h : d :: rest' ≠ [], (d :: rest').getLast h ≠ 10 ∧ (d :: rest').getLast h ≠ 13 := by
          intro h
          rw [List.getLast_cons h] at hl
          exact hl
        by_cases h10 : c = 10
        · rw [if_pos h10, if_pos h10, ih (d :: rest') [] hrest (Or.inl (by simp)) hl']
        · rw [if_neg h10, if_neg h10]
          by_cases h13 : c = 13
          · rw [if_pos h13, if_pos h13]
            simp only [List.cons_append]
            by_cases hd : d = 10
            · simp only [hd, if_true]
              have hne' : rest' ≠ [] := by
                intro h
                subst h
                subst hd
                simp at hl
              have hl'' : ∀ h : rest' ≠ [], rest'.getLast h ≠ 10 ∧ rest'.getLast h ≠ 13 := by
                intro h
                have := hl' (by simp)
                rw [List.getLast_cons h] at this
                exact this
              rw [ih rest' [] (by simp at hrest; omega) (Or.inl hne') hl'']
            · simp only [hd, if_false]
              have := ih (d :: rest') [] hrest (Or.inl (by simp)) hl'
              rw [List.cons_append] at this
              rw [this]
          · rw [if_neg h13, if_neg h13]
            exact ih (d :: rest') (cur ++ [c]) hrest (Or.inl (by simp)) hl'

/-! ## The recorded field starts -/

theorem spec_tab_positions_cons (b : Nat) (t : List Nat) :
    spec_tab_positions (b :: t) =
      (if b = 9 then [0] else []) ++ (spec_tab_positions t).map (fun p => p + 1) := by
  unfold spec_tab_positions
  rw [List.length_cons, List.range_succ_eq_map, List.filter_cons, List.filter_map]
  have h0 : (b :: t).getD 0 0 = b := rfl
  have hf : ((fun i => decide ((b :: t).getD i 0 = 9)) ∘ Nat.succ)
      = fun i => decide (t.getD i 0 = 9) := by
    funext i
    rfl
  rw [h0, hf]
  by_cases h9 : b = 9 <;> simp [h9]

theorem spec_tab_positions_length (text : List Nat) :
    (spec_tab_positions text).length = text.count 9 := by
  induction text with
  | nil => rfl
  | cons b t ih =>
    rw [spec_tab_positions_cons]
    by_cases h9 : b = 9
    · subst h9
      simp [ih]
    · simp [h9, ih, List.count_cons_of_ne (Ne.symm h9)]

theorem mem_spec_tab_positions (text : List Nat) (p : Nat) :
    p ∈ spec_tab_positions text ↔ p < text.length ∧ text.getD p 0 = 9 := by
  simp [spec_tab_positions]

theorem spec_tab_positions_sorted (text : List Nat) :
    (spec_tab_positions text).Sorted (· < ·) := by
  unfold spec_tab_positions
  exact (List.pairwise_lt_range _).filter _

theorem split_tabs_loop_starts (text : List Nat) (h0 : ∀ x ∈ text, x ≠ 0) :
    ∀ (cptr sptr : Nat) (tail : List Nat),
      (split_tabs_loop (text ++ 0 :: tail) cptr sptr).2 =
        sptr :: (spec_tab_positions text).map (fun p => p + (cptr + 1)) := by
  induction text with
  | nil =>
    intro cptr sptr tail
    rw [List.nil_append, split_tabs_loop_nul]
    rfl
  | cons b t ih =>
    intro cptr sptr tail
    have hb : b ≠ 0 := h0 b (List.mem_cons_self _ _)
    have ht : ∀ x ∈ t, x ≠ 0 := fun y hy => h0 y (List.mem_cons_of_mem _ hy)
    rw [List.cons_append, spec_tab_positions_cons]
    by_cases h9 : b = 9
    · subst h9
      rw [split_tabs_loop_tab, ih ht]
      simp only [if_true, List.singleton_append, List.map_cons, List.map_map, Nat.zero_add]
      congr 2
      apply List.map_congr_left
      intro p _
      simp only [Function.comp]
      omega
    · rw [split_tabs_loop_other b _ _ _ hb h9, ih ht]
      simp only [h9, if_false, List.nil_append, List.map_map]
      congr 1
      apply List.map_congr_left
      intro p _
      simp only [Function.comp]
      omega

theorem split_tabs_starts (text tail : List Nat) (h0 : ∀ x ∈ text, x ≠ 0) :
    (split_tabs (text ++ 0 :: tail)).2 = spec_field_starts text := by
  unfold split_tabs spec_field_starts
  rw [split_tabs_loop_starts text h0]

/-! ## Consumption of the stream -/

theorem fgets_loop_suffix (s : List Nat) : ∀ (cur : List Nat) (old_c : Nat) (any : Bool),
    ∃ consumed, s = consumed ++ (fgets_loop s cur old_c any).2.2 := by
  induction s with
  | nil => intro cur old_c any; exact ⟨[], rfl⟩
  | cons c rest ih =>
    intro cur old_c any
    by_cases h10 : c = 10
    · exact ⟨[c], by simp [fgets_loop, h10]⟩
    · by_cases hold : old_c = 13
      · exact ⟨[], by simp [fgets_loop, h10, hold]⟩
      · obtain ⟨consumed, hc⟩ := ih (cur ++ [c]) c true
        refine ⟨c :: consumed, ?_⟩
        simp only [fgets_loop, h10, hold, if_false, List.cons_append]
        rw [← hc]

theorem fgets_finish_infile (x : List Nat × Bool × List Nat) (r : line_result)
    (h : fgets_finish x = some r) : r.infile = x.2.2 := by
  unfold fgets_finish at h
  simp only at h
  split_ifs at h <;> (simp only [Option.some.injEq] at h; rw [← h])

theorem reader_consumes (s : List Nat) (hb : s.length < 4294967296) (r : line_result)
    (h : fgets_strip_realloc_len s = some r) :
    (∃ consumed, consumed ≠ [] ∧ s = consumed ++ r.infile) ∧ r.infile.length < s.length := by
  have hlt : r.infile.length < s.length := by
    rcases fgets_loop_spec s [] 0 false (by decide) (by simp) (by simp) (by simpa using hb) with
      ⟨h1, _⟩ | ⟨r', line, h1, _, _, h4⟩
    · unfold fgets_strip_realloc_len at h
      rw [h1] at h
      exact absurd h (by simp)
    · unfold fgets_strip_realloc_len at h
      rw [h1] at h
      simp only [Option.some.injEq] at h
      subst h
      simpa using h4
  obtain ⟨consumed, hc⟩ := fgets_loop_suffix s [] 0 false
  rw [← fgets_finish_infile _ r h] at hc
  refine ⟨⟨consumed, ?_, hc⟩, hlt⟩
  intro e
  rw [e, List.nil_append] at hc
  rw [← hc] at hlt
  exact Nat.lt_irrefl _ hlt

theorem read_loop_fuel : ∀ (fuel1 fuel2 : Nat) (s : List Nat) (st : ingest_state),
    s.length < fuel1 → s.length < fuel2 → s.length < 4294967296 →
    read_loop fuel1 s st = read_loop fuel2 s st := by
  intro fuel1
  induction fuel1 with
  | zero => intro _ s st h; exact absurd h (Nat.not_lt_zero _)
  | succ f1 ih =>
    intro fuel2 s st h1 h2 hb
    cases fuel2 with
    | zero => exact absurd h2 (Nat.not_lt_zero _)
    | succ f2 =>
      cases hr : fgets_strip_realloc_len s with
      | none => simp [read_loop, hr]
      | some r =>
        have := (reader_consumes s hb r hr).2
        simp only [read_loop, hr]
        exact ih f2 r.infile _ (by omega) (by omega) (by omega)

theorem spec_lines_from_length_le : ∀ (n : Nat) (s cur : List Nat), s.length ≤ n →
    (spec_lines_from s cur).length ≤ s.length + (if cur = [] then 0 else 1) := by
  intro n
  induction n with
  | zero =>
    intro s cur hs
    have : s = [] := List.length_eq_zero.mp (Nat.le_zero.mp hs)
    subst this
    by_cases hc : cur = [] <;> simp [spec_lines_from, hc]
  | succ n ih =>
    intro s cur hs
    cases s with
    | nil => by_cases hc : cur = [] <;> simp [spec_lines_from, hc]
    | cons c rest =>
      have hrest : rest.length ≤ n := by simpa using hs
      rw [spec_lines_from_cons]
      by_cases h10 : c = 10
      · rw [if_pos h10]
        have := ih rest [] hrest
        simp at this ⊢
        omega
      · rw [if_neg h10]
        by_cases h13 : c = 13
        · rw [if_pos h13]
          cases rest with
          | nil => simp
          | cons d rest' =>
            by_cases hd : d = 10
            · have := ih rest' [] (by simp at hrest; omega)
              simp [hd] at this ⊢
              omega
            · have := ih (d :: rest') [] hrest
              simp [hd] at this ⊢
              omega
        · rw [if_neg h13]
          have := ih rest (cur ++ [c]) hrest
          simp at this ⊢
          omega

/-! ## The row entries of an ingested table -/

theorem read_loop_rows : ∀ (fuel : Nat) (s : List Nat) (st : ingest_state),
    (read_loop fuel s st).lines = st.lines ++ (read_lines fuel s).map row_line ∧
    (read_loop fuel s st).line_idxs = st.line_idxs ++ (read_lines fuel s).map row_idxs ∧
    (read_loop fuel s st).line_bits = st.line_bits ++ (read_lines fuel s).map row_bits ∧
    (read_loop fuel s st).num_cols_per_row
      = st.num_cols_per_row ++ (read_lines fuel s).map row_num_fields := by
  intro fuel
  induction fuel with
  | zero => intro s st; simp [read_loop, read_lines]
  | succ fuel ih =>
    intro s st
    cases hr : fgets_strip_realloc_len s with
    | none => simp [read_loop, read_lines, hr]
    | some r =>
      obtain ⟨i1, i2, i3, i4⟩ := ih r.infile (ingest_line st r.string r.length)
      simp only [read_loop, read_lines, hr, List.map_cons]
      rw [i1, i2, i3, i4, ingest_line_lines, ingest_line_idxs, ingest_line_bits,
        ingest_line_num_cols]
      simp [row_line, row_idxs, row_bits, row_num_fields]

theorem read_text_data_entries (s : List Nat) :
    (read_text_data s).lines = (read_lines (s.length + 1) s).map row_line ∧
    (read_text_data s).line_idxs = (read_lines (s.length + 1) s).map row_idxs ∧
    (read_text_data s).line_bits = (read_lines (s.length + 1) s).map row_bits ∧
    (read_text_data s).num_cols_per_row = (read_lines (s.length + 1) s).map row_num_fields := by
  have := read_loop_rows (s.length + 1) s ingest_init
  simpa [read_text_data, ingest_result, ingest_init] using this

theorem read_lines_yield : ∀ (fuel : Nat) (s : List Nat), s.length < fuel →
    s.length < 4294967296 →
    List.Forall₂ line_yield (spec_lines s) (read_lines fuel s) := by
  intro fuel
  induction fuel with
  | zero => intro s h; exact absurd h (Nat.not_lt_zero _)
  | succ fuel ih =>
    intro s hlen hb
    rcases fgets_loop_spec s [] 0 false (by decide) (by simp) (by simp) (by simpa using hb) with
      ⟨h1, h2⟩ | ⟨r, line, h1, h2, h3, h4⟩
    · have e : read_lines (fuel + 1) s = [] := by
        simp [read_lines, fgets_strip_realloc_len, h1]
      rw [e]
      show List.Forall₂ line_yield (spec_lines_from s []) []
      rw [h2]
      exact List.Forall₂.nil
    · have e : read_lines (fuel + 1) s = r :: read_lines fuel r.infile := by
        simp [read_lines, fgets_strip_realloc_len, h1]
      rw [e]
      show List.Forall₂ line_yield (spec_lines_from s []) _
      rw [h3]
      exact List.Forall₂.cons h2 (ih r.infile (by simp at h4; omega) (by simp at h4; omega))

theorem read_text_data_row (s : List Nat) (hb : s.length < 4294967296) (r : Nat)
    (hr : r < (spec_lines s).length) :
    ∃ res, line_yield ((spec_lines s).getD r []) res ∧
      (read_text_data s).lines[r]? = some (row_line res) ∧
      (read_text_data s).line_idxs[r]? = some (row_idxs res) ∧
      (read_text_data s).line_bits[r]? = some (row_bits res) ∧
      (read_text_data s).num_cols_per_row[r]? = some (row_num_fields res) := by
  have hy := read_lines_yield (s.length + 1) s (Nat.lt_succ_self _) hb
  have hlen := hy.length_eq
  have hr' : r < (read_lines (s.length + 1) s).length := by omega
  obtain ⟨e1, e2, e3, e4⟩ := read_text_data_entries s
  refine ⟨(read_lines (s.length + 1) s)[r], ?_, ?_, ?_, ?_, ?_⟩
  · rw [List.getD_eq_getElem _ _ hr]
    exact List.Forall₂.get hy hr hr'
  · rw [e1, List.getElem?_map, List.getElem?_eq_getElem hr']; rfl
  · rw [e2, List.getElem?_map, List.getElem?_eq_getElem hr']; rfl
  · rw [e3, List.getElem?_map, List.getElem?_eq_getElem hr']; rfl
  · rw [e4, List.getElem?_map, List.getElem?_eq_getElem hr']; rfl

/-! ## Width and offsets of a row -/

theorem yield_starts (line : List Nat) (res : line_result) (hy : line_yield line res) :
    (split_tabs res.string).2 = spec_field_starts (c_string line) := by
  obtain ⟨tail, hs, _⟩ := split_tabs_yield line res hy
  rw [hs]
  exact split_tabs_starts _ tail (c_string_no_nul line)

theorem spec_field_starts_length (text : List Nat) :
    (spec_field_starts text).length = (text.splitOn 9).length := by
  rw [spec_field_starts, List.length_cons, List.length_map, spec_tab_positions_length,
    count_tab_splitOn]

theorem read_fields_length (line : List Nat) (h : read_fields line ≠ []) :
    (read_fields line).length = (spec_field_starts (c_string line)).length := by
  rw [spec_field_starts_length]
  unfold read_fields spec_fields at h ⊢
  by_cases hnil : c_string line = []
  · rw [if_pos hnil] at h; exact absurd rfl h
  · rw [if_neg hnil]

theorem spec_max_offset_eq (text : List Nat) :
    spec_max_offset text
      = (spec_field_starts text).getD ((spec_field_starts text).length - 1) 0 := by
  unfold spec_max_offset
  rw [List.getLast_eq_getElem, List.getD_eq_getElem]

theorem spec_field_starts_le (text : List Nat) :
    ∀ o ∈ spec_field_starts text, o ≤ spec_max_offset text ∧ o ≤ text.length := by
  intro o ho
  -- the starts are sorted, and bounded by the length of the text
  have hsorted : (spec_field_starts text).Sorted (· < ·) := by
    unfold spec_field_starts
    rw [List.sorted_cons]
    refine ⟨?_, ?_⟩
    · intro b hb
      obtain ⟨p, _, rfl⟩ := List.mem_map.mp hb
      omega
    · exact (spec_tab_positions_sorted text).map _ (fun a b h => by omega)
  refine ⟨?_, ?_⟩
  · obtain ⟨i, hi, rfl⟩ := List.getElem_of_mem ho
    rw [spec_max_offset_eq]
    have hlast : (spec_field_starts text).length - 1 < (spec_field_starts text).length := by
      omega
    rw [List.getD_eq_getElem _ _ hlast]
    by_cases hil : i = (spec_field_starts text).length - 1
    · subst hil; exact Nat.le_refl _
    · exact Nat.le_of_lt (List.pairwise_iff_getElem.mp hsorted i _ hi hlast (by omega))
  · unfold spec_field_starts at ho
    rcases List.mem_cons.mp ho with rfl | h
    · exact Nat.zero_le _
    · obtain ⟨p, hp, rfl⟩ := List.mem_map.mp h
      have := ((mem_spec_tab_positions text p).mp hp).1
      omega

/-- The row entries stored for a line that has fields. -/
theorem row_entries_of_yield (line : List Nat) (res : line_result) (hy : line_yield line res)
    (hf : read_fields line ≠ []) (hlen : line.length < 4294967296) :
    row_num_fields res = (read_fields line).length ∧
    row_bits res = choose_bits (spec_max_offset (c_string line)) ∧
    row_idxs res = some (store_fields (choose_bits (spec_max_offset (c_string line)))
      (spec_field_starts (c_string line))) ∧
    row_line res = some (split_tabs res.string).1 ∧
    (split_tabs res.string).1.length = res.length + 1 := by
  have hn := line_num_fields_spec line res hy
  have hst := yield_starts line res hy
  have hl := read_fields_length line hf
  have hpos : (read_fields line).length ≠ 0 := fun e => hf (List.length_eq_zero.mp e)
  have hn0 : line_num_fields res.string ≠ 0 := by rw [hn]; exact hpos
  have hm : (split_tabs res.string).2.getD (line_num_fields res.string - 1) 0 % 4294967296
      = spec_max_offset (c_string line) := by
    rw [hst, hn, hl, ← spec_max_offset_eq]
    apply Nat.mod_eq_of_lt
    have h1 := (spec_field_starts_le (c_string line) (spec_max_offset (c_string line)) (by
      unfold spec_max_offset; exact List.getLast_mem _)).2
    have h2 := c_string_length_le line
    omega
  have htake : (split_tabs res.string).1.take (res.length + 1) = (split_tabs res.string).1 := by
    rw [List.take_of_length_le]; rw [split_tabs_length line res hy]
  refine ⟨hn, ?_, ?_, ?_, split_tabs_length line res hy⟩
  · unfold row_bits
    rw [if_pos hn0, hm]
  · unfold row_idxs
    rw [if_pos hn0, hm, hst, hn, hl, List.take_length]
  · unfold row_line
    rw [if_pos hn0, htake]

theorem load_store_width (w : Nat) (hw : w = 8 ∨ w = 16 ∨ w = 24 ∨ w = 32) (offs : List Nat)
    (k : Nat) (hk : k < offs.length) :
    load_field w (store_fields w offs) k = offs.getD k 0 % 2 ^ w := by
  rcases hw with rfl | rfl | rfl | rfl
  · show load_u8 (offs.flatMap store_u8) k = _
    rw [load_store_u8 offs k hk]
    norm_num
  · show load_u16 (offs.flatMap store_u16) k = _
    rw [load_store_u16 offs k hk]
    norm_num
  · show load_u24 (offs.flatMap store_u24) k = _
    rw [load_store_u24 offs k hk]
    norm_num
  · show load_u32 (offs.flatMap store_u32) k = _
    rw [load_store_u32 offs k hk]
    norm_num

theorem choose_bits_cases (m : Nat) :
    choose_bits m = 8 ∨ choose_bits m = 16 ∨ choose_bits m = 24 ∨ choose_bits m = 32 := by
  unfold choose_bits
  split_ifs <;> simp

theorem choose_bits_spec (m : Nat) :
    (choose_bits m = 8 ↔ m ≤ 255) ∧ (choose_bits m = 16 ↔ 256 ≤ m ∧ m ≤ 65535) ∧
    (choose_bits m = 24 ↔ 65536 ≤ m ∧ m ≤ 16777215) ∧ (choose_bits m = 32 ↔ 16777216 ≤ m) := by
  unfold choose_bits
  split_ifs <;> refine ⟨?_, ?_, ?_, ?_⟩ <;> constructor <;> intro h <;> omega

theorem spec_max_offset_lt (s : List Nat) (hlen : s.length < 4252442867) (r : Nat)
    (hr : r < (spec_lines s).length) :
    ((spec_lines s).getD r []).length < 4294967296 ∧
    spec_max_offset (c_string ((spec_lines s).getD r [])) < 4294967296 := by
  have h1 : ((spec_lines s).getD r []).length < 4294967296 := by
    have := spec_lines_length_le s ((spec_lines s).getD r []) (by
      rw [List.getD_eq_getElem _ _ hr]; exact List.getElem_mem _)
    omega
  refine ⟨h1, ?_⟩
  have h2 := (spec_field_starts_le (c_string ((spec_lines s).getD r []))
    (spec_max_offset (c_string ((spec_lines s).getD r []))) (by
      unfold spec_max_offset; exact List.getLast_mem _)).2
  have h3 := c_string_length_le ((spec_lines s).getD r [])
  omega

/-! ## The row counters of an ingested table -/

theorem read_text_data_counters (s : List Nat) (hs : s.length < 4252442867) :
    (spec_lines s ≠ [] → 0 < (read_text_data s).num_rows_per_col.length) ∧
    (read_text_data s).num_cols ≤ (read_text_data s).num_rows_per_col.length ∧
    (∀ c, c < (read_text_data s).num_rows_per_col.length →
      (read_text_data s).num_rows_per_col[c]? = some (spec_col_rows (read_rows s) c)) := by
  obtain ⟨_, _, h3, _, _, _, _, h8, h9, h10, h11, _⟩ := read_text_data_inv s hs
  have hl : (read_text_data s).num_rows_per_col.length
      = (read_loop (s.length + 1) s ingest_init).max_allocated_cols := h8
  refine ⟨fun hne => by rw [hl]; exact h10 hne, ?_, ?_⟩
  · rw [hl]
    show (read_loop (s.length + 1) s ingest_init).max_col ≤ _
    rw [h3]; exact h9
  · intro c hc
    have := h11 c (by rw [← hl]; exact hc)
    change (read_text_data s).num_rows_per_col.getD c 0 = _ at this
    rw [List.getD_eq_getElem _ _ hc] at this
    rw [List.getElem?_eq_getElem hc, this]
    rfl

/-! ## Sizes of the row entries -/

theorem length_flatMap_chunk (f : Nat → List Nat) (w : Nat) (hw : ∀ x, (f x).length = w)
    (l : List Nat) : (l.flatMap f).length = l.length * w := by
  induction l with
  | nil => simp
  | cons a t ih =>
    rw [List.flatMap_cons, List.length_append, ih, hw, List.length_cons]
    rw [Nat.add_mul, Nat.one_mul, Nat.add_comm]

theorem store_fields_length (m : Nat) (offs : List Nat) :
    (store_fields (choose_bits m) offs).length * 8 = offs.length * choose_bits m := by
  rcases choose_bits_cases m with h | h | h | h <;> rw [h]
  · show (offs.flatMap store_u8).length * 8 = _
    rw [length_flatMap_chunk store_u8 1 (fun _ => rfl)]
    omega
  · show (offs.flatMap store_u16).length * 8 = _
    rw [length_flatMap_chunk store_u16 2 (fun _ => rfl)]
    omega
  · show (offs.flatMap store_u24).length * 8 = _
    rw [length_flatMap_chunk store_u24 3 (fun _ => rfl)]
    omega
  · show (offs.flatMap store_u32).length * 8 = _
    rw [length_flatMap_chunk store_u32 4 (fun _ => rfl)]
    omega

theorem load_store_le (m : Nat) (offs : List Nat) (k : Nat) (hk : k < offs.length) :
    load_field (choose_bits m) (store_fields (choose_bits m) offs) k ≤ offs.getD k 0 := by
  rw [load_store_width _ (choose_bits_cases m) offs k hk]
  exact Nat.mod_le _ _

theorem yield_terminator (line : List Nat) (res : line_result) (hy : line_yield line res) :
    (split_tabs res.string).1.getD res.length 1 = 0 := by
  obtain ⟨tail, hs, h1, _⟩ := split_tabs_yield line res hy
  obtain ⟨pad, hp, hs', hl⟩ := hy
  have hstr : res.string.getD res.length 1 = 0 := by
    rw [hs', hl, List.getD_append_right _ _ _ _ (by simp)]
    simp
  have hge : (c_string line).length ≤ res.length := by
    have := c_string_length_le line
    omega
  rw [hs, List.getD_append_right _ _ _ _ hge] at hstr
  rw [h1, List.getD_append_right _ _ _ _ (by simpa using hge)]
  simpa using hstr

/-- The row entries stored for a line, whatever its length. -/
theorem row_entries_raw (line : List Nat) (res : line_result) (hy : line_yield line res) :
    (row_num_fields res = 0 → row_line res = none ∧ row_idxs res = none) ∧
    (row_num_fields res ≠ 0 →
      ∃ buf idxs, row_line res = some buf ∧ row_idxs res = some idxs ∧
        (row_bits res = 8 ∨ row_bits res = 16 ∨ row_bits res = 24 ∨ row_bits res = 32) ∧
        buf.length = res.length + 1 ∧ buf.getD res.length 1 = 0 ∧
        idxs.length * 8 = row_num_fields res * row_bits res ∧
        ∀ col, col < row_num_fields res → load_field (row_bits res) idxs col ≤ res.length) := by
  refine ⟨?_, ?_⟩
  · intro h0
    unfold row_num_fields at h0
    unfold row_line row_idxs
    rw [if_neg (fun h => h h0), if_neg (fun h => h h0)]
    exact ⟨rfl, rfl⟩
  · intro hn0
    unfold row_num_fields at hn0 ⊢
    have hraw : line_num_fields res.string = (split_tabs res.string).2.length := by
      unfold line_num_fields at hn0 ⊢
      split
      · rename_i h; rw [if_pos h] at hn0; exact absurd rfl hn0
      · rfl
    have htake : (split_tabs res.string).1.take (res.length + 1) = (split_tabs res.string).1 := by
      rw [List.take_of_length_le]; rw [split_tabs_length line res hy]
    have hbits : row_bits res
        = choose_bits ((split_tabs res.string).2.getD (line_num_fields res.string - 1) 0
          % 4294967296) := by
      unfold row_bits; rw [if_pos hn0]
    have hidx : row_idxs res = some (store_fields (row_bits res) (split_tabs res.string).2) := by
      rw [hbits]
      unfold row_idxs
      rw [if_pos hn0]
      conv_lhs => rw [hraw, List.take_length]
      rw [hraw]
    refine ⟨(split_tabs res.string).1, store_fields (row_bits res) (split_tabs res.string).2,
      ?_, hidx, ?_, split_tabs_length line res hy, yield_terminator line res hy, ?_, ?_⟩
    · unfold row_line; rw [if_pos hn0, htake]
    · rw [hbits]; exact choose_bits_cases _
    · rw [hbits, hraw]
      exact store_fields_length _ _
    · intro col hcol
      rw [hraw] at hcol
      rw [hbits]
      refine Nat.le_trans (load_store_le _ _ col hcol) ?_
      have h1 := (split_tabs_offsets_le line res hy ((split_tabs res.string).2.getD col 0) (by
        rw [List.getD_eq_getElem _ _ hcol]; exact List.getElem_mem _)).2
      obtain ⟨pad, _, _, hl⟩ := hy
      omega

theorem read_text_data_lengths (s : List Nat) (hs : s.length < 4252442867) :
    (read_text_data s).lines.length = (read_text_data s).num_rows ∧
    (read_text_data s).line_idxs.length = (read_text_data s).num_rows ∧
    (read_text_data s).line_bits.length = (read_text_data s).num_rows ∧
    (read_text_data s).num_cols_per_row.length = (read_text_data s).num_rows := by
  obtain ⟨_, h2, _, h4, h5, h6, h7, _⟩ := read_text_data_inv s hs
  have hrows : (read_text_data s).num_rows = (spec_lines s).length := h2
  rw [hrows]
  exact ⟨h4, h5, h6, h7⟩

/-! ## Running the pipeline on its own output -/

theorem spec_out_line_no_cr (s : List Nat) (c : Nat) : 13 ∉ spec_out_line (read_rows s) c := by
  unfold spec_out_line
  apply not_mem_intercalate 13 _ (by decide)
  intro cell hcell
  obtain ⟨r, _, rfl⟩ := List.mem_map.mp hcell
  exact (spec_cell_pieces s c r).2.2.1

theorem spec_lines_pipeline (s : List Nat) (hlen : s.length < 4252442867) (hne : s ≠ []) :
    spec_lines (transpose_pipeline s) =
      (List.range (max 1 (spec_num_cols (read_rows s)))).map (spec_out_line (read_rows s)) := by
  have hrows : read_rows s ≠ [] := by
    simpa [read_rows] using spec_lines_ne_nil s hne
  rw [transpose_pipeline_spec s hlen, spec_transpose_lines _ hrows, ← serialise_with_lf]
  apply spec_lines_serialise_with
  intro l hl
  obtain ⟨c, _, rfl⟩ := List.mem_map.mp hl
  exact ⟨spec_out_line_no_lf s c, spec_out_line_no_cr s c⟩

theorem read_fields_out_line (s : List Nat) (c : Nat) :
    read_fields (spec_out_line (read_rows s) c) =
      if spec_out_line (read_rows s) c = [] then []
      else (List.range (spec_col_rows (read_rows s) c)).map (spec_cell (read_rows s) c) := by
  by_cases hpos : spec_col_rows (read_rows s) c = 0
  · have : spec_out_line (read_rows s) c = [] := by
      unfold spec_out_line
      rw [hpos]
      rfl
    rw [this, if_pos rfl]
    rfl
  · unfold spec_out_line
    apply read_fields_intercalate
    · intro h
      have := congrArg List.length h
      simp at this
      exact hpos this
    · intro cell hcell
      obtain ⟨r, _, rfl⟩ := List.mem_map.mp hcell
      have := spec_cell_pieces s c r
      exact ⟨this.2.2.2, this.1, this.2.1, this.2.2.1⟩

theorem spec_cell_default (rows : List (List (List Nat))) (c r : Nat)
    (h : ¬ (r < rows.length ∧ c < (rows.getD r []).length)) : spec_cell rows c r = [] := by
  unfold spec_cell
  by_cases hr : r < rows.length
  · exact List.getD_eq_default _ _ (by
      have : ¬ c < (rows.getD r []).length := fun hc => h ⟨hr, hc⟩
      omega)
  · rw [List.getD_eq_default rows [] (by omega)]
    rfl

theorem spec_cell_range (rows : List (List (List Nat))) (c r : Nat) :
    ((List.range (spec_col_rows rows c)).map (spec_cell rows c)).getD r [] = spec_cell rows c r := by
  by_cases hr : r < spec_col_rows rows c
  · rw [List.getD_eq_getElem _ _ (by simpa using hr)]
    simp
  · rw [List.getD_eq_default _ _ (by simpa using hr)]
    symm
    apply spec_cell_default
    intro h
    exact hr (lt_spec_col_rows rows c r h.1 h.2)

/-- Row `c` of the table read back from the output of the pipeline: the cells
of output line `c`. -/
theorem read_rows_pipeline_getD (s : List Nat) (hlen : s.length < 4252442867) (hne : s ≠ [])
    (c : Nat) (hc : c < max 1 (spec_num_cols (read_rows s))) :
    (read_rows (transpose_pipeline s)).getD c [] =
      if spec_out_line (read_rows s) c = [] then []
      else (List.range (spec_col_rows (read_rows s) c)).map (spec_cell (read_rows s) c) := by
  have hl := spec_lines_pipeline s hlen hne
  have hc' : c < (spec_lines (transpose_pipeline s)).length := by
    rw [hl]; simpa using hc
  rw [read_rows_getD _ c hc', List.getD_eq_getElem _ _ hc']
  have : (spec_lines (transpose_pipeline s))[c] = spec_out_line (read_rows s) c := by
    simp [hl]
  rw [this, read_fields_out_line]

theorem read_rows_pipeline_length (s : List Nat) (hlen : s.length < 4252442867) (hne : s ≠ []) :
    (read_rows (transpose_pipeline s)).length = max 1 (spec_num_cols (read_rows s)) := by
  rw [read_rows_length, spec_lines_pipeline s hlen hne]
  simp

theorem transpose_pipeline_nil : transpose_pipeline [] = [] := by decide

/-- The cells of the table read back from the output are the cells of the
input table with row and column exchanged. -/
theorem spec_cell_pipeline (s : List Nat) (hlen : s.length < 4252442867) (i c : Nat) :
    spec_cell (read_rows (transpose_pipeline s)) i c = spec_cell (read_rows s) c i := by
  by_cases hne : s = []
  · subst hne
    rw [transpose_pipeline_nil]
    rfl
  · by_cases hc : c < max 1 (spec_num_cols (read_rows s))
    · show ((read_rows (transpose_pipeline s)).getD c []).getD i [] = _
      rw [read_rows_pipeline_getD s hlen hne c hc]
      split
      · rename_i hnil
        have := intercalate_eq_nil _ hnil i
        rw [spec_cell_range] at this
        rw [this]
        rfl
      · exact spec_cell_range _ c i
    · rw [spec_cell_default _ i c (by
        rw [read_rows_pipeline_length s hlen hne]
        exact fun h => hc h.1)]
      symm
      apply spec_cell_default
      intro h
      have := length_le_spec_num_cols (read_rows s) ((read_rows s).getD i [])
        (by rw [List.getD_eq_getElem _ _ h.1]; exact List.getElem_mem _)
      omega

theorem transpose_pipeline_ne_nil (s : List Nat) (hlen : s.length < 4252442867) (hne : s ≠ []) :
    transpose_pipeline s ≠ [] := by
  have hrows : read_rows s ≠ [] := by
    simpa [read_rows] using spec_lines_ne_nil s hne
  rw [transpose_pipeline_spec s hlen]
  unfold spec_transpose
  rw [if_neg hrows]
  simp

/-- The cells of any output line, the first one included. -/
theorem pipeline_line_cells (s : List Nat) (hlen : s.length < 4252442867) (hne : s ≠ [])
    (c : Nat) (hc : c < max 1 (spec_num_cols (read_rows s))) :
    (((transpose_pipeline s).splitOn 10).getD c []).splitOn 9 =
      (List.range (spec_col_rows (read_rows s) c)).map (spec_cell (read_rows s) c) := by
  have hl := spec_lines_ne_nil s hne
  rw [pipeline_lines s hlen hl]
  have h1 : c < ((List.range (max 1 (spec_num_cols (read_rows s)))).map
      (spec_out_line (read_rows s))).length := by
    simpa using hc
  rw [List.getD_append _ _ _ _ h1, List.getD_eq_getElem _ _ h1]
  simp only [List.getElem_map, List.getElem_range]
  apply spec_out_line_cells
  by_cases h0 : c = 0
  · subst h0
    have : 0 < (read_rows s).length := by
      rw [read_rows_length]
      exact List.length_pos.mpr hl
    simpa [spec_col_rows] using this
  · exact spec_col_rows_pos _ c (by omega)

/-- Any cell of the output, read with the empty string as default, is a cell
of the table or empty. -/
theorem pipeline_cell_getD (s : List Nat) (hlen : s.length < 4252442867) (i j : Nat) :
    ((((transpose_pipeline s).splitOn 10).getD i []).splitOn 9).getD j [] = [] ∨
    ((((transpose_pipeline s).splitOn 10).getD i []).splitOn 9).getD j [] =
      spec_cell (read_rows s) i j := by
  by_cases hne : s = []
  · subst hne
    left
    rw [transpose_pipeline_nil]
    cases i <;> cases j <;> rfl
  · by_cases hi : i < max 1 (spec_num_cols (read_rows s))
    · right
      rw [pipeline_line_cells s hlen hne i hi, spec_cell_range]
    · left
      have hline : ((transpose_pipeline s).splitOn 10).getD i [] = [] := by
        rw [pipeline_lines s hlen (spec_lines_ne_nil s hne)]
        have hlen' : ((List.range (max 1 (spec_num_cols (read_rows s)))).map
            (spec_out_line (read_rows s))).length ≤ i := by
          simp; omega
        rw [List.getD_append_right _ _ _ _ hlen']
        generalize i - _ = k
        cases k <;> rfl
      rw [hline]
      cases j <;> rfl

/-! ## Return values of the entry point -/

theorem fopen_wt_fst (w : os_state) (name : List Nat) : (fopen_wt w name).1 = w.can_write name := by
  unfold fopen_wt
  split <;> simp_all

theorem fopen_rb_snd (w : os_state) (name : List Nat) :
    (fopen_rb w name).2 =
      { w with trace := w.trace ++ [os_event.open_read name (fopen_rb w name).1.isSome] } := rfl

theorem read_text_data_file_named (w : os_state) (name : List Nat) (h : name ≠ [45]) :
    read_text_data_file w (some name) =
      match (fopen_rb w name).1 with
      | none =>
        (none, { (fopen_rb w name).2 with
          stderr := (fopen_rb w name).2.stderr ++ [diagnostic.cant_open_input name] })
      | some bytes => (some (read_text_data bytes), (fopen_rb w name).2) := by
  simp only [read_text_data_file, if_neg h]
  rcases hr : fopen_rb w name with ⟨r, w1⟩
  cases r <;> rfl

theorem read_text_data_file_can_write (w : os_state) (filename : Option (List Nat)) :
    (read_text_data_file w filename).2.can_write = w.can_write := by
  cases filename with
  | none => rfl
  | some name =>
    by_cases h : name = [45]
    · subst h; rfl
    · rw [read_text_data_file_named w name h]
      cases (fopen_rb w name).1 <;> rfl

/-! ## The checked emitter on a table within bounds -/

theorem emit_all_checked_eq (f : Nat → Option (List Nat)) (g : Nat → List Nat) (l : List Nat)
    (h : ∀ i ∈ l, f i = some (g i)) : emit_all_checked f l = some (l.flatMap g) := by
  induction l with
  | nil => rfl
  | cons i rest ih =>
    rw [emit_all_checked, h i (List.mem_cons_self _ _),
      ih (fun j hj => h j (List.mem_cons_of_mem _ hj))]
    rfl

theorem load_field_checked_eq (bits : Nat) (idxs : List Nat) (col n : Nat)
    (hb : bits = 8 ∨ bits = 16 ∨ bits = 24 ∨ bits = 32) (hl : idxs.length * 8 = n * bits)
    (hc : col < n) : load_field_checked bits idxs col = some (load_field bits idxs col) := by
  unfold load_field_checked load_field
  rcases hb with h | h | h | h <;> subst h <;> simp <;> omega

theorem mem_drop_of_getLast (buf : List Nat) (off : Nat) (hlast : buf.getLast? = some 0)
    (hoff : off < buf.length) : 0 ∈ buf.drop off := by
  have hne : buf.drop off ≠ [] := by
    intro e
    have := congrArg List.length e
    simp at this
    omega
  have h1 : (buf.drop off).getLast? = some 0 := by
    rw [List.getLast?_drop, if_neg (by omega)]
    exact hlast
  rw [List.getLast?_eq_getLast _ hne] at h1
  have := List.getLast_mem hne
  rw [Option.some.inj h1] at this
  exact this

theorem mem_of_getLast (buf : List Nat) (hlast : buf.getLast? = some 0) : 0 ∈ buf := by
  cases buf with
  | nil => simp at hlast
  | cons a t => simpa using mem_drop_of_getLast (a :: t) 0 hlast (by simp)

theorem emit_first_cell_checked_eq (td : text_data) (row : Nat) (hlt : row < td.num_rows)
    (hlen : td.num_cols_per_row.length = td.num_rows)
    (hrow : ∀ (row n : Nat), td.num_cols_per_row[row]? = some n → n ≠ 0 →
      ∃ (buf : List Nat), td.lines[row]? = some (some buf) ∧ buf.getLast? = some 0) :
    emit_first_cell_checked td row = some (emit_first_cell td row) := by
  have hr : row < td.num_cols_per_row.length := by omega
  have hn : td.num_cols_per_row[row]? = some (td.num_cols_per_row.getD row 0) := by
    rw [List.getD_eq_getElem _ _ hr, List.getElem?_eq_getElem hr]
  unfold emit_first_cell_checked emit_first_cell
  rw [if_pos hlt, hn]
  simp only
  by_cases h0 : td.num_cols_per_row.getD row 0 = 0
  · have h0' : ¬ (td.num_cols_per_row.getD row 0 ≠ 0) := fun h => h h0
    rw [if_neg h0', if_neg h0']
  · obtain ⟨buf, hl, hlast⟩ := hrow row _ hn h0
    have hg : td.lines.getD row none = some buf := by
      rw [List.getD_eq_getElem?_getD, hl]; rfl
    rw [if_pos h0, if_pos h0, hl, hg]
    simp only
    unfold fputs_checked
    rw [if_pos (mem_of_getLast buf hlast)]
    rfl

theorem emit_cell_checked_eq (td : text_data) (col row : Nat) (hlt : row < td.num_rows)
    (hlen : td.num_cols_per_row.length = td.num_rows)
    (hrow : ∀ (row n : Nat), td.num_cols_per_row[row]? = some n → n ≠ 0 →
      ∃ (buf idxs : List Nat) (bits : Nat),
        td.lines[row]? = some (some buf) ∧ td.line_idxs[row]? = some (some idxs) ∧
        td.line_bits[row]? = some bits ∧ (bits = 8 ∨ bits = 16 ∨ bits = 24 ∨ bits = 32) ∧
        idxs.length * 8 = n * bits ∧ buf.getLast? = some 0 ∧
        ∀ col, col < n → load_field bits idxs col + 1 ≤ buf.length) :
    emit_cell_checked td col row = some (emit_cell td col row) := by
  have hr : row < td.num_cols_per_row.length := by omega
  have hn : td.num_cols_per_row[row]? = some (td.num_cols_per_row.getD row 0) := by
    rw [List.getD_eq_getElem _ _ hr, List.getElem?_eq_getElem hr]
  unfold emit_cell_checked emit_cell
  rw [if_pos hlt, hn]
  simp only
  by_cases hc : col < td.num_cols_per_row.getD row 0
  · obtain ⟨buf, idxs, bits, hl, hi, hb, hbits, hsize, hlast, hoff⟩ :=
      hrow row _ hn (by omega)
    have g1 : td.lines.getD row none = some buf := by
      rw [List.getD_eq_getElem?_getD, hl]; rfl
    have g2 : td.line_idxs.getD row none = some idxs := by
      rw [List.getD_eq_getElem?_getD, hi]; rfl
    have g3 : td.line_bits.getD row 0 = bits := by
      rw [List.getD_eq_getElem?_getD, hb]; rfl
    rw [if_pos hc, if_pos hc, hl, hi, hb, g1, g2, g3]
    simp only
    rw [load_field_checked_eq bits idxs col _ hbits hsize hc]
    simp only
    have := hoff col hc
    rw [if_pos (by omega)]
    unfold fputs_checked
    rw [if_pos (mem_drop_of_getLast buf _ hlast (by omega))]
    rfl
  · rw [if_neg hc, if_neg hc]

/-- On a table within the bounds below the checked emitter reads no array
outside its bounds, and writes what `transpose_text_data` writes. -/
theorem transpose_checked_of_bounds (td : text_data)
    (h0 : td.num_rows ≠ 0 → 0 < td.num_rows_per_col.length)
    (h1 : ∀ col, 1 ≤ col → col < td.num_cols → col < td.num_rows_per_col.length)
    (hlen : td.num_cols_per_row.length = td.num_rows)
    (hle : ∀ (col v : Nat), td.num_rows_per_col[col]? = some v → v ≤ td.num_rows)
    (hrow : ∀ (row n : Nat), td.num_cols_per_row[row]? = some n → n ≠ 0 →
      ∃ (buf idxs : List Nat) (bits : Nat),
        td.lines[row]? = some (some buf) ∧ td.line_idxs[row]? = some (some idxs) ∧
        td.line_bits[row]? = some bits ∧ (bits = 8 ∨ bits = 16 ∨ bits = 24 ∨ bits = 32) ∧
        idxs.length * 8 = n * bits ∧ buf.getLast? = some 0 ∧
        ∀ col, col < n → load_field bits idxs col + 1 ≤ buf.length) :
    transpose_text_data_checked td = some (transpose_text_data td) := by
  unfold transpose_text_data_checked transpose_text_data
  by_cases hz : td.num_rows = 0
  · rw [if_pos hz, if_pos hz]
  · rw [if_neg hz, if_neg hz]
    have hcol : ∀ col, col < td.num_rows_per_col.length →
        td.num_rows_per_col[col]? = some (td.num_rows_per_col.getD col 0) := by
      intro col hc
      rw [List.getD_eq_getElem _ _ hc, List.getElem?_eq_getElem hc]
    rw [hcol 0 (h0 hz)]
    simp only
    rw [emit_all_checked_eq (emit_first_cell_checked td) (emit_first_cell td) _ (by
      intro row hr
      have hr' := List.mem_range.mp hr
      have := hle 0 _ (hcol 0 (h0 hz))
      apply emit_first_cell_checked_eq td row (by omega) hlen
      intro row n hn hn0
      obtain ⟨buf, _, _, hl, _, _, _, _, hlast, _⟩ := hrow row n hn hn0
      exact ⟨buf, hl, hlast⟩)]
    rw [emit_all_checked_eq _ (fun col =>
      (List.range (td.num_rows_per_col.getD col 0)).flatMap (emit_cell td col) ++ [10]) _ (by
      intro col hc
      have hc' := List.mem_range'_1.mp hc
      have hcl := h1 col hc'.1 (by omega)
      simp only
      rw [hcol col hcl]
      simp only
      rw [emit_all_checked_eq (emit_cell_checked td col) (emit_cell td col) _ (by
        intro row hr
        have hr' := List.mem_range.mp hr
        have := hle col _ (hcol col hcl)
        exact emit_cell_checked_eq td col row (by omega) hlen hrow)]
      rfl)]

/-! ## Streams without NUL bytes -/

theorem read_fields_of_no_nul (line : List Nat) (h : 0 ∉ line) :
    read_fields line = spec_fields line := by
  rw [read_fields, c_string_of_no_nul line h]

/-- In a stream without NUL byte the program reads every line whole: the rows
it reads are the rows of the stream. -/
theorem read_rows_of_no_nul (s : List Nat) (h0 : 0 ∉ s) : read_rows s = spec_rows s := by
  unfold read_rows spec_rows
  apply List.map_congr_left
  intro line hline
  exact read_fields_of_no_nul line (fun h => h0 (spec_lines_subset s line hline 0 h))

theorem spec_rows_getD (s : List Nat) (r : Nat) (hr : r < (spec_lines s).length) :
    (spec_rows s).getD r [] = spec_fields ((spec_lines s).getD r []) := by
  unfold spec_rows
  rw [List.getD_eq_getElem _ _ (by simpa using hr), List.getD_eq_getElem _ _ hr]
  simp

theorem spec_rows_length (s : List Nat) : (spec_rows s).length = (spec_lines s).length := by
  simp [spec_rows]

/-! ## The buffer of the reader -/

/-- The loop of the reader stores at most one byte for each byte it reads, so
`total_length` is at most the number of bytes of the stream plus one. -/
theorem fgets_loop_length_le (s : List Nat) : ∀ (cur : List Nat) (old_c : Nat) (any : Bool),
    (fgets_loop s cur old_c any).1.length ≤ cur.length + s.length := by
  induction s with
  | nil => intro cur old_c any; simp [fgets_loop]
  | cons c rest ih =>
    intro cur old_c any
    unfold fgets_loop
    split
    · split <;> simp
    · split
      · simp
      · have := ih (cur ++ [c]) c true
        simp at this ⊢
        omega

/-! ## Cell-for-cell transposition -/

/-- C1: for a NUL-free input stream (shorter than `4252442867` bytes, the range
of the model), every row
index `i` and every column index `j` below the field count of row `i`, output
line `j` split on tabs has a cell at position `i`, and that cell is field `j`
of input row `i`. -/
theorem transpose_cell_correct (s : List Nat) (h0 : 0 ∉ s) (hlen : s.length < 4252442867)
    (i j : Nat) (hi : i < (spec_lines s).length)
    (hj : j < (spec_fields ((spec_lines s).getD i [])).length) :
    ((((transpose_pipeline s).splitOn 10).getD j []).splitOn 9)[i]? =
      some ((spec_fields ((spec_lines s).getD i [])).getD j []) := by
  have hline : 0 ∉ (spec_lines s).getD i [] := by
    rw [List.getD_eq_getElem _ _ hi]
    exact fun h => h0 (spec_lines_subset s _ (List.getElem_mem _) 0 h)
  have hrow : (read_rows s).getD i [] = spec_fields ((spec_lines s).getD i []) := by
    rw [read_rows_getD s i hi, read_fields, c_string_of_no_nul _ hline]
  have hi' : i < (read_rows s).length := by rw [read_rows_length]; exact hi
  have hjr : j < ((read_rows s).getD i []).length := by rw [hrow]; exact hj
  have hcols : j < spec_num_cols (read_rows s) := by
    have := length_le_spec_num_cols (read_rows s) ((read_rows s).getD i [])
      (by rw [List.getD_eq_getElem _ _ hi']; exact List.getElem_mem _)
    omega
  have hlt := lt_spec_col_rows (read_rows s) j i hi' hjr
  rw [pipeline_cells s hlen j hcols, List.getElem?_map, List.getElem?_range hlt]
  show some (((read_rows s).getD i []).getD j []) = _
  rw [hrow]

theorem transpose_cell_correct_witness :
    (0 ∉ [97, 9, 98, 9, 99, 10, 100, 9, 101, 10] ∧
      1 < (spec_lines [97, 9, 98, 9, 99, 10, 100, 9, 101, 10]).length ∧
      1 < (spec_fields ((spec_lines [97, 9, 98, 9, 99, 10, 100, 9, 101, 10]).getD 1 [])).length) ∧
    ((((transpose_pipeline [97, 9, 98, 9, 99, 10, 100, 9, 101, 10]).splitOn 10).getD 1
      []).splitOn 9)[1]? = some [101] :=
  ⟨⟨by decide, by decide, by decide⟩,
    transpose_cell_correct [97, 9, 98, 9, 99, 10, 100, 9, 101, 10] (by decide) (by decide) 1 1
      (by decide) (by decide)⟩

/-- C2, refuted as stated: in the input `a` tab `b` LF, NUL tab `c` LF the
second line has the two fields NUL and `c`, so the last row with more than
one field is row 2; `num_cols` is 2, yet output line 1 has the single cell
`b`: the program reads the second line as a C string, which is empty. -/
theorem ragged_line_counterexample :
    spec_rows [97, 9, 98, 10, 0, 9, 99, 10] = [[[97], [98]], [[0], [99]]] ∧
    spec_col_rows (spec_rows [97, 9, 98, 10, 0, 9, 99, 10]) 1 = 2 ∧
    (read_text_data [97, 9, 98, 10, 0, 9, 99, 10]).num_cols = 2 ∧
    (((transpose_pipeline [97, 9, 98, 10, 0, 9, 99, 10]).splitOn 10).getD 1 []).splitOn 9
      = [[98]] ∧
    ((((transpose_pipeline [97, 9, 98, 10, 0, 9, 99, 10]).splitOn 10).getD 1 []).splitOn
      9).length ≠ spec_col_rows (spec_rows [97, 9, 98, 10, 0, 9, 99, 10]) 1 := by
  decide

/-- C2, amended: for every input free of NUL bytes (shorter than `4252442867`
bytes, the range of the model) and every column `c` with `1 ≤ c < num_cols`,
let `L` be the 1-based index of the last input row with more than `c` fields;
output line `c` has exactly `L` tab-separated cells, and cell `r < L` is field
`c` of row `r` when the row has more than `c` fields and is empty otherwise.
The example input of the specification transposes as stated. -/
theorem transpose_ragged_line (s : List Nat) (h0 : 0 ∉ s) (hlen : s.length < 4252442867)
    (c : Nat) (hc1 : 1 ≤ c) (hc2 : c < (read_text_data s).num_cols) :
    (1 ≤ spec_col_rows (spec_rows s) c ∧
      spec_col_rows (spec_rows s) c ≤ (spec_lines s).length ∧
      c < (spec_fields ((spec_lines s).getD (spec_col_rows (spec_rows s) c - 1) [])).length ∧
      ∀ r, spec_col_rows (spec_rows s) c ≤ r → r < (spec_lines s).length →
        (spec_fields ((spec_lines s).getD r [])).length ≤ c) ∧
    ((((transpose_pipeline s).splitOn 10).getD c []).splitOn 9).length
      = spec_col_rows (spec_rows s) c ∧
    (∀ r, r < spec_col_rows (spec_rows s) c →
      ((((transpose_pipeline s).splitOn 10).getD c []).splitOn 9).getD r [] =
        if c < (spec_fields ((spec_lines s).getD r [])).length then
          (spec_fields ((spec_lines s).getD r [])).getD c []
        else []) ∧
    transpose_pipeline [97, 9, 98, 9, 99, 10, 100, 9, 101, 10]
      = [97, 9, 100, 10, 98, 9, 101, 10, 99, 10] := by
  have hrows := read_rows_of_no_nul s h0
  have hc : c < spec_num_cols (spec_rows s) := by
    rw [← hrows, ← (read_text_data_rows s hlen).2.1]; exact hc2
  have hpos := spec_col_rows_pos _ c hc
  have hle := spec_col_rows_le (spec_rows s) c
  rw [spec_rows_length] at hle
  have hget : ∀ r, r < (spec_lines s).length →
      (spec_rows s).getD r [] = spec_fields ((spec_lines s).getD r []) :=
    fun r hr => spec_rows_getD s r hr
  have hcells := pipeline_cells s hlen c (by rw [hrows]; exact hc)
  rw [hrows] at hcells
  refine ⟨⟨hpos, hle, ?_, ?_⟩, ?_, ?_, by decide⟩
  · rw [← hget _ (by omega)]
    exact spec_col_rows_last _ c (by omega) hpos
  · intro r hr1 hr2
    rw [← hget r hr2]
    by_contra hlt
    have := lt_spec_col_rows (spec_rows s) c r (by rw [spec_rows_length]; exact hr2) (by omega)
    omega
  · rw [hcells]
    simp
  · intro r hr
    rw [hcells, List.getD_eq_getElem _ _ (by simpa using hr)]
    simp only [List.getElem_map, List.getElem_range, spec_cell]
    rw [hget r (by omega)]
    split
    · rfl
    · rw [List.getD_eq_default _ _ (by omega)]

theorem transpose_ragged_line_witness :
    0 ∉ [97, 9, 98, 9, 99, 10, 100, 9, 101, 10, 102, 10] ∧
    1 < (read_text_data [97, 9, 98, 9, 99, 10, 100, 9, 101, 10, 102, 10]).num_cols ∧
    spec_col_rows (spec_rows [97, 9, 98, 9, 99, 10, 100, 9, 101, 10, 102, 10]) 1 = 2 ∧
    ((((transpose_pipeline [97, 9, 98, 9, 99, 10, 100, 9, 101, 10, 102, 10]).splitOn 10).getD 1
      []).splitOn 9).length
      = spec_col_rows (spec_rows [97, 9, 98, 9, 99, 10, 100, 9, 101, 10, 102, 10]) 1 :=
  ⟨by decide, by decide, by decide,
    (transpose_ragged_line [97, 9, 98, 9, 99, 10, 100, 9, 101, 10, 102, 10]
      (by decide) (by decide) 1 (by decide) (by decide)).2.1⟩

/-! ## Round trip -/

/-- C3: for a table of at least one row and at least one column, all rows of
the same length, with cells free of NUL, tab, LF and CR bytes (and a text
shorter than `4252442867` bytes, the range of the model), running the pipeline on the output of a first
run gives back the text of the table, whose lines split on tabs are the
original rows, cell for cell. -/
theorem round_trip (t : List (List (List Nat))) (cols : Nat)
    (hw : well_formed_table t cols) (hlen : (serialise_table t).length < 4252442867) :
    transpose_pipeline (transpose_pipeline (serialise_table t)) = serialise_table t ∧
    ((transpose_pipeline (transpose_pipeline (serialise_table t))).splitOn 10).dropLast.map
      (fun l => l.splitOn 9) = t := by
  have h1 := pipeline_table t cols hw hlen
  have hw' := transpose_table_well_formed t cols hw
  have hlen' : (serialise_table (transpose_table t cols)).length < 4252442867 := by
    rw [length_transpose_table t cols hw]; exact hlen
  have h2 := pipeline_table _ _ hw' hlen'
  have h3 : transpose_pipeline (transpose_pipeline (serialise_table t)) = serialise_table t := by
    rw [h1, h2, transpose_table_involutive t cols hw]
  exact ⟨h3, by rw [h3]; exact table_cells_of_text t cols hw⟩

theorem round_trip_witness :
    well_formed_table [[[97], [], [98, 99]], [[100], [101], []]] 3 ∧
    transpose_pipeline (transpose_pipeline
        (serialise_table [[[97], [], [98, 99]], [[100], [101], []]]))
      = serialise_table [[[97], [], [98, 99]], [[100], [101], []]] :=
  ⟨by unfold well_formed_table; decide,
    (round_trip [[[97], [], [98, 99]], [[100], [101], []]] 3
      (by unfold well_formed_table; decide) (by decide)).1⟩

/-! ## End-of-line neutrality -/

/-- C4: for line contents free of CR, LF and NUL bytes (in streams shorter
than `4252442867` bytes, the range of the model; the CR LF stream is the
longest of the three), the serialisations that end every line with LF, with
CR LF and with CR are parsed into the same number of rows, the same field
count per row and the same field texts, and their transposed outputs are
byte-identical. -/
theorem eol_neutral (lines : List (List Nat))
    (hclean : ∀ l ∈ lines, 0 ∉ l ∧ 10 ∉ l ∧ 13 ∉ l)
    (hlen : (serialise_with eol.crlf lines).length < 4252442867) :
    ((read_text_data (serialise_with eol.lf lines)).num_rows = lines.length ∧
      (read_text_data (serialise_with eol.crlf lines)).num_rows = lines.length ∧
      (read_text_data (serialise_with eol.cr lines)).num_rows = lines.length) ∧
    ((read_text_data (serialise_with eol.lf lines)).num_cols_per_row
        = (read_text_data (serialise_with eol.crlf lines)).num_cols_per_row ∧
      (read_text_data (serialise_with eol.crlf lines)).num_cols_per_row
        = (read_text_data (serialise_with eol.cr lines)).num_cols_per_row) ∧
    (∀ r k, r < lines.length →
      k < (read_text_data (serialise_with eol.lf lines)).num_cols_per_row.getD r 0 →
      table_field (read_text_data (serialise_with eol.lf lines)) r k
        = (spec_fields (lines.getD r [])).getD k [] ∧
      table_field (read_text_data (serialise_with eol.crlf lines)) r k
        = (spec_fields (lines.getD r [])).getD k [] ∧
      table_field (read_text_data (serialise_with eol.cr lines)) r k
        = (spec_fields (lines.getD r [])).getD k []) ∧
    transpose_pipeline (serialise_with eol.lf lines)
      = transpose_pipeline (serialise_with eol.crlf lines) ∧
    transpose_pipeline (serialise_with eol.crlf lines)
      = transpose_pipeline (serialise_with eol.cr lines) := by
  have hc : ∀ l ∈ lines, 10 ∉ l ∧ 13 ∉ l := fun l hl => (hclean l hl).2
  have hlf := length_serialise_with_le eol.lf lines
  have hcr := length_serialise_with_le eol.cr lines
  obtain ⟨a1, a2, a3, a4⟩ := uniform_parse eol.lf lines hc (by omega)
  obtain ⟨b1, b2, b3, b4⟩ := uniform_parse eol.crlf lines hc hlen
  obtain ⟨c1, c2, c3, c4⟩ := uniform_parse eol.cr lines hc (by omega)
  refine ⟨⟨a1, b1, c1⟩, ⟨by rw [a2, b2], by rw [b2, c2]⟩, ?_, by rw [a4, b4], by rw [b4, c4]⟩
  intro r k hr hk
  have hrow : read_fields (lines.getD r []) = spec_fields (lines.getD r []) := by
    rw [read_fields, c_string_of_no_nul _ (by
      rw [List.getD_eq_getElem _ _ hr]; exact (hclean _ (List.getElem_mem _)).1)]
  have hk' : k < (read_fields (lines.getD r [])).length := by
    rw [a2, List.getD_eq_getElem _ _ (by simpa using hr)] at hk
    rw [List.getD_eq_getElem _ _ hr]
    simpa using hk
  rw [← hrow]
  exact ⟨a3 r k hr hk', b3 r k hr hk', c3 r k hr hk'⟩

theorem eol_neutral_witness :
    (serialise_with eol.crlf [[97, 9, 98], [], [99]]).length < 4252442867 ∧
    transpose_pipeline (serialise_with eol.lf [[97, 9, 98], [], [99]])
      = transpose_pipeline (serialise_with eol.crlf [[97, 9, 98], [], [99]]) ∧
    transpose_pipeline (serialise_with eol.crlf [[97, 9, 98], [], [99]])
      = transpose_pipeline (serialise_with eol.cr [[97, 9, 98], [], [99]]) :=
  ⟨by decide, (eol_neutral [[97, 9, 98], [], [99]] (by decide) (by decide)).2.2.2⟩

/-! ## Mixed end-of-line markers -/

/-- C5, refuted as stated: the contents `a` and the empty line, ended by a
bare CR and by LF, serialise to the bytes `a`, CR, LF, from which the reader
yields the single line `a`. -/
theorem eol_mix_counterexample :
    yielded_lines (serialise [([97], eol.cr), ([], eol.lf)]) = [[97]] ∧
    yielded_lines (serialise [([97], eol.cr), ([], eol.lf)])
      ≠ [([97], eol.cr), ([], eol.lf)].map Prod.fst ∧
    yielded_lines (serialise [([97], eol.lf), ([], eol.lf)]) = [[97], []] := by
  decide

/-- C5, amended: for line contents free of CR, LF and NUL bytes and any choice
of marker per line in which no bare CR is directly followed by an empty line
ended by LF (in a stream shorter than `4252442867` bytes, the range of the
model), the successive calls of the line reader yield exactly the line
contents, the same as when every line is ended by LF. -/
theorem eol_mix (ls : List (List Nat × eol))
    (hclean : ∀ p ∈ ls, 0 ∉ p.1 ∧ 10 ∉ p.1 ∧ 13 ∉ p.1)
    (hu : eol_unambiguous ls = true)
    (hlen : (serialise ls).length < 4252442867) :
    yielded_lines (serialise ls) = ls.map Prod.fst ∧
    yielded_lines (serialise ls)
      = yielded_lines (serialise (ls.map (fun p => (p.1, eol.lf)))) := by
  have h1 : yielded_lines (serialise ls) = ls.map Prod.fst := by
    rw [yielded_lines_spec _ (by omega),
      spec_lines_serialise ls (fun p hp => (hclean p hp).2) hu]
    apply map_c_string_clean
    intro l hl
    obtain ⟨p, hp, rfl⟩ := List.mem_map.mp hl
    exact (hclean p hp).1
  have h2 : yielded_lines (serialise (ls.map (fun p => (p.1, eol.lf)))) = ls.map Prod.fst := by
    rw [yielded_lines_spec _ (by have := length_serialise_lf_le ls; omega),
      spec_lines_serialise _ (by
      intro q hq
      obtain ⟨p, hp, rfl⟩ := List.mem_map.mp hq
      exact (hclean p hp).2) (eol_unambiguous_lf ls)]
    have e : (ls.map (fun p => (p.1, eol.lf))).map Prod.fst = ls.map Prod.fst := by
      rw [List.map_map]; rfl
    rw [e]
    apply map_c_string_clean
    intro l hl
    obtain ⟨p, hp, rfl⟩ := List.mem_map.mp hl
    exact (hclean p hp).1
  exact ⟨h1, by rw [h1, h2]⟩

theorem eol_mix_witness :
    eol_unambiguous [([97, 9, 98], eol.crlf), ([], eol.cr), ([99], eol.lf), ([], eol.lf)] = true ∧
    yielded_lines (serialise [([97, 9, 98], eol.crlf), ([], eol.cr), ([99], eol.lf), ([], eol.lf)])
      = [[97, 9, 98], [], [99], []] :=
  ⟨by decide,
    (eol_mix [([97, 9, 98], eol.crlf), ([], eol.cr), ([99], eol.lf), ([], eol.lf)]
      (by decide) (by decide) (by decide)).1⟩

/-! ## Empty lines and lines of one tab -/

/-- C6: for every line of every input (shorter than `4252442867` bytes, the
range of the model), an empty line content is recorded with field count `0`
(and so not as one empty field), and a line content that is the single tab
byte is recorded with field count `2`, the text of both fields being empty. -/
theorem empty_line_semantics (s : List Nat) (hlen : s.length < 4252442867) (r : Nat)
    (hr : r < (spec_lines s).length) :
    ((spec_lines s).getD r [] = [] →
      (read_text_data s).num_cols_per_row[r]? = some 0 ∧
      (read_text_data s).num_cols_per_row[r]? ≠ some 1) ∧
    ((spec_lines s).getD r [] = [9] →
      (read_text_data s).num_cols_per_row[r]? = some 2 ∧
      table_field (read_text_data s) r 0 = [] ∧ table_field (read_text_data s) r 1 = []) := by
  have hn := read_text_data_num_cols_row s hlen r hr
  have hok := read_text_data_row_ok s hlen r hr
  refine ⟨fun h => ?_, fun h => ?_⟩
  · rw [h] at hn
    rw [hn]
    exact ⟨by decide, by decide⟩
  · rw [h] at hn hok
    have h4 := hok.2.2.2 (by decide)
    exact ⟨by rw [hn]; decide, h4 0 (by decide), h4 1 (by decide)⟩

theorem empty_line_semantics_witness :
    1 < (spec_lines [97, 10, 10, 9, 13, 10]).length ∧
    (spec_lines [97, 10, 10, 9, 13, 10]).getD 1 [] = [] ∧
    (read_text_data [97, 10, 10, 9, 13, 10]).num_cols_per_row[1]? = some 0 :=
  ⟨by decide, by decide,
    ((empty_line_semantics [97, 10, 10, 9, 13, 10] (by decide) 1 (by decide)).1 (by decide)).1⟩

/-! ## Empty input, first line, line count, reported length -/

/-- C7: on the empty stream the first call of the line reader signals the end
of the stream, `read_text_data` sets `num_rows` to `0`, and
`transpose_text_data` writes nothing, so the pipeline outputs zero bytes. -/
theorem empty_stream_no_output :
    fgets_strip_realloc_len [] = none ∧ (read_text_data []).num_rows = 0 ∧
    transpose_text_data (read_text_data []) = [] ∧ transpose_pipeline [] = [] := by
  decide

/-- C8, refuted as stated: the line NUL `x` tab `y` has the two fields NUL `x`
and `y`, so it has a field 0, which is not empty; yet the cell written for it
in the first output line is empty: the program prints the line as a C string,
which ends at its first byte. -/
theorem first_line_counterexample :
    spec_lines [0, 120, 9, 121, 10] = [[0, 120, 9, 121]] ∧
    spec_fields [0, 120, 9, 121] = [[0, 120], [121]] ∧
    (((transpose_pipeline [0, 120, 9, 121, 10]).splitOn 10).getD 0 []).splitOn 9 = [[]] ∧
    ((((transpose_pipeline [0, 120, 9, 121, 10]).splitOn 10).getD 0 []).splitOn 9).getD 0 []
      ≠ (spec_fields ((spec_lines [0, 120, 9, 121, 10]).getD 0 [])).getD 0 [] := by
  decide

/-- C8, amended: for a non-empty input free of NUL bytes (shorter than
`4252442867` bytes, the range of the model), the first output line has exactly
`num_rows` cells and `num_rows - 1` tab bytes, `num_rows` being the number of
input lines; cell `r` is field 0 of line `r`, and is empty when the line has
no field, as the empty line has. -/
theorem first_line_cells (s : List Nat) (h0 : 0 ∉ s) (hlen : s.length < 4252442867)
    (h : s ≠ []) :
    (read_text_data s).num_rows = (spec_lines s).length ∧
    ((((transpose_pipeline s).splitOn 10).getD 0 []).splitOn 9).length
      = (read_text_data s).num_rows ∧
    (((transpose_pipeline s).splitOn 10).getD 0 []).count 9 = (read_text_data s).num_rows - 1 ∧
    (∀ r, r < (spec_lines s).length →
      ((((transpose_pipeline s).splitOn 10).getD 0 []).splitOn 9).getD r [] =
        (spec_fields ((spec_lines s).getD r [])).getD 0 []) ∧
    spec_fields [] = [] := by
  obtain ⟨rest, hout, _⟩ := pipeline_first_line s hlen h
  have hne := spec_lines_ne_nil s h
  have hrows := (read_text_data_rows s hlen).1
  have hline : ((transpose_pipeline s).splitOn 10).getD 0 [] = spec_out_line (read_rows s) 0 := by
    rw [hout, List.append_assoc, List.singleton_append,
      splitOn_append_sep 10 _ _ (spec_out_line_no_lf s 0)]
    rfl
  have hL : spec_col_rows (read_rows s) 0 = (spec_lines s).length := by
    simp [spec_col_rows, read_rows]
  have hpos : 0 < spec_col_rows (read_rows s) 0 := by
    rw [hL]; exact List.length_pos.mpr hne
  have hcells := spec_out_line_cells s 0 hpos
  refine ⟨hrows, ?_, ?_, ?_, by decide⟩
  · rw [hline, hcells, hrows, List.length_map, List.length_range, hL]
  · have := count_tab_splitOn (((transpose_pipeline s).splitOn 10).getD 0 [])
    rw [hline, hcells, List.length_map, List.length_range, hL] at this
    rw [hline, hrows]
    omega
  · intro r hr
    rw [hline, hcells, List.getD_eq_getElem _ _ (by simp [hL]; exact hr)]
    simp only [List.getElem_map, List.getElem_range, spec_cell]
    rw [read_rows_of_no_nul s h0, spec_rows_getD s r hr]

theorem first_line_cells_witness :
    0 ∉ [10, 9, 120, 10, 10] ∧ [10, 9, 120, 10, 10] ≠ [] ∧
    ((((transpose_pipeline [10, 9, 120, 10, 10]).splitOn 10).getD 0 []).splitOn 9).length
      = (read_text_data [10, 9, 120, 10, 10]).num_rows :=
  ⟨by decide, by decide,
    (first_line_cells [10, 9, 120, 10, 10] (by decide) (by decide) (by decide)).2.1⟩

/-- C9, refuted as stated: the input consisting of one empty line has
`num_cols = 0`, yet one output line is written. -/
theorem line_count_counterexample :
    [10] ≠ ([] : List Nat) ∧ (read_text_data [10]).num_cols = 0 ∧
    (transpose_pipeline [10]).count 10 = 1 ∧
    (transpose_pipeline [10]).count 10 ≠ (read_text_data [10]).num_cols := by
  decide

/-- C9, amended: for a non-empty input (shorter than `4252442867` bytes, the
range of the model) the number of newline-terminated lines written is
`num_cols` when some row has a field, and `1` when no row has; `num_cols` is
the largest of the field counts recorded for the input rows, which for an
input without NUL byte is the largest field count of a row of the input. -/
theorem line_count (s : List Nat) (hlen : s.length < 4252442867) (h : s ≠ []) :
    (transpose_pipeline s).count 10 = max 1 (read_text_data s).num_cols ∧
    (∀ n ∈ (read_text_data s).num_cols_per_row, n ≤ (read_text_data s).num_cols) ∧
    (∃ n ∈ (read_text_data s).num_cols_per_row, n = (read_text_data s).num_cols) ∧
    (0 ∉ s →
      (∀ row ∈ spec_rows s, row.length ≤ (read_text_data s).num_cols) ∧
      ∃ row ∈ spec_rows s, row.length = (read_text_data s).num_cols) := by
  obtain ⟨rest, hout, hcount⟩ := pipeline_first_line s hlen h
  obtain ⟨_, hcols, hper⟩ := read_text_data_rows s hlen
  have hmax := exists_row_max (read_rows s)
    (by simpa [read_rows] using spec_lines_ne_nil s h)
  refine ⟨?_, ?_, ?_, ?_⟩
  · rw [hout, List.count_append, List.count_append, hcount,
      List.count_eq_zero_of_not_mem (spec_out_line_no_lf s 0)]
    simp
    omega
  · intro n hn
    rw [hper] at hn
    obtain ⟨row, hrow, rfl⟩ := List.mem_map.mp hn
    rw [hcols]; exact length_le_spec_num_cols _ row hrow
  · obtain ⟨row, hrow, hlen'⟩ := hmax
    exact ⟨row.length, by rw [hper]; exact List.mem_map_of_mem _ hrow, by rw [hcols]; exact hlen'⟩
  · intro h0
    rw [← read_rows_of_no_nul s h0, hcols]
    exact ⟨length_le_spec_num_cols _, hmax⟩

theorem line_count_witness :
    [97, 9, 98, 10, 99] ≠ ([] : List Nat) ∧
    (transpose_pipeline [97, 9, 98, 10, 99]).count 10
      = max 1 (read_text_data [97, 9, 98, 10, 99]).num_cols ∧
    (∃ row ∈ spec_rows [97, 9, 98, 10, 99],
      row.length = (read_text_data [97, 9, 98, 10, 99]).num_cols) :=
  ⟨by decide, (line_count [97, 9, 98, 10, 99] (by decide) (by decide)).1,
    ((line_count [97, 9, 98, 10, 99] (by decide) (by decide)).2.2.2 (by decide)).2⟩

/-- C10, the failing inputs: for a line ended by CR LF the reported length
counts the byte of the stripped CR, so the stream `ab`, CR, LF is reported
with length 3 and the stream CR, LF with length 1; the same contents ended by
LF or by CR are reported with lengths 2 and 0. -/
theorem crlf_length_off_by_one :
    fgets_strip_realloc_len [97, 98, 13, 10] = some ⟨[97, 98, 0, 0], 3, []⟩ ∧
    fgets_strip_realloc_len [13, 10] = some ⟨[0, 0], 1, []⟩ ∧
    fgets_strip_realloc_len [97, 98, 10] = some ⟨[97, 98, 0], 2, []⟩ ∧
    fgets_strip_realloc_len [97, 98, 13] = some ⟨[97, 98, 0], 2, []⟩ ∧
    fgets_strip_realloc_len [10] = some ⟨[0], 0, []⟩ ∧
    fgets_strip_realloc_len [13] = some ⟨[0], 0, []⟩ := by
  decide

/-! ## The last line of a stream -/

/-- C11: for every non-empty stream that does not end in a CR or LF byte (the
stream followed by LF being shorter than `4252442867` bytes, the range of the
model), the lines yielded by the successive calls of the line reader are the
lines yielded on the stream followed by LF: the trailing content is a last
line, and the final marker adds no empty line. -/
theorem trailing_line_without_eol (s : List Nat) (hne : s ≠ [])
    (hlast : s.getLast hne ≠ 10 ∧ s.getLast hne ≠ 13)
    (hlen : (s ++ [10]).length < 4252442867) :
    yielded_lines s = yielded_lines (s ++ [10]) ∧
    yielded_lines s ≠ [] := by
  have h := spec_lines_from_append_lf s.length s [] (Nat.le_refl _) (Or.inl hne)
    (fun _ => hlast)
  refine ⟨?_, ?_⟩
  · rw [yielded_lines_spec s (by simp at hlen; omega),
      yielded_lines_spec (s ++ [10]) (by omega)]
    show _ = (spec_lines_from (s ++ [10]) []).map c_string
    rw [h]
    rfl
  · rw [yielded_lines_spec s (by simp at hlen; omega)]
    intro e
    exact spec_lines_ne_nil s hne (List.map_eq_nil_iff.mp e)

theorem trailing_line_without_eol_witness :
    yielded_lines [97, 13, 10, 98, 9, 99] = [[97], [98, 9, 99]] ∧
    yielded_lines [97, 13, 10, 98, 9, 99] = yielded_lines ([97, 13, 10, 98, 9, 99] ++ [10]) :=
  ⟨by decide,
    (trailing_line_without_eol [97, 13, 10, 98, 9, 99] (by decide) (by decide) (by decide)).1⟩

/-! ## The field splitter -/

/-- C12: for a NUL-free line content with `n` tab bytes, `split_tabs` returns
`n + 1` and records the field starts `0` and `p + 1` for each tab position
`p`, in increasing order of `p`; the starts are strictly increasing and the
first is `0`, also for the empty line; afterwards every tab byte of the
buffer is NUL and every other byte is unchanged. -/
theorem split_tabs_field_starts (text : List Nat) (h0 : 0 ∉ text) :
    (split_tabs (text ++ [0])).2.length = text.count 9 + 1 ∧
    (split_tabs (text ++ [0])).2 = 0 :: (spec_tab_positions text).map (fun p => p + 1) ∧
    ((spec_tab_positions text).Sorted (· < ·) ∧
      ∀ p, p ∈ spec_tab_positions text ↔ p < text.length ∧ text.getD p 0 = 9) ∧
    (split_tabs (text ++ [0])).2.Sorted (· < ·) ∧
    (split_tabs (text ++ [0])).2.head? = some 0 ∧
    (split_tabs [0]).2 = [0] ∧
    (split_tabs (text ++ [0])).1 = text.map (fun b => if b = 9 then 0 else b) ++ [0] := by
  have hz : ∀ x ∈ text, x ≠ 0 := fun x hx e => h0 (e ▸ hx)
  have hs := split_tabs_starts text [] hz
  have hp := split_tabs_loop_spec text hz [] 0 [] (Nat.le_refl _) (by simp)
  refine ⟨?_, hs, ⟨spec_tab_positions_sorted text, mem_spec_tab_positions text⟩, hp.2.2.2.1,
    hp.2.2.2.2, by decide, hp.1⟩
  rw [hs, spec_field_starts, List.length_cons, List.length_map, spec_tab_positions_length]

theorem split_tabs_field_starts_witness :
    0 ∉ [97, 9, 9, 98, 99, 9] ∧
    (split_tabs ([97, 9, 9, 98, 99, 9] ++ [0])).2 = [0, 2, 3, 6] ∧
    (split_tabs ([97, 9, 9, 98, 99, 9] ++ [0])).1 = [97, 0, 0, 98, 99, 0, 0] :=
  ⟨by decide,
    (split_tabs_field_starts [97, 9, 9, 98, 99, 9] (by decide)).2.1.trans (by decide),
    (split_tabs_field_starts [97, 9, 9, 98, 99, 9] (by decide)).2.2.2.2.2.2.trans (by decide)⟩

/-! ## Offset widths and decoding -/

/-- C13: for every ingested row with at least one field (of a stream shorter
than `4252442867` bytes, the range of the model), the width stored in
`line_bits` is 8 exactly when the row's largest field offset `m` is at most
255, 16 exactly when `m` is between 256 and 65535, 24 exactly when it is
between 65536 and 16777215, and 32 exactly when it is at least 16777216; it is
the least of the four widths that can hold `m`, and it is computed from `m`
alone.  The fields of an ingested row are those the program reads in its
line, which are the fields of the line itself when it has no NUL byte. -/
theorem width_minimal (s : List Nat) (hlen : s.length < 4252442867) (r : Nat)
    (hr : r < (spec_lines s).length)
    (hf : read_fields ((spec_lines s).getD r []) ≠ []) :
    ((read_text_data s).line_bits[r]? = some 8
      ↔ spec_max_offset (c_string ((spec_lines s).getD r [])) ≤ 255) ∧
    ((read_text_data s).line_bits[r]? = some 16
      ↔ 256 ≤ spec_max_offset (c_string ((spec_lines s).getD r [])) ∧
        spec_max_offset (c_string ((spec_lines s).getD r [])) ≤ 65535) ∧
    ((read_text_data s).line_bits[r]? = some 24
      ↔ 65536 ≤ spec_max_offset (c_string ((spec_lines s).getD r [])) ∧
        spec_max_offset (c_string ((spec_lines s).getD r [])) ≤ 16777215) ∧
    ((read_text_data s).line_bits[r]? = some 32
      ↔ 16777216 ≤ spec_max_offset (c_string ((spec_lines s).getD r []))) ∧
    (∃ bits, (read_text_data s).line_bits[r]? = some bits ∧
      (bits = 8 ∨ bits = 16 ∨ bits = 24 ∨ bits = 32) ∧
      spec_max_offset (c_string ((spec_lines s).getD r [])) < 2 ^ bits ∧
      ∀ w, (w = 8 ∨ w = 16 ∨ w = 24 ∨ w = 32) →
        spec_max_offset (c_string ((spec_lines s).getD r [])) < 2 ^ w → bits ≤ w) ∧
    (read_text_data s).line_bits[r]?
      = some (choose_bits (spec_max_offset (c_string ((spec_lines s).getD r [])))) ∧
    (0 ∉ (spec_lines s).getD r [] →
      c_string ((spec_lines s).getD r []) = (spec_lines s).getD r [] ∧
      read_fields ((spec_lines s).getD r []) = spec_fields ((spec_lines s).getD r [])) := by
  obtain ⟨res, hy, _, _, e3, _⟩ := read_text_data_row s (by omega) r hr
  obtain ⟨hl, hm⟩ := spec_max_offset_lt s hlen r hr
  obtain ⟨_, hb, _, _, _⟩ := row_entries_of_yield _ res hy hf hl
  rw [hb] at e3
  obtain ⟨c8, c16, c24, c32⟩ :=
    choose_bits_spec (spec_max_offset (c_string ((spec_lines s).getD r [])))
  rw [e3]
  simp only [Option.some.injEq]
  refine ⟨c8, c16, c24, c32, ⟨_, rfl, choose_bits_cases _, ?_, ?_⟩, trivial,
    fun h0 => ⟨c_string_of_no_nul _ h0, read_fields_of_no_nul _ h0⟩⟩
  · generalize spec_max_offset (c_string ((spec_lines s).getD r [])) = m at hm c8 c16 c24 c32
    rcases choose_bits_cases m with h | h | h | h
    · rw [h]; have := c8.mp h; norm_num; omega
    · rw [h]; have := c16.mp h; norm_num; omega
    · rw [h]; have := c24.mp h; norm_num; omega
    · rw [h]; norm_num; omega
  · intro w hw hlt
    generalize spec_max_offset (c_string ((spec_lines s).getD r [])) = m at hm c8 c16 c24 c32 hlt
    rcases hw with rfl | rfl | rfl | rfl
    · have : m ≤ 255 := by norm_num at hlt; omega
      rw [c8.mpr this]
    · rcases choose_bits_cases m with h | h | h | h
      · omega
      · omega
      · have := c24.mp h; norm_num at hlt; omega
      · have := c32.mp h; norm_num at hlt; omega
    · rcases choose_bits_cases m with h | h | h | h
      · omega
      · omega
      · omega
      · have := c32.mp h; norm_num at hlt; omega
    · rcases choose_bits_cases m with h | h | h | h <;> omega

theorem width_minimal_witness :
    1 < (spec_lines [10, 97, 9, 98, 10]).length ∧
    read_fields ((spec_lines [10, 97, 9, 98, 10]).getD 1 []) ≠ [] ∧
    (read_text_data [10, 97, 9, 98, 10]).line_bits[1]?
      = some (choose_bits (spec_max_offset (c_string ((spec_lines [10, 97, 9, 98, 10]).getD 1 [])))) :=
  ⟨by decide, by decide,
    (width_minimal [10, 97, 9, 98, 10] (by decide) 1 (by decide) (by decide)).2.2.2.2.2.1⟩

/-- C14: for every ingested row (of a stream shorter than `4252442867` bytes,
the range of the model) and every field index `k` below its field count, the
offset decoded from entry `k` of the row's offset array under the row's stored
width is the start of field `k` in the row buffer, and the C string there is
the text of field `k`; under each of the four widths that can hold the row's
largest offset, what is stored is what is decoded.  The fields of an ingested
row are those the program reads in its line, which are the fields of the line
itself when it has no NUL byte. -/
theorem offset_decoding (s : List Nat) (hlen : s.length < 4252442867) (r k : Nat)
    (hr : r < (spec_lines s).length)
    (hk : k < (read_fields ((spec_lines s).getD r [])).length) :
    (∃ buf idxs bits, (read_text_data s).lines[r]? = some (some buf) ∧
      (read_text_data s).line_idxs[r]? = some (some idxs) ∧
      (read_text_data s).line_bits[r]? = some bits ∧
      load_field bits idxs k = (spec_field_starts (c_string ((spec_lines s).getD r []))).getD k 0 ∧
      fputs (buf.drop (load_field bits idxs k))
        = (read_fields ((spec_lines s).getD r [])).getD k []) ∧
    (∀ w, (w = 8 ∨ w = 16 ∨ w = 24 ∨ w = 32) →
      spec_max_offset (c_string ((spec_lines s).getD r [])) < 2 ^ w →
      load_field w (store_fields w (spec_field_starts (c_string ((spec_lines s).getD r [])))) k
        = (spec_field_starts (c_string ((spec_lines s).getD r []))).getD k 0) ∧
    (0 ∉ (spec_lines s).getD r [] →
      c_string ((spec_lines s).getD r []) = (spec_lines s).getD r [] ∧
      read_fields ((spec_lines s).getD r []) = spec_fields ((spec_lines s).getD r [])) := by
  have hf : read_fields ((spec_lines s).getD r []) ≠ [] := by
    intro e; rw [e] at hk; exact absurd hk (Nat.not_lt_zero _)
  obtain ⟨res, hy, e1, e2, e3, _⟩ := read_text_data_row s (by omega) r hr
  obtain ⟨hl, hm⟩ := spec_max_offset_lt s hlen r hr
  obtain ⟨_, hb, hi, hline, _⟩ := row_entries_of_yield _ res hy hf hl
  have hk' : k < (spec_field_starts (c_string ((spec_lines s).getD r []))).length := by
    rw [← read_fields_length _ hf]; exact hk
  have hle : (spec_field_starts (c_string ((spec_lines s).getD r []))).getD k 0
      ≤ spec_max_offset (c_string ((spec_lines s).getD r [])) := by
    rw [List.getD_eq_getElem _ _ hk']
    exact (spec_field_starts_le _ _ (List.getElem_mem _)).1
  have hdec : load_field (choose_bits (spec_max_offset (c_string ((spec_lines s).getD r []))))
      (store_fields (choose_bits (spec_max_offset (c_string ((spec_lines s).getD r []))))
        (spec_field_starts (c_string ((spec_lines s).getD r [])))) k
      = (spec_field_starts (c_string ((spec_lines s).getD r []))).getD k 0 :=
    load_store_field _ _ hm (fun o ho => (spec_field_starts_le _ o ho).1) k hk'
  refine ⟨⟨_, _, _, by rw [e1, hline], by rw [e2, hi], by rw [e3, hb], hdec, ?_⟩, ?_,
    fun h0 => ⟨c_string_of_no_nul _ h0, read_fields_of_no_nul _ h0⟩⟩
  · have := table_field_spec s hlen r k hr hl hk
    unfold table_field at this
    have g1 : (read_text_data s).lines.getD r none = some (split_tabs res.string).1 := by
      rw [List.getD_eq_getElem?_getD, e1, hline]; rfl
    have g2 : (read_text_data s).line_idxs.getD r none = row_idxs res := by
      rw [List.getD_eq_getElem?_getD, e2]; rfl
    have g3 : (read_text_data s).line_bits.getD r 0 = row_bits res := by
      rw [List.getD_eq_getElem?_getD, e3]; rfl
    rw [g1, g2, g3, hi, hb] at this
    exact this
  · intro w hw hlt
    rw [load_store_width w hw _ k hk']
    exact Nat.mod_eq_of_lt (Nat.lt_of_le_of_lt hle hlt)

theorem offset_decoding_witness :
    1 < (spec_lines [10, 97, 9, 98, 10]).length ∧
    1 < (read_fields ((spec_lines [10, 97, 9, 98, 10]).getD 1 [])).length ∧
    load_field 24 (store_fields 24
        (spec_field_starts (c_string ((spec_lines [10, 97, 9, 98, 10]).getD 1 [])))) 1
      = (spec_field_starts (c_string ((spec_lines [10, 97, 9, 98, 10]).getD 1 []))).getD 1 0 :=
  ⟨by decide, by decide,
    (offset_decoding [10, 97, 9, 98, 10] (by decide) 1 1 (by decide) (by decide)).2.1 24
      (by decide) (by decide)⟩

/-! ## Rows per column -/

/-- C15, refuted as stated: in the input `a` tab `b` LF, NUL tab `c` LF the
second line has the two fields NUL and `c`, so the last row with at least two
fields is row 2; `num_cols` is 2, yet `num_rows_per_col[1]` is 1: the program
reads the second line as a C string, which is empty. -/
theorem rows_per_col_counterexample :
    spec_rows [97, 9, 98, 10, 0, 9, 99, 10] = [[[97], [98]], [[0], [99]]] ∧
    (read_text_data [97, 9, 98, 10, 0, 9, 99, 10]).num_cols = 2 ∧
    (read_text_data [97, 9, 98, 10, 0, 9, 99, 10]).num_rows_per_col[1]? = some 1 ∧
    1 + 1 ≤ ((spec_rows [97, 9, 98, 10, 0, 9, 99, 10]).getD (2 - 1) []).length ∧
    (read_text_data [97, 9, 98, 10, 0, 9, 99, 10]).num_rows_per_col[1]? ≠ some 2 := by
  decide

/-- C15, amended: after `read_text_data` has read any input free of NUL bytes
(shorter than `4252442867` bytes, the range of the model), `num_rows` is the
number of lines read, empty lines included; entry 0 of `num_rows_per_col`,
which exists as soon as one line was read, equals `num_rows`; and for every
`c` with `1 ≤ c < num_cols` entry `c` is the 1-based index of the last input
row that has at least `c + 1` fields. -/
theorem rows_per_col_after_ingest (s : List Nat) (h0 : 0 ∉ s) (hlen : s.length < 4252442867) :
    (read_text_data s).num_rows = (spec_lines s).length ∧
    (∀ v, (read_text_data s).num_rows_per_col[0]? = some v → v = (read_text_data s).num_rows) ∧
    (s ≠ [] → (read_text_data s).num_rows_per_col[0]? = some (read_text_data s).num_rows) ∧
    (∀ c, 1 ≤ c → c < (read_text_data s).num_cols →
      ∃ last, (read_text_data s).num_rows_per_col[c]? = some last ∧
        1 ≤ last ∧ last ≤ (spec_lines s).length ∧
        c + 1 ≤ (spec_fields ((spec_lines s).getD (last - 1) [])).length ∧
        ∀ r, last ≤ r → r < (spec_lines s).length →
          (spec_fields ((spec_lines s).getD r [])).length < c + 1) := by
  obtain ⟨c1, c2, c3⟩ := read_text_data_counters s hlen
  obtain ⟨hrows, hcols, _⟩ := read_text_data_rows s hlen
  have hnul := read_rows_of_no_nul s h0
  rw [hnul] at c3 hcols
  have hz : spec_col_rows (spec_rows s) 0 = (spec_lines s).length := by
    simp [spec_col_rows, spec_rows]
  refine ⟨hrows, ?_, ?_, ?_⟩
  · intro v hv
    have hlt : 0 < (read_text_data s).num_rows_per_col.length := by
      by_contra hn
      rw [List.getElem?_eq_none (by omega)] at hv
      exact absurd hv (by simp)
    rw [c3 0 hlt, hz] at hv
    rw [hrows]
    exact (Option.some.inj hv).symm
  · intro hne
    rw [c3 0 (c1 (spec_lines_ne_nil s hne)), hz, hrows]
  · intro c hc1 hc2
    have hc : c < spec_num_cols (spec_rows s) := by rw [← hcols]; exact hc2
    have hpos := spec_col_rows_pos _ c hc
    have hle := spec_col_rows_le (spec_rows s) c
    rw [spec_rows_length] at hle
    refine ⟨_, c3 c (by omega), hpos, hle, ?_, ?_⟩
    · rw [← spec_rows_getD s _ (by omega)]
      exact spec_col_rows_last _ c (by omega) hpos
    · intro r hr1 hr2
      rw [← spec_rows_getD s r hr2]
      by_contra hlt
      have := lt_spec_col_rows (spec_rows s) c r (by rw [spec_rows_length]; exact hr2) (by omega)
      omega

theorem rows_per_col_after_ingest_witness :
    0 ∉ [97, 9, 98, 10, 10, 99, 9, 100, 9, 101, 10, 102, 10] ∧
    [97, 9, 98, 10, 10, 99, 9, 100, 9, 101, 10, 102, 10] ≠ ([] : List Nat) ∧
    (read_text_data [97, 9, 98, 10, 10, 99, 9, 100, 9, 101, 10, 102, 10]).num_rows_per_col[0]?
      = some (read_text_data [97, 9, 98, 10, 10, 99, 9, 100, 9, 101, 10, 102, 10]).num_rows ∧
    (read_text_data [97, 9, 98, 10, 10, 99, 9, 100, 9, 101, 10, 102, 10]).num_rows_per_col
      = [4, 3, 3] :=
  ⟨by decide, by decide,
    (rows_per_col_after_ingest [97, 9, 98, 10, 10, 99, 9, 100, 9, 101, 10, 102, 10]
      (by decide) (by decide)).2.2.1 (by decide), by decide⟩

/-! ## The status of the entry point -/

/-- C16: `transpose_entry_point` returns 1 when the named input file cannot be
opened, and then its only call of `fopen` is the failed one for reading: the
files and standard output are as before, so no output file was opened,
created or truncated.  When standard input and every file are shorter than
`4252442867` bytes (the range of the model of `read_text_data`), it returns 1
when the named output file cannot be opened for writing, and 0 in every other
case. -/
theorem entry_point_status (w : os_state) (infile_name outfile_name : Option (List Nat)) :
    (∀ name, infile_name = some name → name ≠ [45] → (fopen_rb w name).1 = none →
      (transpose_entry_point w infile_name outfile_name).1 = 1 ∧
      (transpose_entry_point w infile_name outfile_name).2.files = w.files ∧
      (transpose_entry_point w infile_name outfile_name).2.stdout = w.stdout ∧
      (transpose_entry_point w infile_name outfile_name).2.trace
        = w.trace ++ [os_event.open_read name false]) ∧
    (w.stdin.length < 4252442867 → (∀ p ∈ w.files, p.2.length < 4252442867) →
      (∀ name, outfile_name = some name → (fopen_wt w name).1 = false →
        (transpose_entry_point w infile_name outfile_name).1 = 1) ∧
      (¬ (∃ name, infile_name = some name ∧ name ≠ [45] ∧ (fopen_rb w name).1 = none) →
        ¬ (∃ name, outfile_name = some name ∧ (fopen_wt w name).1 = false) →
        (transpose_entry_point w infile_name outfile_name).1 = 0)) := by
  refine ⟨?_, fun _ _ => ⟨?_, ?_⟩⟩
  · intro name hin hname hopen
    subst hin
    have hr : read_text_data_file w (some name) =
        (none, { (fopen_rb w name).2 with
          stderr := (fopen_rb w name).2.stderr ++ [diagnostic.cant_open_input name] }) := by
      rw [read_text_data_file_named w name hname, hopen]
    unfold transpose_entry_point
    rw [hr]
    refine ⟨rfl, rfl, rfl, ?_⟩
    show (fopen_rb w name).2.trace = _
    rw [fopen_rb_snd, hopen]
    rfl
  · intro name hout hopen
    subst hout
    unfold transpose_entry_point
    split
    · rfl
    · rename_i td w1 heq
      have hw : w1.can_write = w.can_write := by
        have := read_text_data_file_can_write w infile_name
        rw [heq] at this
        exact this
      rw [fopen_wt_fst] at hopen
      have h1 : (fopen_wt w1 name).1 = false := by rw [fopen_wt_fst, hw, hopen]
      simp only
      split
      · rfl
      · rename_i w2 heq2
        rw [heq2] at h1
        simp at h1
  · intro hin hout
    unfold transpose_entry_point
    split
    · rename_i w1 heq
      exfalso
      apply hin
      cases infile_name with
      | none => simp [read_text_data_file] at heq
      | some name =>
        by_cases hname : name = [45]
        · subst hname
          simp [read_text_data_file] at heq
        · refine ⟨name, rfl, hname, ?_⟩
          rw [read_text_data_file_named w name hname] at heq
          cases hopen : (fopen_rb w name).1 with
          | none => rfl
          | some bytes =>
            rw [hopen] at heq
            simp at heq
    · rename_i td w1 heq
      have hw : w1.can_write = w.can_write := by
        have := read_text_data_file_can_write w infile_name
        rw [heq] at this
        exact this
      split
      · rename_i name
        split
        · rename_i w2 heq2
          exfalso
          apply hout
          refine ⟨name, rfl, ?_⟩
          have : (fopen_wt w1 name).1 = false := by rw [heq2]
          rw [fopen_wt_fst, hw] at this
          rw [fopen_wt_fst, this]
        · rfl
      · rfl

theorem entry_point_status_witness :
    (fopen_rb example_state [103]).1 = none ∧
    (transpose_entry_point example_state (some [103]) (some [111])).1 = 1 ∧
    (transpose_entry_point example_state (some [103]) (some [111])).2.files
      = [([102], [97, 10])] ∧
    (fopen_wt example_state [112]).1 = false ∧
    (transpose_entry_point example_state (some [102]) (some [112])).1 = 1 :=
  ⟨by decide,
    ((entry_point_status example_state (some [103]) (some [111])).1 [103] rfl (by decide)
      (by decide)).1,
    ((entry_point_status example_state (some [103]) (some [111])).1 [103] rfl (by decide)
      (by decide)).2.1,
    by decide,
    ((entry_point_status example_state (some [102]) (some [112])).2 (by decide)
      (by decide)).1 [112] rfl (by decide)⟩

/-! ## Field counts and NUL bytes -/

/-- C17, refuted as stated: the line content `a`, NUL, tab, `b` has one tab
byte, yet `read_text_data` records one field for it, and the pipeline writes
only `a`: `split_tabs` and `fputs` stop at the first NUL byte. -/
theorem nul_truncates_counterexample :
    spec_lines [97, 0, 9, 98, 10] = [[97, 0, 9, 98]] ∧
    List.count 9 [97, 0, 9, 98] + 1 = 2 ∧
    (read_text_data [97, 0, 9, 98, 10]).num_cols_per_row = [1] ∧
    transpose_pipeline [97, 0, 9, 98, 10] = [97, 10] := by
  decide

/-- C17, amended: for every line content made of bytes other than CR, LF and
NUL (in a stream shorter than `4252442867` bytes, the range of the model), the
field count recorded by
`read_text_data` is the number of tab bytes of the line plus one, and zero for
the empty line; the pieces of the line between its tab bytes make up the whole
line, and piece `k` is written to the output as the cell of this row in
output line `k`. -/
theorem field_count_nul_free (s : List Nat) (hlen : s.length < 4252442867) (r : Nat)
    (hr : r < (spec_lines s).length) (h0 : 0 ∉ (spec_lines s).getD r []) :
    (read_text_data s).num_cols_per_row[r]?
      = some (if (spec_lines s).getD r [] = [] then 0
          else ((spec_lines s).getD r []).count 9 + 1) ∧
    [9].intercalate (((spec_lines s).getD r []).splitOn 9) = (spec_lines s).getD r [] ∧
    (∀ k, (spec_lines s).getD r [] ≠ [] → k < (((spec_lines s).getD r []).splitOn 9).length →
      ((((transpose_pipeline s).splitOn 10).getD k []).splitOn 9)[r]?
        = some ((((spec_lines s).getD r []).splitOn 9).getD k [])) := by
  have hrow : read_fields ((spec_lines s).getD r []) = spec_fields ((spec_lines s).getD r []) := by
    rw [read_fields, c_string_of_no_nul _ h0]
  refine ⟨?_, List.intercalate_splitOn _ 9, ?_⟩
  · rw [read_text_data_num_cols_row s hlen r hr, hrow]
    unfold spec_fields
    split
    · rfl
    · rw [count_tab_splitOn]
  · intro k hne hk
    have hfields : (read_rows s).getD r [] = ((spec_lines s).getD r []).splitOn 9 := by
      rw [read_rows_getD s r hr, hrow, spec_fields, if_neg hne]
    have hr' : r < (read_rows s).length := by rw [read_rows_length]; exact hr
    have hkr : k < ((read_rows s).getD r []).length := by rw [hfields]; exact hk
    have hcols : k < spec_num_cols (read_rows s) := by
      have := length_le_spec_num_cols (read_rows s) ((read_rows s).getD r [])
        (by rw [List.getD_eq_getElem _ _ hr']; exact List.getElem_mem _)
      omega
    have hlt := lt_spec_col_rows (read_rows s) k r hr' hkr
    rw [pipeline_cells s hlen k hcols, List.getElem?_map, List.getElem?_range hlt]
    show some (((read_rows s).getD r []).getD k []) = _
    rw [hfields]

theorem field_count_nul_free_witness :
    0 ∉ (spec_lines [97, 9, 9, 98, 13, 10, 99, 10]).getD 0 [] ∧
    (read_text_data [97, 9, 9, 98, 13, 10, 99, 10]).num_cols_per_row[0]? = some 3 :=
  ⟨by decide,
    (field_count_nul_free [97, 9, 9, 98, 13, 10, 99, 10] (by decide) 0 (by decide)
      (by decide)).1.trans (by decide)⟩

/-! ## Accesses of the emitter -/

/-- C18: in the table `read_text_data` builds from any input (shorter than
`4252442867` bytes, the range of the model), the accesses of
`transpose_text_data` are in bounds: the emitter run with every access checked
finds no index outside its array and writes the same bytes. The bounds it
relies on: the column indices it uses on `num_rows_per_col` (`0` when there
are rows, and `1 .. num_cols - 1`) are below the number of counters; every
counter is at most `num_rows`, which is the number of entries of each row
array, so the row indices visited are below `num_rows`; a row with field count
`0` has no buffer and no offset array, and a row with field count `n ≠ 0` has
a buffer ending in NUL and an offset array of `n` entries of the stored width,
every entry of which decodes to an offset inside the buffer. -/
theorem emitter_accesses_in_bounds (s : List Nat) (hlen : s.length < 4252442867) :
    transpose_text_data_checked (read_text_data s)
      = some (transpose_text_data (read_text_data s)) ∧
    ((read_text_data s).num_rows ≠ 0 → 0 < (read_text_data s).num_rows_per_col.length) ∧
    (∀ col, 1 ≤ col → col < (read_text_data s).num_cols →
      col < (read_text_data s).num_rows_per_col.length) ∧
    ((read_text_data s).lines.length = (read_text_data s).num_rows ∧
      (read_text_data s).line_idxs.length = (read_text_data s).num_rows ∧
      (read_text_data s).line_bits.length = (read_text_data s).num_rows ∧
      (read_text_data s).num_cols_per_row.length = (read_text_data s).num_rows) ∧
    (∀ (col v : Nat), (read_text_data s).num_rows_per_col[col]? = some v →
      v ≤ (read_text_data s).num_rows) ∧
    (∀ (row n : Nat), (read_text_data s).num_cols_per_row[row]? = some n →
      (n = 0 → (read_text_data s).lines[row]? = some none ∧
        (read_text_data s).line_idxs[row]? = some none) ∧
      (n ≠ 0 → ∃ (buf idxs : List Nat) (bits : Nat),
        (read_text_data s).lines[row]? = some (some buf) ∧
        (read_text_data s).line_idxs[row]? = some (some idxs) ∧
        (read_text_data s).line_bits[row]? = some bits ∧
        (bits = 8 ∨ bits = 16 ∨ bits = 24 ∨ bits = 32) ∧
        idxs.length * 8 = n * bits ∧
        buf.getLast? = some 0 ∧
        ∀ col, col < n → load_field bits idxs col + 1 ≤ buf.length)) := by
  obtain ⟨c1, c2, c3⟩ := read_text_data_counters s hlen
  obtain ⟨hrows, _, _⟩ := read_text_data_rows s hlen
  have hlens := read_text_data_lengths s hlen
  suffices hb : _ from
    ⟨transpose_checked_of_bounds _ hb.1 hb.2.1 hlens.2.2.2 hb.2.2.2.1
      (fun row n hn hn0 => (hb.2.2.2.2 row n hn).2 hn0), hb⟩
  refine ⟨?_, ?_, hlens, ?_, ?_⟩
  · intro hne
    apply c1
    intro e
    rw [hrows, e] at hne
    exact hne rfl
  · intro col _ hcol
    omega
  · intro col v hv
    have hlt : col < (read_text_data s).num_rows_per_col.length := by
      by_contra hn
      rw [List.getElem?_eq_none (by omega)] at hv
      exact absurd hv (by simp)
    rw [c3 col hlt] at hv
    rw [← Option.some.inj hv, hrows]
    have := spec_col_rows_le (read_rows s) col
    rw [read_rows_length] at this
    exact this
  · intro row n hn
    have hrow : row < (spec_lines s).length := by
      by_contra hge
      rw [List.getElem?_eq_none (by rw [hlens.2.2.2, hrows]; omega)] at hn
      exact absurd hn (by simp)
    obtain ⟨res, hy, e1, e2, e3, e4⟩ := read_text_data_row s (by omega) row hrow
    rw [e4] at hn
    have hn' : row_num_fields res = n := Option.some.inj hn
    obtain ⟨r0, r1⟩ := row_entries_raw _ res hy
    refine ⟨?_, ?_⟩
    · intro h0
      obtain ⟨a, b⟩ := r0 (by rw [hn']; exact h0)
      exact ⟨by rw [e1, a], by rw [e2, b]⟩
    · intro h0
      obtain ⟨buf, idxs, a, b, c, d, e, f, g⟩ := r1 (by rw [hn']; exact h0)
      refine ⟨buf, idxs, row_bits res, by rw [e1, a], by rw [e2, b], e3, c, by rw [← hn']; exact f,
        ?_, ?_⟩
      · rw [List.getLast?_eq_getElem?, d, Nat.add_sub_cancel]
        rw [List.getD_eq_getElem _ _ (by omega)] at e
        rw [List.getElem?_eq_getElem (by omega), e]
      · intro col hcol
        have := g col (by rw [hn']; exact hcol)
        omega

theorem emitter_accesses_in_bounds_witness :
    (read_text_data [97, 9, 98, 10, 10, 99, 10]).num_rows ≠ 0 ∧
    0 < (read_text_data [97, 9, 98, 10, 10, 99, 10]).num_rows_per_col.length ∧
    transpose_text_data_checked (read_text_data [97, 9, 98, 10, 10, 99, 10])
      = some [97, 9, 9, 99, 10, 98, 10] :=
  ⟨by decide, (emitter_accesses_in_bounds [97, 9, 98, 10, 10, 99, 10] (by decide)).2.1 (by decide),
    (emitter_accesses_in_bounds [97, 9, 98, 10, 10, 99, 10] (by decide)).1.trans (by decide)⟩

/-! ## Double transposition of jagged input -/

/-- C19: double transposition keeps every original cell, also for jagged
input. For a NUL-free input `s`, with `s` and the output of the first run
both shorter than `4252442867` bytes (the range of the model): after running
the pipeline twice, output
line `i` split on tabs has at position `j` field `j` of original row `i`, for
every row `i` and every `j` below the field count of row `i`; and a cell of
the second output at a position that is not a cell of the original is the
empty string. -/
theorem double_transpose_cells (s : List Nat) (h0 : 0 ∉ s) (hlen : s.length < 4252442867)
    (hlen2 : (transpose_pipeline s).length < 4252442867) :
    (∀ i j, i < (spec_lines s).length →
      j < (spec_fields ((spec_lines s).getD i [])).length →
      ((((transpose_pipeline (transpose_pipeline s)).splitOn 10).getD i []).splitOn 9)[j]?
        = some ((spec_fields ((spec_lines s).getD i [])).getD j [])) ∧
    (∀ (i j : Nat) (cell : List Nat),
      ((((transpose_pipeline (transpose_pipeline s)).splitOn 10).getD i []).splitOn 9)[j]?
        = some cell →
      ¬ (i < (spec_lines s).length ∧ j < (spec_fields ((spec_lines s).getD i [])).length) →
      cell = []) := by
  have hrow : ∀ i, i < (spec_lines s).length →
      (read_rows s).getD i [] = spec_fields ((spec_lines s).getD i []) := by
    intro i hi
    rw [read_rows_getD s i hi, read_fields, c_string_of_no_nul]
    intro h
    exact h0 (spec_lines_subset s _ (by
      rw [List.getD_eq_getElem _ _ hi]; exact List.getElem_mem _) 0 h)
  constructor
  · intro i j hi hj
    have hne : s ≠ [] := by
      intro h
      subst h
      simp [spec_lines, spec_lines_from] at hi
    have hi' : i < (read_rows s).length := by rw [read_rows_length]; exact hi
    rw [← hrow i hi] at hj ⊢
    have hncols : j < spec_num_cols (read_rows s) := by
      have := length_le_spec_num_cols (read_rows s) ((read_rows s).getD i [])
        (by rw [List.getD_eq_getElem _ _ hi']; exact List.getElem_mem _)
      omega
    have hT1 := transpose_pipeline_ne_nil s hlen hne
    have hjr : j < (read_rows (transpose_pipeline s)).length := by
      rw [read_rows_pipeline_length s hlen hne]; omega
    have hboth : i < max 1 (spec_num_cols (read_rows (transpose_pipeline s))) ∧
        j < spec_col_rows (read_rows (transpose_pipeline s)) i := by
      by_cases hi0 : i = 0
      · subst hi0
        refine ⟨by omega, ?_⟩
        simpa [spec_col_rows] using hjr
      · have hL := lt_spec_col_rows (read_rows s) j i hi' hj
        have hrow1 : i < ((read_rows (transpose_pipeline s)).getD j []).length := by
          rw [read_rows_pipeline_getD s hlen hne j (by omega)]
          have : spec_out_line (read_rows s) j ≠ [] := by
            unfold spec_out_line
            apply intercalate_ne_nil_of_two
            simp
            omega
          rw [if_neg this]
          simpa using hL
        refine ⟨?_, lt_spec_col_rows _ i j hjr hrow1⟩
        have := length_le_spec_num_cols (read_rows (transpose_pipeline s))
          ((read_rows (transpose_pipeline s)).getD j [])
          (by rw [List.getD_eq_getElem _ _ hjr]; exact List.getElem_mem _)
        omega
    rw [pipeline_line_cells _ hlen2 hT1 i hboth.1, List.getElem?_map,
      List.getElem?_range hboth.2]
    show some (spec_cell (read_rows (transpose_pipeline s)) i j) = _
    rw [spec_cell_pipeline s hlen i j]
    rfl
  · intro i j cell hcell hnot
    have hget : ((((transpose_pipeline (transpose_pipeline s)).splitOn 10).getD i []).splitOn
        9).getD j [] = cell := by
      rw [List.getD_eq_getElem?_getD, hcell]
      rfl
    rcases pipeline_cell_getD (transpose_pipeline s) hlen2 i j with h | h
    · rw [← hget, h]
    · rw [← hget, h, spec_cell_pipeline s hlen i j]
      apply spec_cell_default
      intro hh
      have hi : i < (spec_lines s).length := by rw [← read_rows_length]; exact hh.1
      apply hnot
      refine ⟨hi, ?_⟩
      rw [← hrow i hi]
      exact hh.2

theorem double_transpose_cells_witness :
    0 ∉ [97, 10, 10, 98, 9, 99, 10] ∧
    (transpose_pipeline [97, 10, 10, 98, 9, 99, 10]).length < 4252442867 ∧
    ((((transpose_pipeline (transpose_pipeline [97, 10, 10, 98, 9, 99, 10])).splitOn
      10).getD 2 []).splitOn 9)[1]? = some [99] :=
  ⟨by decide, by decide,
    ((double_transpose_cells [97, 10, 10, 98, 9, 99, 10] (by decide) (by decide)
      (by decide)).1 2 1 (by decide) (by decide)).trans (by decide)⟩

/-! ## Termination of the ingest loop -/

/-- C20: on a stream shorter than `4252442867` bytes (the range of the model),
a call of the line reader that yields a line leaves a proper suffix of the
stream, so it consumes at least one byte, the byte it may push back counted
as unread; the ingest loop therefore ends within as many iterations as the
stream has bytes plus one, whatever larger bound it is given; `num_rows` is
the number of lines the reader yields and is at most the number of bytes of
the input. -/
theorem ingest_terminates (s : List Nat) (hlen : s.length < 4252442867) :
    (∀ r, fgets_strip_realloc_len s = some r →
      (∃ consumed, consumed ≠ [] ∧ s = consumed ++ r.infile) ∧ r.infile.length < s.length) ∧
    (∀ fuel st, s.length < fuel → read_loop fuel s st = read_loop (s.length + 1) s st) ∧
    (read_lines (s.length + 1) s).length = (read_text_data s).num_rows ∧
    (read_text_data s).num_rows ≤ s.length := by
  have hrows := (read_text_data_rows s hlen).1
  have hb : s.length < 4294967296 := by omega
  refine ⟨fun r h => reader_consumes s hb r h,
    fun fuel st h => read_loop_fuel fuel (s.length + 1) s st h (Nat.lt_succ_self _) hb, ?_, ?_⟩
  · have := congrArg List.length (yielded_lines_spec s hb)
    simp only [yielded_lines, List.length_map] at this
    rw [this, hrows]
  · rw [hrows]
    simpa using spec_lines_from_length_le s.length s [] (Nat.le_refl _)

theorem ingest_terminates_witness :
    [97, 13, 98, 10].length < 9 ∧
    read_loop 9 [97, 13, 98, 10] ingest_init = read_loop 5 [97, 13, 98, 10] ingest_init ∧
    (read_text_data [97, 13, 98, 10]).num_rows ≤ 4 :=
  ⟨by decide, (ingest_terminates [97, 13, 98, 10] (by decide)).2.1 9 ingest_init (by decide),
    (ingest_terminates [97, 13, 98, 10] (by decide)).2.2.2⟩

end Transpose
